import Mathlib

/-!
# khonshu: directory-tree renderer (`main.go`)

A shallow embedding of `main.go` and of the Go library functions it calls,
followed by the theorems that settle the claims of the specification.

Modelling conventions.

* A Go `string` is its byte sequence: `Str = List Nat`, every byte a number
  below 256.  `utf8 "..."` is the byte sequence of a literal.
* The platform is Unix: `os.PathSeparator` is `/` (byte 47).
* A runtime panic of the Go program is the result `none`.
* The file system below the source path is a finite tree of `Node`s that
  records, for every directory entry, what `os.ReadDir` and `os.Stat`
  report for it; the walk `buildTree` recurses over this tree, so it is
  total.
* A line appended to `structure` is kept as the arguments of its
  `fmt.Sprintf` call (`TreeLine`); `TreeLine.render` is the string.
* Library loops that consume their input (`strings.TrimSpace`,
  `filepath.Match`) run on fuel taken from the length of the input.

Layout: the embedding, the auxiliary definitions the theorems speak about,
then lemmas and the theorems for the claims.
-/

namespace Khonshu

/-- A Go string, as its sequence of bytes. -/
abbrev Str := List Nat

/-- The bytes of a string literal (its UTF-8 encoding). -/
def utf8 (s : String) : Str :=
  s.data.flatMap (fun c => (String.utf8EncodeChar c).map UInt8.toNat)

/-- The path separator `/`. -/
abbrev sep : Nat := 47

/-- The byte `.`. -/
abbrev dot : Nat := 46

/-! ## Package `strings` -/

/-- Go `strings.HasPrefix(s, p)`. -/
def hasPrefix (s p : Str) : Bool := p.isPrefixOf s

/-- Go `strings.HasSuffix(s, x)`. -/
def hasSuffix (s x : Str) : Bool := x.isSuffixOf s

/-- Go `strings.Split(s, string(b))` for a one-byte separator `b`: the pieces
of `s` between occurrences of `b`; never empty, `[""]` for the empty
string. -/
def splitByte (b : Nat) : Str → List Str
  | [] => [[]]
  | c :: cs =>
    if c = b then [] :: splitByte b cs
    else
      match splitByte b cs with
      | [] => [[c]]
      | h :: t => (c :: h) :: t

/-- Go `strings.Split(s, string(os.PathSeparator))`. -/
def splitSep (s : Str) : List Str := splitByte sep s

/-- Go `strings.Split(s, ",")`. -/
def splitComma (s : Str) : List Str := splitByte 44 s

/-- Go `strings.Join(xs, string(b))` for a one-byte separator `b`. -/
def joinByte (b : Nat) : List Str → Str
  | [] => []
  | [x] => x
  | x :: y :: r => x ++ b :: joinByte b (y :: r)

/-- Go `strings.Join(xs, "/")`. -/
def joinSep (xs : List Str) : Str := joinByte sep xs

/-- Go `strings.Join(xs, "\n")`. -/
def joinLines (xs : List Str) : Str := joinByte 10 xs

/-- The UTF-8 encodings of the code points `unicode.IsSpace` accepts (the
Unicode White_Space property): U+0009..U+000D, U+0020, U+0085, U+00A0,
U+1680, U+2000..U+200A, U+2028, U+2029, U+202F, U+205F, U+3000. -/
def spaceEncodings : List Str :=
  [[9], [10], [11], [12], [13], [32], [0xC2, 0x85], [0xC2, 0xA0], [0xE1, 0x9A, 0x80],
   [0xE2, 0x80, 0x80], [0xE2, 0x80, 0x81], [0xE2, 0x80, 0x82], [0xE2, 0x80, 0x83],
   [0xE2, 0x80, 0x84], [0xE2, 0x80, 0x85], [0xE2, 0x80, 0x86], [0xE2, 0x80, 0x87],
   [0xE2, 0x80, 0x88], [0xE2, 0x80, 0x89], [0xE2, 0x80, 0x8A], [0xE2, 0x80, 0xA8],
   [0xE2, 0x80, 0xA9], [0xE2, 0x80, 0xAF], [0xE2, 0x81, 0x9F], [0xE3, 0x80, 0x80]]

/-- Strips one leading white-space rune: `some rest` when `s` starts with
the encoding of a white-space code point, `none` otherwise. -/
def stripSpace (s : Str) : Option Str :=
  (spaceEncodings.find? (fun e => e.isPrefixOf s)).map (fun e => s.drop e.length)

/-- Strips one trailing white-space rune from a string given in reverse
byte order. -/
def stripSpaceRev (s : Str) : Option Str :=
  (spaceEncodings.find? (fun e => e.reverse.isPrefixOf s)).map (fun e => s.drop e.length)

/-- Go `strings.TrimLeftFunc(s, unicode.IsSpace)`; the fuel bounds the number
of runes removed and `s.length` always suffices. -/
def trimLeftFuel : Nat → Str → Str
  | 0, s => s
  | fuel + 1, s =>
    match stripSpace s with
    | none => s
    | some t => trimLeftFuel fuel t

/-- Go `strings.TrimRightFunc` on the reversed string. -/
def trimRevFuel : Nat → Str → Str
  | 0, s => s
  | fuel + 1, s =>
    match stripSpaceRev s with
    | none => s
    | some t => trimRevFuel fuel t

/-- Go `strings.TrimSpace(s)`: all leading and trailing white space removed. -/
def trimSpace (s : Str) : Str :=
  let l := trimLeftFuel s.length s
  (trimRevFuel l.length l.reverse).reverse

/-! ## Package `bufio` -/

/-- Go `bufio.MaxScanTokenSize`: a `Scanner` gives up on a line that does not
fit its buffer of this many bytes. -/
def maxScanTokenSize : Nat := 64 * 1024

/-- Go `dropCR` of `bufio.ScanLines`, on a line held in reverse byte order. -/
def dropCRRev : Str → Str
  | 13 :: r => r
  | l => l

/-- The tokens `scanner.Text()` delivers while `scanner.Scan()` is true,
for a `bufio.NewScanner` (split function `ScanLines`) over `data`.  `cur`
is the line read so far, in reverse.  A line is ended by `\n` or by the end
of the data, one trailing `\r` is dropped, and the scanner stops for good
(`ErrTooLong`) at the first line of `maxScanTokenSize` bytes or more. -/
def scanLinesAux : Str → Str → List Str
  | cur, [] =>
    if cur = [] then []
    else if maxScanTokenSize ≤ cur.length then []
    else [(dropCRRev cur).reverse]
  | cur, c :: cs =>
    if c = 10 then
      if maxScanTokenSize ≤ cur.length then []
      else (dropCRRev cur).reverse :: scanLinesAux [] cs
    else scanLinesAux (c :: cur) cs

/-- The lines a `bufio.Scanner` yields for the file content `data`. -/
def scanLines (data : Str) : List Str := scanLinesAux [] data

/-! ## `main.go`: `parseGitignore` -/

/-- The loop body of `parseGitignore` over the scanned lines. -/
def collectPatterns : List Str → List Str
  | [] => []
  | text :: more =>
    let line := trimSpace text
    if line ≠ [] ∧ ¬ hasPrefix line (utf8 "#") then line :: collectPatterns more
    else collectPatterns more

/-- Go `parseGitignore(gitignorePath)`; `file` is the content of the file at
that path, `none` when `os.Open` fails. -/
def parseGitignore (file : Option Str) : List Str :=
  match file with
  | none => []
  | some data => collectPatterns (scanLines data)

/-! ## Package `path/filepath` (Unix) -/

/-- Go `filepath.Base(path)`. -/
def filepathBase (path : Str) : Str :=
  if path = [] then [dot]
  else
    let stripped := path.reverse.dropWhile (fun b => b == sep)
    let last := (stripped.takeWhile (fun b => b != sep)).reverse
    if last = [] then [sep] else last

/-- One path element of `filepath.Clean`; `out` holds the elements written
so far, the most recent first.  Empty and `.` elements are skipped; `..`
removes the last real element, is dropped at the root of a rooted path and
is kept at the front of a relative one. -/
def cleanStep (rooted : Bool) (out : List Str) (elem : Str) : List Str :=
  if elem = [] ∨ elem = [dot] then out
  else if elem = [dot, dot] then
    match out with
    | [] => if rooted then [] else [[dot, dot]]
    | top :: rest => if top = [dot, dot] then [dot, dot] :: out else rest
  else elem :: out

/-- Go `filepath.Clean(path)`. -/
def filepathClean (path : Str) : Str :=
  if path = [] then [dot]
  else
    let rooted := path.head? = some sep
    let out := (splitSep path).foldl (cleanStep rooted) []
    let body := joinSep out.reverse
    if rooted then sep :: body
    else if body = [] then [dot] else body

/-- Go `filepath.Join(a, b)`. -/
def filepathJoin (a b : Str) : Str :=
  if a ≠ [] then filepathClean (a ++ sep :: b)
  else if b ≠ [] then filepathClean b
  else []

/-- Go `filepath.Abs(path)`; `cwd` is the result of `os.Getwd`, an error text
when it fails. -/
def filepathAbs (cwd : Except Str Str) (path : Str) : Except Str Str :=
  if hasPrefix path [sep] then .ok (filepathClean path)
  else
    match cwd with
    | .error e => .error e
    | .ok wd => .ok (filepathJoin wd path)

/-- Go `utf8.RuneError`. -/
def runeError : Nat := 0xFFFD

/-- Go `utf8.DecodeRuneInString(s)`: the first rune of `s` and its width in
bytes; `(RuneError, 1)` for an invalid encoding, `(RuneError, 0)` for the
empty string. -/
def decodeRune : Str → Nat × Nat
  | [] => (runeError, 0)
  | s0 :: t =>
    if s0 < 0x80 then (s0, 1)
    else if s0 < 0xC2 ∨ 0xF4 < s0 then (runeError, 1)
    else
      let lo := if s0 = 0xE0 then 0xA0 else if s0 = 0xF0 then 0x90 else 0x80
      let hi := if s0 = 0xED then 0x9F else if s0 = 0xF4 then 0x8F else 0xBF
      match t with
      | [] => (runeError, 1)
      | s1 :: t1 =>
        if s1 < lo ∨ hi < s1 then (runeError, 1)
        else if s0 < 0xE0 then ((s0 % 32) * 64 + s1 % 64, 2)
        else
          match t1 with
          | [] => (runeError, 1)
          | s2 :: t2 =>
            if s2 < 0x80 ∨ 0xBF < s2 then (runeError, 1)
            else if s0 < 0xF0 then ((s0 % 16) * 4096 + (s1 % 64) * 64 + s2 % 64, 3)
            else
              match t2 with
              | [] => (runeError, 1)
              | s3 :: _ =>
                if s3 < 0x80 ∨ 0xBF < s3 then (runeError, 1)
                else ((s0 % 8) * 262144 + (s1 % 64) * 4096 + (s2 % 64) * 64 + s3 % 64, 4)

/-- The chunk scan of `scanChunk`, after the leading stars: the chunk runs
up to the first `*` outside a bracket range. -/
def scanSplit : Bool → Str → Str × Str
  | _, [] => ([], [])
  | inrange, c :: cs =>
    if c = 92 then
      match cs with
      | [] => ([c], [])
      | d :: ds => let r := scanSplit inrange ds; (c :: d :: r.1, r.2)
    else if c = 91 then let r := scanSplit true cs; (c :: r.1, r.2)
    else if c = 93 then let r := scanSplit false cs; (c :: r.1, r.2)
    else if c = 42 ∧ inrange = false then ([], c :: cs)
    else let r := scanSplit inrange cs; (c :: r.1, r.2)

/-- Go `scanChunk(pattern)`: `(star, chunk, rest)`. -/
def scanChunk (pattern : Str) : Bool × Str × Str :=
  let star := pattern.head? = some 42
  let r := scanSplit false (pattern.dropWhile (fun b => b == 42))
  (star, r.1, r.2)

/-- Go `getEsc(chunk)`: a possibly escaped rune of a character class and the
rest of the chunk; `none` is `ErrBadPattern`. -/
def getEsc (chunk : Str) : Option (Nat × Str) :=
  match chunk with
  | [] => none
  | c :: cs =>
    if c = 45 ∨ c = 93 then none
    else
      let chunk1 := if c = 92 then cs else chunk
      if chunk1 = [] then none
      else
        let d := decodeRune chunk1
        if d.1 = runeError ∧ d.2 = 1 then none
        else
          let nchunk := chunk1.drop d.2
          if nchunk = [] then none else some (d.1, nchunk)

/-- The range loop of a character class in `matchChunk`, for the rune `r`:
`(match, rest of chunk)`, `none` for `ErrBadPattern`.  Every round consumes
at least one byte of the chunk, so fuel above its length is never used up. -/
def classLoop (r : Nat) : Nat → Str → Bool → Nat → Option (Bool × Str)
  | 0, _, _, _ => none
  | fuel + 1, chunk, m, nrange =>
    if chunk.head? = some 93 ∧ 0 < nrange then some (m, chunk.tail)
    else
      match getEsc chunk with
      | none => none
      | some (lo, chunk1) =>
        if chunk1.head? = some 45 then
          match getEsc chunk1.tail with
          | none => none
          | some (hi, chunk2) =>
            classLoop r fuel chunk2 (m || (decide (lo ≤ r) && decide (r ≤ hi))) (nrange + 1)
        else classLoop r fuel chunk1 (m || (decide (lo ≤ r) && decide (r ≤ lo))) (nrange + 1)

/-- The three results of `matchChunk`. -/
inductive ChunkResult where
  /-- The chunk is malformed: `err = ErrBadPattern`. -/
  | bad
  /-- No match: `ok = false`, `err = nil`. -/
  | fail
  /-- The chunk matches the beginning of `s`: `ok = true` and the remainder. -/
  | rest (s : Str)
deriving DecidableEq, Repr

/-- The loop of `matchChunk(chunk, s)`; `failed` records that the match has
failed, after which the chunk is only checked for being well formed. -/
def matchChunkLoop : Nat → Bool → Str → Str → ChunkResult
  | 0, _, _, _ => .bad
  | fuel + 1, failed, chunk, s =>
    match chunk with
    | [] => if failed then .fail else .rest s
    | c :: chunk1 =>
      let failed := failed || s.isEmpty
      if c = 91 then
        let r := if failed then 0 else (decodeRune s).1
        let s1 := if failed then s else s.drop (decodeRune s).2
        let negated : Bool := chunk1.head? = some 94
        let chunk2 := if negated then chunk1.tail else chunk1
        match classLoop r fuel chunk2 false 0 with
        | none => .bad
        | some (m, chunk3) => matchChunkLoop fuel (failed || (m == negated)) chunk3 s1
      else if c = 63 then
        matchChunkLoop fuel (failed || (s.head? == some sep)) chunk1
          (if failed then s else s.drop (decodeRune s).2)
      else if c = 92 then
        match chunk1 with
        | [] => .bad
        | c2 :: chunk2 =>
          matchChunkLoop fuel (failed || (s.head? != some c2)) chunk2 (if failed then s else s.tail)
      else
        matchChunkLoop fuel (failed || (s.head? != some c)) chunk1 (if failed then s else s.tail)

/-- Go `matchChunk(chunk, s)`. -/
def matchChunk (chunk s : Str) : ChunkResult :=
  matchChunkLoop (chunk.length + 1) false chunk s

/-- The results of the star loop of `filepath.Match`. -/
inductive SkipResult where
  /-- A later position matches; the remainder of the name. -/
  | found (t : Str)
  /-- The chunk is malformed. -/
  | bad
  /-- No position up to the next separator matches. -/
  | exhausted
deriving DecidableEq, Repr

/-- The star loop of `filepath.Match`: tries the chunk after skipping
`i + 1` bytes of the name, never skipping a separator. -/
def starSkip (chunk : Str) (lastChunk : Bool) : Str → SkipResult
  | [] => .exhausted
  | c :: name1 =>
    if c = sep then .exhausted
    else
      match matchChunk chunk name1 with
      | .rest t => if lastChunk ∧ t ≠ [] then starSkip chunk lastChunk name1 else .found t
      | .bad => .bad
      | .fail => starSkip chunk lastChunk name1

/-- The main loop of `filepath.Match(pattern, name)`: `(matched, err ≠ nil)`.
Every round consumes at least one byte of the pattern.  When no position
matches, the loop ends with `return false, nil` and the rest of the pattern
is not looked at. -/
def matchLoop : Nat → Str → Str → Bool × Bool
  | 0, _, _ => (false, false)
  | fuel + 1, pattern, name =>
    if pattern = [] then (name.isEmpty, false)
    else
      let sc := scanChunk pattern
      let star := sc.1
      let chunk := sc.2.1
      let pattern1 := sc.2.2
      if star ∧ chunk = [] then (!name.contains sep, false)
      else
        let first := matchChunk chunk name
        match first with
        | .bad => (false, true)
        | .rest t =>
          if t = [] ∨ pattern1 ≠ [] then matchLoop fuel pattern1 t
          else if star then
            match starSkip chunk (pattern1 = []) name with
            | .found t1 => matchLoop fuel pattern1 t1
            | .bad => (false, true)
            | .exhausted => (false, false)
          else (false, false)
        | .fail =>
          if star then
            match starSkip chunk (pattern1 = []) name with
            | .found t1 => matchLoop fuel pattern1 t1
            | .bad => (false, true)
            | .exhausted => (false, false)
          else (false, false)

/-- Go `filepath.Match(pattern, name)`: `(matched, err ≠ nil)`; the error is
always `ErrBadPattern`. -/
def filepathMatch (pattern name : Str) : Bool × Bool :=
  matchLoop (pattern.length + 1) pattern name

/-! ## `main.go`: `shouldIgnore` -/

/-- Go `shouldIgnore(path, ignoreDirs, ignoreExts, gitignorePatterns)`. -/
def shouldIgnore (path : Str) (ignoreDirs ignoreExts gitignorePatterns : List Str) : Bool :=
  let fileName := filepathBase path
  if hasPrefix fileName (utf8 ".") then true
  else
    let pathParts := splitSep path
    if ignoreDirs.any (fun ignoredDir => pathParts.any (fun part => part == ignoredDir)) then true
    else if ignoreExts.any (fun ext => hasSuffix path ext) then true
    else if gitignorePatterns.any (fun pattern => (filepathMatch pattern path).1) then true
    else false

/-! ## Package `sort` -/

/-- The comparison `a < b` of Go strings: byte-wise lexicographic order. -/
def strLess : Str → Str → Bool
  | [], [] => false
  | [], _ :: _ => true
  | _ :: _, [] => false
  | a :: as, b :: bs => decide (a < b) || (a == b && strLess as bs)

/-- The comparison `a <= b` of Go strings. -/
def StrLE (a b : Str) : Prop := strLess b a = false

instance : DecidableRel StrLE := fun a b => inferInstanceAs (Decidable (strLess b a = false))

/-- Go `sort.Strings(xs)`: the strings in ascending byte-wise order. -/
def sortStrings (xs : List Str) : List Str := xs.insertionSort StrLE

/-! ## The file system seen by the walk -/

/-- One directory entry and everything below it: `name` is
`DirEntry.Name()`, `isDir` is `DirEntry.IsDir()` as `os.ReadDir` of the
parent reports it, `stat` is the outcome of `os.Stat` on the entry's full
path (`none` when it returns an error, otherwise `info.IsDir()`), and
`children` is what `os.ReadDir` of the entry's full path returns (empty
when it fails).  A regular file is `mk n false (some false) []`, a
directory `mk n true (some true) cs`, a symbolic link to a directory
`mk n false (some true) cs`, a dangling link `mk n false none []`. -/
inductive Node where
  | mk (name : Str) (isDir : Bool) (stat : Option Bool) (children : List Node)

/-- Go `DirEntry.Name()`. -/
def Node.name : Node → Str
  | .mk n _ _ _ => n

/-- Go `DirEntry.IsDir()`. -/
def Node.isDir : Node → Bool
  | .mk _ d _ _ => d

/-- Go `os.Stat` of the entry. -/
def Node.stat : Node → Option Bool
  | .mk _ _ s _ => s

/-- Go `os.ReadDir` of the entry. -/
def Node.children : Node → List Node
  | .mk _ _ _ cs => cs

/-- One emitted line, kept as the arguments of its `fmt.Sprintf` call:
the current prefix, the connector, whether the directory format
(`"%s%s%s"`) or the file format (`"%s%s- %s"`) is used, and the name. -/
structure TreeLine where
  indent : Str
  connector : Str
  isDir : Bool
  name : Str
deriving DecidableEq, Repr

/-- The string `fmt.Sprintf` builds for a line. -/
def TreeLine.render (l : TreeLine) : Str :=
  if l.isDir then l.indent ++ l.connector ++ l.name
  else l.indent ++ l.connector ++ utf8 "- " ++ l.name

/-- The result of `os.ReadDir(path)` for a directory with the entries
`cs`: the name and `IsDir()` of every entry, in no particular order. -/
def listing (cs : List Node) : List (Str × Bool) :=
  cs.map (fun c => (c.name, c.isDir))

/-- Go `allItems`: the sorted names of the listed directories followed by the
sorted names of the other entries. -/
def allItems (items : List (Str × Bool)) : List Str :=
  let dirs := (items.filter (fun e => e.2)).map (fun e => e.1)
  let files := (items.filter (fun e => !e.2)).map (fun e => e.1)
  sortStrings dirs ++ sortStrings files

/-- What `os.Stat(fullPath)` and the recursive call find for one directory
entry: the `os.Stat` outcome and `walk fullPath prefix`, the lines of
`buildTree(fullPath, prefix)` on it (`none` when that call panics). -/
structure Entry where
  name : Str
  stat : Option Bool
  walk : Str → Str → Option (List TreeLine)

/-- The entry `os.Stat(fullPath)` resolves: the one listed under the name
`item`. -/
def lookupEntry (entries : List Entry) (item : Str) : Option Entry :=
  entries.find? (fun e => e.name == item)

/-- The loop `for i, item := range allItems` of `buildTree(path, prefix)`,
from index `i` on; `n` is `len(allItems)`.  The result is the list of lines
appended to `structure`, `none` when `info.IsDir()` is called on the nil
`info` of a failed `os.Stat` (a nil-pointer panic). -/
def rangeItems (ignoreDirs ignoreExts gitignorePatterns : List Str) (path pfx : Str)
    (entries : List Entry) (n : Nat) : Nat → List Str → Option (List TreeLine)
  | _, [] => some []
  | i, item :: more =>
    let fullPath := filepathJoin path item
    if shouldIgnore fullPath ignoreDirs ignoreExts gitignorePatterns then
      rangeItems ignoreDirs ignoreExts gitignorePatterns path pfx entries n (i + 1) more
    else
      let isLast : Bool := i == n - 1
      let connector := if isLast then utf8 "└── " else utf8 "├── "
      match lookupEntry entries item with
      | none => none
      | some e =>
        match e.stat with
        | none => none
        | some true =>
          match e.walk fullPath (if isLast then pfx ++ utf8 "    " else pfx ++ utf8 "│   ") with
          | none => none
          | some sub =>
            match rangeItems ignoreDirs ignoreExts gitignorePatterns path pfx entries n (i + 1) more with
            | none => none
            | some rest => some (⟨pfx, connector, true, item⟩ :: (sub ++ rest))
        | some false =>
          match rangeItems ignoreDirs ignoreExts gitignorePatterns path pfx entries n (i + 1) more with
          | none => none
          | some rest => some (⟨pfx, connector, false, item⟩ :: rest)

mutual
/-- Go `buildTree(path, prefix)`, where `dir` is the file system at `path`:
the lines it appends to `structure`, `none` when it panics. -/
def buildTree (ignoreDirs ignoreExts gitignorePatterns : List Str) :
    Node → Str → Str → Option (List TreeLine)
  | .mk _ _ _ cs, path, pfx =>
    rangeItems ignoreDirs ignoreExts gitignorePatterns path pfx
      (statEntries ignoreDirs ignoreExts gitignorePatterns cs)
      (allItems (listing cs)).length 0 (allItems (listing cs))
/-- The entries of a directory as the loop of `buildTree` meets them, each
with the recursive call of `buildTree` on it. -/
def statEntries (ignoreDirs ignoreExts gitignorePatterns : List Str) : List Node → List Entry
  | [] => []
  | c :: cs =>
    ⟨c.name, c.stat, fun p q => buildTree ignoreDirs ignoreExts gitignorePatterns c p q⟩ ::
      statEntries ignoreDirs ignoreExts gitignorePatterns cs
end

/-! ## `main.go`: `generateDirectoryStructure` -/

/-- The state of the world `generateDirectoryStructure` reads. -/
structure World where
  /-- Whether `os.Stat(sourcePath)` fails with an `IsNotExist` error. -/
  sourceMissing : Bool
  /-- The content of `<sourcePath>/.gitignore`, `none` when `os.Open` fails. -/
  gitignore : Option Str
  /-- The result of `os.Getwd`. -/
  cwd : Except Str Str
  /-- The file system at `sourcePath`. -/
  root : Node
  /-- The error text of `os.Create(outputPath)`, `none` when it succeeds. -/
  createError : Option Str

/-- What a run of `generateDirectoryStructure` does: the text printed to
standard output and the text written to the output file (`none` when the
file is not created). -/
structure Effect where
  stdout : Str
  written : Option Str
deriving DecidableEq, Repr

/-- The root line: the base name of the absolute source path, with the
fall-back to the working directory; an error text when `filepath.Abs` or
`os.Getwd` fails. -/
def rootName (w : World) (sourcePath : Str) : Except Str Str :=
  match filepathAbs w.cwd sourcePath with
  | .error e => .error (utf8 "Error getting absolute path: " ++ e ++ utf8 "\n")
  | .ok absPath =>
    let name := filepathBase absPath
    if name = utf8 "." then
      match w.cwd with
      | .error e => .error (utf8 "Error getting current directory: " ++ e ++ utf8 "\n")
      | .ok currentDir => .ok (filepathBase currentDir)
    else .ok name

/-- The slice `structure` after `buildTree(sourcePath, "")`: the root line
and the rendered lines of the walk; `none` when the walk panics. -/
def treeStructure (w : World) (sourcePath : Str) (ignoreDirs ignoreExts : List Str)
    (name : Str) : Option (List Str) :=
  (buildTree ignoreDirs ignoreExts (parseGitignore w.gitignore) w.root sourcePath []).map
    (fun lines => name :: lines.map TreeLine.render)

/-- Go `generateDirectoryStructure(sourcePath, outputPath, ignoreDirs,
ignoreExts)`; `none` when the program panics. -/
def generateDirectoryStructure (w : World) (sourcePath outputPath : Str)
    (ignoreDirs ignoreExts : List Str) : Option Effect :=
  if w.sourceMissing then
    some ⟨utf8 "Error: Source path " ++ sourcePath ++ utf8 " does not exist.\n", none⟩
  else
    match rootName w sourcePath with
    | .error msg => some ⟨msg, none⟩
    | .ok name =>
      match treeStructure w sourcePath ignoreDirs ignoreExts name with
      | none => none
      | some structure_ =>
        match w.createError with
        | some e =>
          some ⟨utf8 "Error writing to " ++ outputPath ++ utf8 ": " ++ e ++ utf8 "\n", none⟩
        | none =>
          some ⟨utf8 "Project structure written to " ++ outputPath ++ utf8 "\n",
            some (joinLines structure_)⟩

/-! ## `main.go`: `main` -/

/-- The list `ignoreDirs` that `main` builds from the value of the flag
`-id`: the comma-separated entries, each trimmed. -/
def parseIgnoreDirs (iDirectory : Str) : List Str :=
  if iDirectory ≠ [] then (splitComma iDirectory).map trimSpace else []

/-- One round of the loop of `main` over the value of the flag `-ie`: the
entry is trimmed and gets a leading `.` unless it has one. -/
def normalizeExtension (e : Str) : Str :=
  let e1 := trimSpace e
  if ¬ hasPrefix e1 (utf8 ".") then utf8 "." ++ e1 else e1

/-- The list `ignoreExts` that `main` builds from the value of the flag
`-ie`. -/
def parseIgnoreExts (iExtension : Str) : List Str :=
  if iExtension ≠ [] then (splitComma iExtension).map normalizeExtension else []

/-- The output path of `main`: the value of the flag `-o`, with `.md`
appended unless it ends with it. -/
def outputPathOf (output : Str) : Str :=
  if ¬ hasSuffix output (utf8 ".md") then output ++ utf8 ".md" else output

/-- The function `main`, for the values of the flags `-s`, `-o`, `-id` and
`-ie` (their defaults are `/`, `project_structure`, `""` and `""`). -/
def main (w : World) (source output iDirectory iExtension : Str) : Option Effect :=
  generateDirectoryStructure w source (outputPathOf output) (parseIgnoreDirs iDirectory)
    (parseIgnoreExts iExtension)

/-! ## Auxiliary definitions used by the theorems -/

/-- The name of a real directory entry: not empty, without a separator,
and neither `.` nor `..` (`os.ReadDir` never lists those). -/
def ValidName (x : Str) : Prop :=
  x ≠ [] ∧ sep ∉ x ∧ x ≠ [dot] ∧ x ≠ [dot, dot]

instance (x : Str) : Decidable (ValidName x) := by
  unfold ValidName; infer_instance

/-- The entry of the loop of `buildTree` that stands for the node `c`. -/
def entryOf (ignoreDirs ignoreExts gitignorePatterns : List Str) (c : Node) : Entry :=
  ⟨c.name, c.stat, fun p q => buildTree ignoreDirs ignoreExts gitignorePatterns c p q⟩

/-- The connector of a line: the terminal one for the last entry of the
raw list, the branching one otherwise. -/
def connectorOf (isLast : Bool) : Str :=
  if isLast then utf8 "└── " else utf8 "├── "

/-- The prefix handed to the recursive call on a directory. -/
def childIndent (pfx : Str) (isLast : Bool) : Str :=
  if isLast then pfx ++ utf8 "    " else pfx ++ utf8 "│   "

/-- The child `os.Stat` resolves under the name `item`. -/
def findChild (cs : List Node) (item : Str) : Option Node :=
  cs.find? (fun c => c.name == item)

/-- The lines of `out` emitted for the entries of the directory walked
with the prefix `pfx` itself (not for entries further down). -/
def ownLines (pfx : Str) (out : List TreeLine) : List TreeLine :=
  out.filter (fun l => l.indent = pfx)

/-- Whether the item `item` of the directory at `path` passes the filter. -/
def kept (ds es ps : List Str) (path item : Str) : Bool :=
  !shouldIgnore (filepathJoin path item) ds es ps

mutual
/-- Every entry below the node has the name of a real directory entry. -/
def wellNamed : Node → Bool
  | .mk _ _ _ cs => wellNamedList cs
/-- Every entry of the list, and below it, has the name of a real
directory entry. -/
def wellNamedList : List Node → Bool
  | [] => true
  | c :: cs => decide (ValidName c.name) && wellNamed c && wellNamedList cs
end

/-- A regular file. -/
def regularFile (name : Str) : Node := .mk name false (some false) []

/-- A directory with the entries `cs`. -/
def directory (name : Str) (cs : List Node) : Node := .mk name true (some true) cs

/-- A symbolic link whose target does not exist: `os.ReadDir` lists it,
`os.Stat` fails on it. -/
def danglingLink (name : Str) : Node := .mk name false none []

/-- The tree `root/{a.txt, b/, .hidden}` of the specification's scenario. -/
def scenarioTree : Node :=
  directory (utf8 "root")
    [regularFile (utf8 "a.txt"), directory (utf8 "b") [], regularFile (utf8 ".hidden")]

/-- The scenario run: the source path `root` exists below `/home`, has no
`.gitignore`, and the output file can be created. -/
def scenarioWorld : World :=
  { sourceMissing := false, gitignore := none, cwd := .ok (utf8 "/home"),
    root := scenarioTree, createError := none }

/-- The tree `root/{a.txt, z.log}`; with the extension `.log` ignored its
last raw entry is excluded. -/
def trailingLogTree : Node :=
  directory (utf8 "root") [regularFile (utf8 "a.txt"), regularFile (utf8 "z.log")]

/-- The tree `root/{a/{x}, b}`. -/
def nestedTree : Node :=
  directory (utf8 "root") [directory (utf8 "a") [regularFile (utf8 "x")], regularFile (utf8 "b")]

/-- The tree `root/{broken, main.go}` where `broken` is a dangling
symbolic link. -/
def danglingTree : Node :=
  directory (utf8 "root") [danglingLink (utf8 "broken"), regularFile (utf8 "main.go")]

/-- A run on `danglingTree`. -/
def danglingWorld : World :=
  { sourceMissing := false, gitignore := none, cwd := .ok (utf8 "/home"),
    root := danglingTree, createError := none }

/-- The last line that `out` holds for an entry of the directory walked
with the prefix `pfx` carries the terminal connector, and the lines after
it (those of its descendants) are indented by four spaces more. -/
def LastOwnLineTerminal (pfx : Str) (out : List TreeLine) : Prop :=
  ∀ before l after, out = before ++ l :: after → l.indent = pfx →
    (∀ x ∈ after, x.indent ≠ pfx) →
    l.connector = utf8 "└── " ∧ ∀ x ∈ after, (pfx ++ utf8 "    ") <+: x.indent

/-- A line of a grandchild (indented one level below `pfx`) stands before
a line of an immediate child (indented by `pfx`). -/
def GrandchildBeforeChild (pfx : Str) (out : List TreeLine) : Prop :=
  ∃ pre g mid c post, out = pre ++ g :: (mid ++ c :: post) ∧
    (g.indent = pfx ++ utf8 "    " ∨ g.indent = pfx ++ utf8 "│   ") ∧ c.indent = pfx

/-- All lines of the immediate children stand before every line of a
grandchild. -/
def ChildrenBeforeGrandchildren (pfx : Str) (out : List TreeLine) : Prop :=
  ¬ GrandchildBeforeChild pfx out

/-- The lines of a text: the pieces between line feeds. -/
def textLines (data : Str) : List Str := splitByte 10 data

/-- The pattern sequence as the specification words it: every line
trimmed, and of the trimmed lines those that are not empty and do not start
with `#`, in file order. -/
def trimmedPatternLines (data : Str) : List Str :=
  ((textLines data).map trimSpace).filter
    (fun line => decide (line ≠ [] ∧ ¬ hasPrefix line (utf8 "#")))

/-- An ignore file with a first line of 70000 bytes `a`, followed by the
line `build`. -/
def longLineFile : Str := List.replicate 70000 97 ++ utf8 "\nbuild"

/-- A run whose source path does not exist; the tree is `danglingTree`, on
which a walk would panic. -/
def missingSourceWorld : World :=
  { sourceMissing := true, gitignore := none, cwd := .ok (utf8 "/home"),
    root := danglingTree, createError := none }

mutual
/-- The names of the entries below the directory `dir` at `path` that the
specification lists: every entry that `shouldIgnore` does not exclude and
whose ancestors below `path` are directories (by `os.Stat`) that are not
excluded either; each entry once. -/
def visibleBelow (ds es ps : List Str) : Node → Str → List Str
  | .mk _ _ _ cs, path => visibleAmong ds es ps cs path
/-- The listed names among the entries `cs` of the directory at `path` and
below them. -/
def visibleAmong (ds es ps : List Str) : List Node → Str → List Str
  | [], _ => []
  | c :: cs, path =>
    (if kept ds es ps path c.name then
      c.name :: (if c.stat = some true then visibleBelow ds es ps c (filepathJoin path c.name)
        else [])
    else []) ++ visibleAmong ds es ps cs path
end

mutual
/-- No directory of the tree lists two entries of the same name. -/
def distinctNames : Node → Bool
  | .mk _ _ _ cs => distinctNamesList cs && decide ((cs.map Node.name).Nodup)
/-- No directory below the entries of the list lists two entries of the
same name. -/
def distinctNamesList : List Node → Bool
  | [] => true
  | c :: cs => distinctNames c && distinctNamesList cs
end

mutual
/-- Two trees that differ only in the order in which the directories list
their entries: the entries of the first root are those of the second, in
another order and themselves reordered below. -/
inductive SameUpToOrder : Node → Node → Prop
  | mk (nm : Str) (d : Bool) (s : Option Bool) (cs mid cs' : List Node) :
      cs.Perm mid → SameChildren mid cs' → SameUpToOrder (.mk nm d s cs) (.mk nm d s cs')
/-- Two lists of entries that agree position by position up to the order
of the listings below. -/
inductive SameChildren : List Node → List Node → Prop
  | nil : SameChildren [] []
  | cons (c c' : Node) (cs cs' : List Node) :
      SameUpToOrder c c' → SameChildren cs cs' → SameChildren (c :: cs) (c' :: cs')
end

/-- The tree `root/{a/{x, y}, b}` listed in another order at both levels. -/
def reorderedTree : Node :=
  directory (utf8 "root")
    [regularFile (utf8 "b"),
      directory (utf8 "a") [regularFile (utf8 "y"), regularFile (utf8 "x")]]

/-- The tree `root/{a/{x, y}, b}`. -/
def orderedTree : Node :=
  directory (utf8 "root")
    [directory (utf8 "a") [regularFile (utf8 "x"), regularFile (utf8 "y")],
      regularFile (utf8 "b")]

/-- A symbolic link to a directory with the entries `cs`: `os.ReadDir` of
the parent lists it as a non-directory, `os.Stat` follows the link and
reports a directory, and `os.ReadDir` of the link lists the entries of the
target. -/
def directoryLink (name : Str) (cs : List Node) : Node := .mk name false (some true) cs

/-- The tree `root/{zdir/{p}, b.txt, zlink}` where `zlink` is a symbolic
link to `zdir`. -/
def linkedTree : Node :=
  directory (utf8 "root")
    [directory (utf8 "zdir") [regularFile (utf8 "p")], regularFile (utf8 "b.txt"),
      directoryLink (utf8 "zlink") [regularFile (utf8 "p")]]

/-- Among the lines that `out` holds for the entries of the directory
walked with the prefix `pfx`, no directory line stands after a file line,
and of two lines of the same kind the earlier has the smaller name. -/
def DirectoryLinesFirst (pfx : Str) (out : List TreeLine) : Prop :=
  (ownLines pfx out).Pairwise (fun a b =>
    (b.isDir = true → a.isDir = true) ∧ (a.isDir = b.isDir → StrLE a.name b.name))

instance (pfx : Str) (out : List TreeLine) : Decidable (DirectoryLinesFirst pfx out) := by
  unfold DirectoryLinesFirst; infer_instance


/-! ## Lemmas on strings and paths -/

theorem hasPrefix_iff (s p : Str) : hasPrefix s p = true ↔ p <+: s := by
  simp [hasPrefix]

theorem hasSuffix_iff (s x : Str) : hasSuffix s x = true ↔ x <:+ s := by
  simp [hasSuffix]

theorem splitByte_ne_nil (b : Nat) (s : Str) : splitByte b s ≠ [] := by
  induction s with
  | nil => simp [splitByte]
  | cons c cs ih =>
    unfold splitByte
    split
    · simp
    · split <;> simp

theorem splitByte_append (b : Nat) (xs ys : Str) :
    splitByte b (xs ++ b :: ys) = splitByte b xs ++ splitByte b ys := by
  induction xs with
  | nil => simp [splitByte]
  | cons c cs ih =>
    by_cases hc : c = b
    · simp [splitByte, hc, ih]
    · have hne := splitByte_ne_nil b cs
      rw [List.cons_append, splitByte, if_neg hc, ih, splitByte, if_neg hc]
      cases hs : splitByte b cs with
      | nil => exact absurd hs hne
      | cons h t => simp

theorem splitByte_of_not_mem (b : Nat) (s : Str) (h : b ∉ s) : splitByte b s = [s] := by
  induction s with
  | nil => simp [splitByte]
  | cons c cs ih =>
    have hc : c ≠ b := fun e => h (by simp [e])
    have hcs : b ∉ cs := fun e => h (by simp [e])
    rw [splitByte, if_neg hc, ih hcs]

/-- Every piece of a split is free of the separator. -/
theorem not_mem_of_mem_splitByte (b : Nat) (s x : Str) (h : x ∈ splitByte b s) : b ∉ x := by
  induction s generalizing x with
  | nil => simp [splitByte] at h; simp [h]
  | cons c cs ih =>
    by_cases hc : c = b
    · rw [splitByte, if_pos hc] at h
      rcases List.mem_cons.1 h with h | h
      · simp [h]
      · exact ih x h
    · have hne := splitByte_ne_nil b cs
      rw [splitByte, if_neg hc] at h
      cases hs : splitByte b cs with
      | nil => exact absurd hs hne
      | cons hd t =>
        rw [hs] at h ih
        rcases List.mem_cons.1 h with h | h
        · subst h
          have := ih hd (by simp)
          simp only [List.mem_cons, not_or]
          exact ⟨fun e => hc e.symm, this⟩
        · exact ih x (by simp [h])

theorem joinByte_append_singleton (b : Nat) (xs : List Str) (x : Str) (h : xs ≠ []) :
    joinByte b (xs ++ [x]) = joinByte b xs ++ b :: x := by
  induction xs with
  | nil => exact absurd rfl h
  | cons y ys ih =>
    cases ys with
    | nil => simp [joinByte]
    | cons z zs =>
      have := ih (by simp)
      simp only [List.cons_append] at this ⊢
      simp [joinByte, this]

/-- The shape of a joined path: it ends with the entry name, which is
either the whole path or follows a separator. -/
theorem filepathJoin_shape (path item : Str) (h : ValidName item) :
    ∃ pre, filepathJoin path item = pre ++ item ∧ (pre = [] ∨ ∃ q, pre = q ++ [sep]) := by
  obtain ⟨hne, hsep, hdot, hdd⟩ := h
  have hsplit : splitSep item = [item] := splitByte_of_not_mem sep item hsep
  have hstep : ∀ r out, cleanStep r out item = item :: out := by
    intro r out
    simp [cleanStep, hne, hdot, hdd]
  by_cases hp : path = []
  · subst hp
    refine ⟨[], ?_, Or.inl rfl⟩
    have hroot : ¬ item.head? = some sep := by
      cases item with
      | nil => simp
      | cons a t => intro e; simp at e; exact hsep (by simp [e])
    simp [filepathJoin, hne, filepathClean, hsplit, hstep, joinSep, joinByte, hroot]
  · have hsp : splitSep (path ++ sep :: item) = splitSep path ++ [item] := by
      unfold splitSep
      rw [splitByte_append, splitByte_of_not_mem sep item hsep]
    have hfold : ∀ r, (splitSep (path ++ sep :: item)).foldl (cleanStep r) []
        = item :: (splitSep path).foldl (cleanStep r) [] := by
      intro r
      rw [hsp, List.foldl_append]
      simp [hstep]
    have hne2 : path ++ sep :: item ≠ [] := by simp
    simp only [filepathJoin, hp, ne_eq, not_false_eq_true, if_true, filepathClean, hne2, if_false,
      hfold, List.reverse_cons]
    generalize (splitSep path).foldl (cleanStep _) [] = out
    by_cases ho : out = []
    · subst ho
      have hj : joinSep ([].reverse ++ [item]) = item := by simp [joinSep, joinByte]
      rw [hj]
      split
      · exact ⟨[sep], by simp, Or.inr ⟨[], by simp⟩⟩
      · exact ⟨[], by simp [hne], Or.inl rfl⟩
    · have hj : joinSep (out.reverse ++ [item]) = joinSep out.reverse ++ sep :: item := by
        unfold joinSep
        exact joinByte_append_singleton sep _ _ (by simpa using ho)
      rw [hj]
      split
      · exact ⟨sep :: joinSep out.reverse ++ [sep], by simp, Or.inr ⟨sep :: joinSep out.reverse, by simp⟩⟩
      · refine ⟨joinSep out.reverse ++ [sep], by simp, Or.inr ⟨joinSep out.reverse, rfl⟩⟩

/-- The entry name is a suffix of the joined path. -/
theorem suffix_filepathJoin (path item : Str) (h : ValidName item) :
    item <:+ filepathJoin path item := by
  obtain ⟨pre, hp, _⟩ := filepathJoin_shape path item h
  exact ⟨pre, hp.symm⟩

/-- The entry name is the last component of the joined path. -/
theorem mem_splitSep_filepathJoin (path item : Str) (h : ValidName item) :
    item ∈ splitSep (filepathJoin path item) := by
  obtain ⟨pre, hp, hpre⟩ := filepathJoin_shape path item h
  rw [hp]
  rcases hpre with rfl | ⟨q, rfl⟩
  · simp [splitSep, splitByte_of_not_mem sep item h.2.1]
  · have : q ++ [sep] ++ item = q ++ sep :: item := by simp
    rw [this]
    unfold splitSep
    rw [splitByte_append, splitByte_of_not_mem sep item h.2.1]
    simp

/-- Go `filepath.Base` of the joined path is the entry name. -/
theorem filepathBase_filepathJoin (path item : Str) (h : ValidName item) :
    filepathBase (filepathJoin path item) = item := by
  obtain ⟨pre, hp, hpre⟩ := filepathJoin_shape path item h
  obtain ⟨hne, hsep, -, -⟩ := h
  rw [hp]
  have hne2 : pre ++ item ≠ [] := by simp [hne]
  have hall : ∀ b ∈ item.reverse, (b != sep) = true := by
    intro b hb
    have : b ∈ item := by simpa using hb
    simp only [bne_iff_ne, ne_eq]
    intro e
    exact hsep (e ▸ this)
  have hdrop : (item.reverse ++ pre.reverse).dropWhile (fun b => b == sep)
      = item.reverse ++ pre.reverse := by
    cases hr : item.reverse with
    | nil => simp at hr; exact absurd hr hne
    | cons a t =>
      have := hall a (by simp [hr])
      simp only [bne_iff_ne, ne_eq] at this
      have hb : (a == sep) = false := by simpa using this
      simp [List.dropWhile, hb]
  have htake : (item.reverse ++ pre.reverse).takeWhile (fun b => b != sep) = item.reverse := by
    rw [List.takeWhile_append_of_pos hall]
    rcases hpre with rfl | ⟨q, rfl⟩
    · simp
    · simp [List.takeWhile]
  simp only [filepathBase, hne2, if_false, List.reverse_append, hdrop, htake, List.reverse_reverse,
    hne]

/-! ## Lemmas on the order of strings -/

theorem strLess_iff_lex (a b : Str) : strLess a b = true ↔ List.Lex (· < ·) a b := by
  induction a generalizing b with
  | nil =>
    cases b with
    | nil => simp [strLess]
    | cons y ys => simp [strLess, List.Lex.nil]
  | cons x xs ih =>
    cases b with
    | nil => simp [strLess]
    | cons y ys =>
      simp only [strLess, Bool.or_eq_true, decide_eq_true_eq, Bool.and_eq_true, beq_iff_eq, ih]
      constructor
      · rintro (h | ⟨rfl, h⟩)
        · exact List.Lex.rel h
        · exact List.Lex.cons h
      · intro h
        cases h with
        | rel h => exact Or.inl h
        | cons h => exact Or.inr ⟨rfl, h⟩

theorem strLE_iff (a b : Str) : StrLE a b ↔ ¬ List.Lex (· < ·) b a := by
  unfold StrLE
  rw [← strLess_iff_lex]
  simp

instance : IsTotal Str StrLE where
  total a b := by
    rw [strLE_iff, strLE_iff]
    by_cases h : List.Lex (· < ·) b a
    · exact Or.inr (fun h2 => asymm h h2)
    · exact Or.inl h

instance : IsTrans Str StrLE where
  trans a b c := by
    rw [strLE_iff, strLE_iff, strLE_iff]
    intro h1 h2 h3
    rcases @IsOrderConnected.conn _ (List.Lex (· < ·)) _ c b a h3 with h | h
    · exact h2 h
    · exact h1 h

theorem sortStrings_sorted (xs : List Str) : (sortStrings xs).Sorted StrLE :=
  List.sorted_insertionSort StrLE xs

theorem sortStrings_perm (xs : List Str) : (sortStrings xs).Perm xs :=
  List.perm_insertionSort StrLE xs

theorem mem_allItems (items : List (Str × Bool)) (x : Str) :
    x ∈ allItems items ↔ ∃ d, (x, d) ∈ items := by
  unfold allItems
  simp only [List.mem_append, (sortStrings_perm _).mem_iff, List.mem_map, List.mem_filter]
  constructor
  · rintro (⟨⟨a, d⟩, ⟨h, -⟩, rfl⟩ | ⟨⟨a, d⟩, ⟨h, -⟩, rfl⟩) <;> exact ⟨d, h⟩
  · rintro ⟨d, h⟩
    cases d
    · exact Or.inr ⟨(x, false), ⟨h, by simp⟩, rfl⟩
    · exact Or.inl ⟨(x, true), ⟨h, by simp⟩, rfl⟩

/-! ## Lemmas on the walk -/

theorem statEntries_eq (ds es ps : List Str) (cs : List Node) :
    statEntries ds es ps cs = cs.map (entryOf ds es ps) := by
  induction cs with
  | nil => simp [statEntries]
  | cons c cs ih => simp [statEntries, ih, entryOf]

theorem buildTree_eq (ds es ps : List Str) (nm : Str) (d : Bool) (s : Option Bool)
    (cs : List Node) (path pfx : Str) :
    buildTree ds es ps (.mk nm d s cs) path pfx =
      rangeItems ds es ps path pfx (cs.map (entryOf ds es ps))
        (allItems (listing cs)).length 0 (allItems (listing cs)) := by
  rw [buildTree, statEntries_eq]

/-- One round of the loop: an excluded item adds nothing; any other item
adds its line, followed by the lines of the recursive call when `os.Stat`
reports a directory. -/
theorem rangeItems_cons (ds es ps : List Str) (path pfx : Str) (entries : List Entry)
    (n i : Nat) (item : Str) (more : List Str) (out : List TreeLine) :
    rangeItems ds es ps path pfx entries n i (item :: more) = some out ↔
      (shouldIgnore (filepathJoin path item) ds es ps = true ∧
        rangeItems ds es ps path pfx entries n (i + 1) more = some out) ∨
      (shouldIgnore (filepathJoin path item) ds es ps = false ∧
        ∃ e d sub rest, lookupEntry entries item = some e ∧ e.stat = some d ∧
          (if d = true then
              e.walk (filepathJoin path item) (childIndent pfx (i == n - 1)) = some sub
            else sub = []) ∧
          rangeItems ds es ps path pfx entries n (i + 1) more = some rest ∧
          out = ⟨pfx, connectorOf (i == n - 1), d, item⟩ :: (sub ++ rest)) := by
  rw [rangeItems]
  dsimp only
  rw [show (if (i == n - 1) = true then utf8 "└── " else utf8 "├── ") = connectorOf (i == n - 1)
      from rfl,
    show (if (i == n - 1) = true then pfx ++ utf8 "    " else pfx ++ utf8 "│   ")
      = childIndent pfx (i == n - 1) from rfl]
  generalize (i == n - 1) = b
  by_cases hig : shouldIgnore (filepathJoin path item) ds es ps = true
  · simp [hig]
  · simp only [Bool.not_eq_true] at hig
    cases hl : lookupEntry entries item with
    | none => simp [hig]
    | some e =>
      cases hs : e.stat with
      | none => simp [hig, hs]
      | some d =>
        cases hr : rangeItems ds es ps path pfx entries n (i + 1) more with
        | none =>
          cases d
          · simp [hig, hs]
          · simp [hig, hs]
            split <;> simp
        | some rest =>
          cases d with
          | true =>
            cases hw : e.walk (filepathJoin path item) (childIndent pfx b) with
            | none => simp [hig, hs, hw]
            | some sub =>
              simp only [hig, hs, hw, Bool.false_eq_true, if_false, Option.some.injEq,
                false_and, false_or, true_and, if_true, exists_and_left, exists_eq_left']
              exact eq_comm
          | false =>
            simp only [hig, hs, Bool.false_eq_true, if_false, Option.some.injEq,
              false_and, false_or, true_and, exists_and_left, exists_eq_left']
            constructor
            · intro h; exact ⟨[], rfl, by simpa using h.symm⟩
            · rintro ⟨sub2, h1, h3⟩
              subst h1
              simpa using h3.symm

/-- Induction over the file-system tree. -/
theorem Node.induction {P : Node → Prop}
    (h : ∀ nm d s cs, (∀ c ∈ cs, P c) → P (.mk nm d s cs)) (t : Node) : P t :=
  @Node.rec P (fun cs => ∀ c ∈ cs, P c) (fun nm d s cs ih => h nm d s cs ih)
    (fun c hc => absurd hc (List.not_mem_nil c))
    (fun c cs hc hcs x hx => by
      rcases List.mem_cons.1 hx with rfl | hx
      · exact hc
      · exact hcs x hx) t

theorem wellNamedList_iff (cs : List Node) :
    wellNamedList cs = true ↔ ∀ c ∈ cs, ValidName c.name ∧ wellNamed c = true := by
  induction cs with
  | nil => simp [wellNamedList]
  | cons c cs ih => simp [wellNamedList, ih, and_assoc]

theorem lookupEntry_map (ds es ps : List Str) (cs : List Node) (item : Str) :
    lookupEntry (cs.map (entryOf ds es ps)) item = (findChild cs item).map (entryOf ds es ps) := by
  induction cs with
  | nil => simp [lookupEntry, findChild]
  | cons c cs ih =>
    simp only [lookupEntry, findChild, List.map_cons, List.find?_cons] at ih ⊢
    by_cases h : c.name = item
    · simp [entryOf, h]
    · have h2 : (c.name == item) = false := by simpa using h
      simp only [entryOf, h2] at ih ⊢
      exact ih

theorem findChild_some {cs : List Node} {item : Str} {c : Node} (h : findChild cs item = some c) :
    c ∈ cs ∧ c.name = item := by
  unfold findChild at h
  exact ⟨List.mem_of_find?_eq_some h, by simpa using List.find?_some h⟩

/-- The loop over a concatenation of items is the loop over the first part
followed by the loop over the second. -/
theorem rangeItems_append (ds es ps : List Str) (path pfx : Str) (entries : List Entry)
    (n : Nat) (l1 l2 : List Str) (i : Nat) (out : List TreeLine) :
    rangeItems ds es ps path pfx entries n i (l1 ++ l2) = some out ↔
      ∃ o1 o2, rangeItems ds es ps path pfx entries n i l1 = some o1 ∧
        rangeItems ds es ps path pfx entries n (i + l1.length) l2 = some o2 ∧ out = o1 ++ o2 := by
  induction l1 generalizing i out with
  | nil => simp [rangeItems]
  | cons x xs ih =>
    have hlen : i + (x :: xs).length = i + 1 + xs.length := by simp; omega
    rw [List.cons_append, rangeItems_cons, hlen]
    constructor
    · rintro (⟨hig, h⟩ | ⟨hig, e, d, sub, rest, hl, hs, hw, hr, rfl⟩)
      · obtain ⟨o1, o2, h1, h2, rfl⟩ := (ih _ _).1 h
        exact ⟨o1, o2, (rangeItems_cons ..).2 (Or.inl ⟨hig, h1⟩), h2, rfl⟩
      · obtain ⟨o1, o2, h1, h2, rfl⟩ := (ih _ _).1 hr
        exact ⟨_, o2, (rangeItems_cons ..).2 (Or.inr ⟨hig, e, d, sub, o1, hl, hs, hw, h1, rfl⟩), h2,
          by simp⟩
    · rintro ⟨o1, o2, h1, h2, rfl⟩
      rcases (rangeItems_cons ..).1 h1 with ⟨hig, h⟩ | ⟨hig, e, d, sub, rest, hl, hs, hw, hr, rfl⟩
      · exact Or.inl ⟨hig, (ih _ _).2 ⟨o1, o2, h, h2, rfl⟩⟩
      · exact Or.inr ⟨hig, e, d, sub, rest ++ o2, hl, hs, hw, (ih _ _).2 ⟨rest, o2, hr, h2, rfl⟩,
          by simp⟩

/-- A property of the lines of the loop follows from the property of the
lines it adds itself and of the lines of the recursive calls. -/
theorem rangeItems_forall (ds es ps : List Str) (path pfx : Str) (entries : List Entry)
    (n : Nat) (Q : TreeLine → Prop) (names : List Str)
    (hline : ∀ item ∈ names, shouldIgnore (filepathJoin path item) ds es ps = false →
      ∀ b d, Q ⟨pfx, connectorOf b, d, item⟩)
    (hwalk : ∀ item ∈ names, ∀ e, lookupEntry entries item = some e → ∀ p b sub,
      e.walk p (childIndent pfx b) = some sub → ∀ l ∈ sub, Q l)
    (i : Nat) (out : List TreeLine)
    (h : rangeItems ds es ps path pfx entries n i names = some out) : ∀ l ∈ out, Q l := by
  induction names generalizing i out with
  | nil =>
    simp [rangeItems] at h
    subst h
    simp
  | cons x xs ih =>
    have ih' := ih (fun item hi => hline item (List.mem_cons_of_mem _ hi))
      (fun item hi => hwalk item (List.mem_cons_of_mem _ hi))
    rcases (rangeItems_cons ..).1 h with ⟨-, h⟩ | ⟨hig, e, d, sub, rest, hl, hs, hw, hr, rfl⟩
    · exact ih' _ _ h
    · intro l hm
      rcases List.mem_cons.1 hm with rfl | hm1
      · exact hline x (List.mem_cons_self _ _) hig _ _
      · rcases List.mem_append.1 hm1 with hm2 | hm2
        · cases d with
          | true =>
            simp only [if_true] at hw
            exact hwalk x (List.mem_cons_self _ _) e hl _ _ _ hw l hm2
          | false =>
            simp only [Bool.false_eq_true, if_false] at hw
            subst hw
            exact absurd hm2 (List.not_mem_nil l)
        · exact ih' _ _ hr l hm2

theorem prefix_childIndent (pfx : Str) (b : Bool) : pfx <+: childIndent pfx b := by
  unfold childIndent
  split <;> exact List.prefix_append _ _

theorem length_childIndent (pfx : Str) (b : Bool) : pfx.length < (childIndent pfx b).length := by
  unfold childIndent
  split
  · rw [List.length_append, show (utf8 "    ").length = 4 from rfl]; omega
  · rw [List.length_append, show (utf8 "│   ").length = 6 from rfl]; omega

/-- Every line of `buildTree(path, prefix)` is indented by an extension of
`prefix`. -/
theorem indent_of_buildTree (ds es ps : List Str) (t : Node) :
    ∀ path pfx out, buildTree ds es ps t path pfx = some out → ∀ l ∈ out, pfx <+: l.indent := by
  induction t using Node.induction with
  | h nm d s cs ih =>
    intro path pfx out h
    rw [buildTree_eq] at h
    refine rangeItems_forall ds es ps path pfx _ _ (fun l => pfx <+: l.indent) _ ?_ ?_ 0 out h
    · intro item _ _ b d
      exact List.prefix_refl _
    · intro item _ e he p b sub hw l hl
      rw [lookupEntry_map] at he
      cases hc : findChild cs item with
      | none => simp [hc] at he
      | some c =>
        simp only [hc, Option.map_some', Option.some.injEq] at he
        subst he
        exact (prefix_childIndent pfx b).trans (ih c (findChild_some hc).1 p _ sub hw l hl)

/-- The lines of a recursive call are indented strictly deeper. -/
theorem indent_ne_of_buildTree (ds es ps : List Str) (t : Node) (path pfx : Str) (b : Bool)
    (out : List TreeLine) (h : buildTree ds es ps t path (childIndent pfx b) = some out) :
    ∀ l ∈ out, l.indent ≠ pfx := by
  intro l hl e
  have h1 := (indent_of_buildTree ds es ps t path _ out h l hl).length_le
  have h2 := length_childIndent pfx b
  rw [e] at h1
  omega


/-- The four rules of `shouldIgnore`. -/
theorem shouldIgnore_true_iff (path : Str) (ds es ps : List Str) :
    shouldIgnore path ds es ps = true ↔
      (utf8 "." <+: filepathBase path
        ∨ (∃ d ∈ ds, ∃ part ∈ splitSep path, part = d)
        ∨ (∃ ext ∈ es, ext <:+ path)
        ∨ (∃ pat ∈ ps, (filepathMatch pat path).1 = true)) := by
  unfold shouldIgnore
  simp only [hasPrefix_iff, hasSuffix_iff, List.any_eq_true, beq_iff_eq]
  by_cases h1 : utf8 "." <+: filepathBase path
  · simp [h1]
  · by_cases h2 : ∃ d ∈ ds, ∃ part ∈ splitSep path, part = d
    · simp [h1, h2]
    · by_cases h3 : ∃ ext ∈ es, ext <:+ path
      · simp [h1, h2, h3]
      · by_cases h4 : ∃ pat ∈ ps, (filepathMatch pat path).1 = true
        · simp [h1, h2, h3, h4]
        · simp [h1, h2, h3, h4]

/-- C1. `shouldIgnore` returns true if and only if at least one of its four
rules holds — the base name of the path starts with `.`, a component of
the path split on the separator equals an ignored directory name, an
ignored extension is a suffix of the path, a pattern matches the full path
under `filepath.Match` — and false exactly when all four fail. -/
theorem shouldIgnore_four_rules (path : Str) (ignoreDirs ignoreExts gitignorePatterns : List Str) :
    (shouldIgnore path ignoreDirs ignoreExts gitignorePatterns = true ↔
      (utf8 "." <+: filepathBase path
        ∨ (∃ d ∈ ignoreDirs, ∃ part ∈ splitSep path, part = d)
        ∨ (∃ ext ∈ ignoreExts, ext <:+ path)
        ∨ (∃ pat ∈ gitignorePatterns, (filepathMatch pat path).1 = true)))
    ∧ (shouldIgnore path ignoreDirs ignoreExts gitignorePatterns = false ↔
      (¬ utf8 "." <+: filepathBase path
        ∧ (∀ d ∈ ignoreDirs, ∀ part ∈ splitSep path, part ≠ d)
        ∧ (∀ ext ∈ ignoreExts, ¬ ext <:+ path)
        ∧ (∀ pat ∈ gitignorePatterns, (filepathMatch pat path).1 = false))) := by
  refine ⟨shouldIgnore_true_iff _ _ _ _, ?_⟩
  rw [← Bool.not_eq_true, shouldIgnore_true_iff]
  simp only [not_or, not_exists, not_and, Bool.not_eq_true]

/-- A kept entry with a real name is not hidden. -/
theorem not_hidden_of_kept (ds es ps : List Str) (path item : Str) (hv : ValidName item)
    (h : shouldIgnore (filepathJoin path item) ds es ps = false) : ¬ utf8 "." <+: item := by
  intro hd
  have : shouldIgnore (filepathJoin path item) ds es ps = true :=
    (shouldIgnore_true_iff _ _ _ _).2 (Or.inl (by rw [filepathBase_filepathJoin path item hv]; exact hd))
  rw [h] at this
  exact Bool.false_ne_true this

/-- An entry named like an ignored directory is excluded. -/
theorem shouldIgnore_of_mem_ignoreDirs (ds es ps : List Str) (path item : Str)
    (hv : ValidName item) (h : item ∈ ds) :
    shouldIgnore (filepathJoin path item) ds es ps = true :=
  (shouldIgnore_true_iff _ _ _ _).2
    (Or.inr (Or.inl ⟨item, h, item, mem_splitSep_filepathJoin path item hv, rfl⟩))

/-- An entry whose name ends with an ignored extension is excluded. -/
theorem shouldIgnore_of_ext (ds es ps : List Str) (path item ext : Str)
    (hv : ValidName item) (h : ext ∈ es) (hs : ext <:+ item) :
    shouldIgnore (filepathJoin path item) ds es ps = true :=
  (shouldIgnore_true_iff _ _ _ _).2
    (Or.inr (Or.inr (Or.inl ⟨ext, h, hs.trans (suffix_filepathJoin path item hv)⟩)))

theorem mem_listing {cs : List Node} {x : Str} {d : Bool} :
    (x, d) ∈ listing cs ↔ ∃ c ∈ cs, c.name = x ∧ c.isDir = d := by
  simp [listing]

theorem validName_of_mem_allItems {cs : List Node} (hw : wellNamedList cs = true) {item : Str}
    (h : item ∈ allItems (listing cs)) : ValidName item := by
  obtain ⟨d, hd⟩ := (mem_allItems _ _).1 h
  obtain ⟨c, hc, rfl, -⟩ := mem_listing.1 hd
  exact ((wellNamedList_iff cs).1 hw c hc).1

/-- The recursive calls of the loop over the entries of a node are the
calls of `buildTree` on its children. -/
theorem walk_of_lookup {ds es ps : List Str} {cs : List Node} {item : Str} {e : Entry}
    (h : lookupEntry (cs.map (entryOf ds es ps)) item = some e) :
    ∃ c, findChild cs item = some c ∧ c ∈ cs ∧ c.name = item ∧ e = entryOf ds es ps c := by
  rw [lookupEntry_map] at h
  cases hc : findChild cs item with
  | none => simp [hc] at h
  | some c =>
    simp only [hc, Option.map_some', Option.some.injEq] at h
    exact ⟨c, rfl, (findChild_some hc).1, (findChild_some hc).2, h.symm⟩

/-- The lines of the loop at its own level are those of the kept items, in
the order of the items. -/
theorem ownLines_rangeItems (ds es ps : List Str) (path pfx : Str) (entries : List Entry)
    (n : Nat) (names : List Str)
    (hwalk : ∀ item ∈ names, ∀ e, lookupEntry entries item = some e → ∀ p b sub,
      e.walk p (childIndent pfx b) = some sub → ∀ l ∈ sub, l.indent ≠ pfx)
    (i : Nat) (out : List TreeLine)
    (h : rangeItems ds es ps path pfx entries n i names = some out) :
    (ownLines pfx out).map (fun l => l.name) = names.filter (kept ds es ps path) := by
  induction names generalizing i out with
  | nil =>
    simp [rangeItems] at h
    subst h
    simp [ownLines]
  | cons x xs ih =>
    have ih' := ih (fun item hi => hwalk item (List.mem_cons_of_mem _ hi))
    rcases (rangeItems_cons ..).1 h with ⟨hig, h⟩ | ⟨hig, e, d, sub, rest, hl, hs, hw, hr, rfl⟩
    · rw [ih' _ _ h]
      simp [kept, hig]
    · have hsub : sub.filter (fun l => decide (l.indent = pfx)) = [] := by
        rw [List.filter_eq_nil_iff]
        intro l hm
        cases d with
        | true =>
          simp only [if_true] at hw
          simpa using hwalk x (List.mem_cons_self _ _) e hl _ _ _ hw l hm
        | false =>
          simp only [Bool.false_eq_true, if_false] at hw
          subst hw
          exact absurd hm (List.not_mem_nil l)
      have := ih' _ _ hr
      simp only [ownLines] at this ⊢
      simp [List.filter_cons, List.filter_append, hsub, this, kept, hig]

/-- The lines `buildTree` emits for the entries of the directory itself
are those of the kept items of `allItems`, in that order. -/
theorem ownLines_buildTree (ds es ps : List Str) (nm : Str) (d : Bool) (s : Option Bool)
    (cs : List Node) (path pfx : Str) (out : List TreeLine)
    (h : buildTree ds es ps (.mk nm d s cs) path pfx = some out) :
    (ownLines pfx out).map (fun l => l.name) = (allItems (listing cs)).filter (kept ds es ps path) := by
  rw [buildTree_eq] at h
  refine ownLines_rangeItems ds es ps path pfx _ _ _ ?_ 0 out h
  intro item _ e he p b sub hw
  obtain ⟨c, -, -, -, rfl⟩ := walk_of_lookup he
  exact indent_ne_of_buildTree ds es ps c p pfx b sub hw


/-- C3. No line emitted for an entry of the tree has a name starting with
`.`; in particular the `.gitignore` file never appears.  (Entry names are
those of real directory entries.) -/
theorem hidden_entries_never_listed (ignoreDirs ignoreExts gitignorePatterns : List Str)
    (t : Node) (hnames : wellNamed t = true) (path pfx : Str) (out : List TreeLine)
    (h : buildTree ignoreDirs ignoreExts gitignorePatterns t path pfx = some out) :
    ∀ l ∈ out, ¬ utf8 "." <+: l.name ∧ l.name ≠ utf8 ".gitignore" := by
  suffices hs : ∀ l ∈ out, ¬ utf8 "." <+: l.name by
    intro l hl
    refine ⟨hs l hl, fun e => hs l hl ?_⟩
    rw [e]
    exact ⟨utf8 "gitignore", by decide⟩
  revert path pfx out
  induction t using Node.induction with
  | h nm d s cs ih =>
    intro path pfx out h
    rw [buildTree_eq] at h
    have hw : wellNamedList cs = true := by simpa [wellNamed] using hnames
    refine rangeItems_forall ignoreDirs ignoreExts gitignorePatterns path pfx _ _
      (fun l => ¬ utf8 "." <+: l.name) _ ?_ ?_ 0 out h
    · intro item hi hk _ _
      exact not_hidden_of_kept _ _ _ path item (validName_of_mem_allItems hw hi) hk
    · intro item _ e he p b sub hwalk l hl
      obtain ⟨c, -, hc, -, rfl⟩ := walk_of_lookup he
      exact ih c hc ((wellNamedList_iff cs).1 hw c hc).2 p _ sub hwalk l hl

/-- The loop consults the entries only for the items it keeps. -/
theorem rangeItems_congr (ds es ps : List Str) (path pfx : Str) (e1 e2 : List Entry)
    (n : Nat) (names : List Str)
    (hsame : ∀ item ∈ names, shouldIgnore (filepathJoin path item) ds es ps = false →
      lookupEntry e1 item = lookupEntry e2 item) (i : Nat) :
    rangeItems ds es ps path pfx e1 n i names = rangeItems ds es ps path pfx e2 n i names := by
  induction names generalizing i with
  | nil => simp [rangeItems]
  | cons x xs ih =>
    have ih' := ih (fun item hi => hsame item (List.mem_cons_of_mem _ hi))
    rw [rangeItems, rangeItems]
    by_cases hig : shouldIgnore (filepathJoin path x) ds es ps = true
    · simp [hig, ih']
    · simp only [Bool.not_eq_true] at hig
      simp only [hig, Bool.false_eq_true, if_false, hsame x (List.mem_cons_self _ _) hig, ih']

theorem findChild_replace (cs1 cs2 : List Node) (c c' : Node) (item : Str)
    (hc : c.name ≠ item) (hc' : c'.name ≠ item) :
    findChild (cs1 ++ c :: cs2) item = findChild (cs1 ++ c' :: cs2) item := by
  have h1 : (c.name == item) = false := by simpa using hc
  have h2 : (c'.name == item) = false := by simpa using hc'
  simp [findChild, List.find?_append, List.find?_cons, h1, h2]

theorem listing_replace (cs1 cs2 : List Node) (c c' : Node)
    (hn : c'.name = c.name) (hd : c'.isDir = c.isDir) :
    listing (cs1 ++ c' :: cs2) = listing (cs1 ++ c :: cs2) := by
  simp [listing, hn, hd]

/-- C4. An entry named like an ignored directory is skipped before the
recursion: no line of the directory's own level carries its name, and the
output does not depend on what `os.Stat` reports for it or on anything
beneath it (it may be replaced by any entry of the same name and listing
kind). -/
theorem ignored_directory_subtree_skipped (ignoreDirs ignoreExts gitignorePatterns : List Str)
    (nm : Str) (d : Bool) (s : Option Bool) (cs1 cs2 : List Node) (c : Node)
    (hvalid : ValidName c.name) (hign : c.name ∈ ignoreDirs) (path pfx : Str) :
    (∀ out, buildTree ignoreDirs ignoreExts gitignorePatterns (.mk nm d s (cs1 ++ c :: cs2)) path pfx
        = some out → ∀ l ∈ ownLines pfx out, l.name ≠ c.name)
    ∧ (∀ st' cs', buildTree ignoreDirs ignoreExts gitignorePatterns
          (.mk nm d s (cs1 ++ c :: cs2)) path pfx
        = buildTree ignoreDirs ignoreExts gitignorePatterns
          (.mk nm d s (cs1 ++ .mk c.name c.isDir st' cs' :: cs2)) path pfx) := by
  have hskip := shouldIgnore_of_mem_ignoreDirs ignoreDirs ignoreExts gitignorePatterns path c.name
    hvalid hign
  constructor
  · intro out h l hl e
    have hmem : l.name ∈ (ownLines pfx out).map (fun l => l.name) := List.mem_map.2 ⟨l, hl, rfl⟩
    rw [ownLines_buildTree _ _ _ _ _ _ _ _ _ _ h, List.mem_filter] at hmem
    simp [kept, e, hskip] at hmem
  · intro st' cs'
    rw [buildTree_eq, buildTree_eq, listing_replace cs1 cs2 c (.mk c.name c.isDir st' cs') rfl rfl]
    apply rangeItems_congr
    intro item _ hk
    have hne : c.name ≠ item := by
      intro e
      rw [← e, hskip] at hk
      exact absurd hk (by decide)
    rw [lookupEntry_map, lookupEntry_map,
      findChild_replace cs1 cs2 c (.mk c.name c.isDir st' cs') item hne hne]


/-- Witness of C3 on the scenario tree, whose hidden file is left out. -/
theorem hidden_entries_never_listed_witness :
    wellNamed scenarioTree = true
    ∧ buildTree [] [] [] scenarioTree (utf8 "root") []
        = some [⟨[], utf8 "├── ", true, utf8 "b"⟩, ⟨[], utf8 "└── ", false, utf8 "a.txt"⟩]
    ∧ ∀ l ∈ [(⟨[], utf8 "├── ", true, utf8 "b"⟩ : TreeLine), ⟨[], utf8 "└── ", false, utf8 "a.txt"⟩],
        ¬ utf8 "." <+: l.name ∧ l.name ≠ utf8 ".gitignore" :=
  ⟨by decide, by decide,
    hidden_entries_never_listed [] [] [] scenarioTree (by decide) (utf8 "root") [] _ (by decide)⟩

/-- Witness of C4: with `build` ignored, the directory `build` of
`root/{build/{x.o}, main.go}` may hold anything. -/
theorem ignored_directory_subtree_skipped_witness :
    (∀ out, buildTree [utf8 "build"] [] []
        (.mk (utf8 "root") true (some true)
          ([] ++ directory (utf8 "build") [regularFile (utf8 "x.o")] :: [regularFile (utf8 "main.go")]))
        (utf8 "root") [] = some out →
        ∀ l ∈ ownLines [] out, l.name ≠ (directory (utf8 "build") [regularFile (utf8 "x.o")]).name)
    ∧ (∀ st' cs', buildTree [utf8 "build"] [] []
        (.mk (utf8 "root") true (some true)
          ([] ++ directory (utf8 "build") [regularFile (utf8 "x.o")] :: [regularFile (utf8 "main.go")]))
        (utf8 "root") []
      = buildTree [utf8 "build"] [] []
        (.mk (utf8 "root") true (some true)
          ([] ++ .mk (directory (utf8 "build") [regularFile (utf8 "x.o")]).name
            (directory (utf8 "build") [regularFile (utf8 "x.o")]).isDir st' cs'
            :: [regularFile (utf8 "main.go")]))
        (utf8 "root") []) :=
  ignored_directory_subtree_skipped [utf8 "build"] [] [] (utf8 "root") true (some true) []
    [regularFile (utf8 "main.go")] (directory (utf8 "build") [regularFile (utf8 "x.o")])
    (by decide) (by decide) (utf8 "root") []

/-- C5. The extension rule is a raw, case-sensitive suffix test on the
whole path string, blind to the kind of the entry: for a path whose base
name is not hidden, with no ignored directory names and no patterns,
`shouldIgnore` is true iff some ignored extension is a suffix of the path.
With `.txt`, a path ending in `notes.txt` is excluded while `notes.txt.bak`
and `notes.TXT` are not; with `.log`, a directory named `foo.log` is
excluded. -/
theorem extension_rule_is_raw_suffix_test :
    (∀ path exts, ¬ utf8 "." <+: filepathBase path →
      (shouldIgnore path [] exts [] = true ↔ ∃ ext ∈ exts, ext <:+ path))
    ∧ (∀ p ds ps, shouldIgnore (p ++ utf8 "notes.txt") ds [utf8 ".txt"] ps = true)
    ∧ shouldIgnore (utf8 "notes.txt.bak") [] [utf8 ".txt"] [] = false
    ∧ shouldIgnore (utf8 "notes.TXT") [] [utf8 ".txt"] [] = false
    ∧ (∀ path, shouldIgnore (filepathJoin path (utf8 "foo.log")) [] [utf8 ".log"] [] = true)
    ∧ (∀ nm d s cs path pfx,
        buildTree [] [utf8 ".log"] [] (.mk nm d s [directory (utf8 "foo.log") cs]) path pfx
          = some []) := by
  have hfoo : ∀ path, shouldIgnore (filepathJoin path (utf8 "foo.log")) [] [utf8 ".log"] [] = true :=
    fun path => shouldIgnore_of_ext [] _ [] path (utf8 "foo.log") (utf8 ".log") (by decide)
      (by simp) ⟨utf8 "foo", by decide⟩
  refine ⟨?_, ?_, by decide, by decide, hfoo, ?_⟩
  · intro path exts hh
    rw [shouldIgnore_true_iff]
    simp [hh]
  · intro p ds ps
    rw [shouldIgnore_true_iff]
    refine Or.inr (Or.inr (Or.inl ⟨utf8 ".txt", by simp, ?_⟩))
    exact ⟨p ++ utf8 "notes", by rw [List.append_assoc]; congr 1⟩
  · intro nm d s cs path pfx
    rw [buildTree_eq]
    have hl : listing [directory (utf8 "foo.log") cs] = [(utf8 "foo.log", true)] := rfl
    have ha : allItems [(utf8 "foo.log", true)] = [utf8 "foo.log"] := by decide
    rw [hl, ha, rangeItems, if_pos (hfoo path), rangeItems]

/-- Witness of C5 on the path `docs/notes.txt`. -/
theorem extension_rule_is_raw_suffix_test_witness :
    ¬ utf8 "." <+: filepathBase (utf8 "docs/notes.txt")
    ∧ (shouldIgnore (utf8 "docs/notes.txt") [] [utf8 ".txt"] [] = true ↔
        ∃ ext ∈ [utf8 ".txt"], ext <:+ utf8 "docs/notes.txt") :=
  ⟨by decide, extension_rule_is_raw_suffix_test.1 (utf8 "docs/notes.txt") [utf8 ".txt"] (by decide)⟩

theorem names_filter_listing (cs : List Node) (b : Bool) (p : Str → Bool) :
    (((listing cs).filter (fun e => e.2 == b)).map (fun e => e.1)).filter p
      = (cs.filter (fun c => (c.isDir == b) && p c.name)).map (fun c => c.name) := by
  induction cs with
  | nil => simp [listing]
  | cons c cs ih =>
    simp only [listing, List.map_cons] at ih ⊢
    by_cases h1 : c.isDir = b <;> by_cases h2 : p c.name = true <;>
      simp [List.filter_cons, h1, h2, ih]

/-- The last element with a property splits a list in one way only. -/
theorem last_split_unique {α : Type} (P : α → Prop) {a a' b b' : List α} {x x' : α}
    (h : a ++ x :: b = a' ++ x' :: b') (hx : P x) (hx' : P x')
    (hb : ∀ y ∈ b, ¬ P y) (hb' : ∀ y ∈ b', ¬ P y) : a = a' ∧ x = x' ∧ b = b' := by
  rcases List.append_eq_append_iff.1 h with ⟨c, h1, h2⟩ | ⟨c, h1, h2⟩
  · cases c with
    | nil =>
      simp only [List.nil_append, List.cons.injEq] at h2
      exact ⟨by simpa using h1.symm, h2.1, h2.2⟩
    | cons y c =>
      simp only [List.cons_append, List.cons.injEq] at h2
      exact absurd hx' (hb x' (by rw [h2.2]; simp))
  · cases c with
    | nil =>
      simp only [List.nil_append, List.cons.injEq] at h2
      exact ⟨by simpa using h1, h2.1.symm, h2.2.symm⟩
    | cons y c =>
      simp only [List.cons_append, List.cons.injEq] at h2
      exact absurd hx (hb' x (by rw [h2.2]; simp))

/-- Counterexample to C7: in `root/{a.txt, z.log}` with `.log` ignored the
only emitted entry, `a.txt`, carries the branching connector. -/
theorem last_emitted_entry_not_terminal :
    ∃ out, buildTree [] [utf8 ".log"] [] trailingLogTree (utf8 "root") [] = some out
      ∧ out = [⟨[], utf8 "├── ", false, utf8 "a.txt"⟩]
      ∧ ¬ LastOwnLineTerminal [] out := by
  refine ⟨[⟨[], utf8 "├── ", false, utf8 "a.txt"⟩], by decide, rfl, ?_⟩
  intro h
  have := (h [] ⟨[], utf8 "├── ", false, utf8 "a.txt"⟩ [] rfl rfl (by simp)).1
  revert this
  decide

/-- C7, amended. In every directory whose last entry of the raw combined
sorted list is not excluded, the last emitted entry of the directory
carries the terminal connector `└── ` and the lines of its descendants
use the four-space indentation. -/
theorem raw_last_entry_is_terminal (ignoreDirs ignoreExts gitignorePatterns : List Str)
    (t : Node) (path pfx : Str) (out : List TreeLine)
    (h : buildTree ignoreDirs ignoreExts gitignorePatterns t path pfx = some out)
    (hlast : ∀ item, (allItems (listing t.children)).getLast? = some item →
      shouldIgnore (filepathJoin path item) ignoreDirs ignoreExts gitignorePatterns = false) :
    LastOwnLineTerminal pfx out := by
  obtain ⟨nm, d, s, cs⟩ := t
  rw [buildTree_eq] at h
  simp only [Node.children] at hlast
  rcases List.eq_nil_or_concat (allItems (listing cs)) with hnil | ⟨init, item, hcat'⟩
  · rw [hnil, rangeItems] at h
    simp only [Option.some.injEq] at h
    subst h
    intro before l after e
    simp at e
  · have hcat : allItems (listing cs) = init ++ [item] := by rw [hcat', List.concat_eq_append]
    have hkeep := hlast item (by rw [hcat]; simp)
    rw [hcat] at h
    obtain ⟨o1, o2, -, h2, rfl⟩ := (rangeItems_append ..).1 h
    have hlen : (init ++ [item]).length - 1 = 0 + init.length := by simp
    rcases (rangeItems_cons ..).1 h2 with ⟨hig, -⟩ | ⟨-, e, isD, sub, rest, hl, hs, hw, hr, rfl⟩
    · rw [hkeep] at hig
      exact absurd hig (by decide)
    · rw [rangeItems] at hr
      simp only [Option.some.injEq] at hr
      subst hr
      have hb : (0 + init.length == (init ++ [item]).length - 1) = true := by
        rw [hlen]; simp
      rw [hb] at hw
      have hsub : ∀ x ∈ sub, (pfx ++ utf8 "    ") <+: x.indent := by
        intro x hx
        cases isD with
        | true =>
          simp only [if_true] at hw
          obtain ⟨c, -, -, -, rfl⟩ := walk_of_lookup hl
          exact indent_of_buildTree _ _ _ c _ _ sub hw x hx
        | false =>
          simp only [Bool.false_eq_true, if_false] at hw
          subst hw
          exact absurd hx (List.not_mem_nil x)
      have hsub2 : ∀ x ∈ sub, ¬ x.indent = pfx := by
        intro x hx e
        have := (hsub x hx).length_le
        rw [e, List.length_append, show (utf8 "    ").length = 4 from rfl] at this
        omega
      intro before l after e hl1 hafter
      rw [List.append_nil] at e
      obtain ⟨-, rfl, rfl⟩ := last_split_unique (fun x : TreeLine => x.indent = pfx) e rfl hl1
        hsub2 hafter
      rw [hb]
      exact ⟨rfl, hsub⟩

/-- Witness of amended C7 on the scenario tree, whose raw-last entry
`a.txt` is kept. -/
theorem raw_last_entry_is_terminal_witness :
    LastOwnLineTerminal []
      [⟨[], utf8 "├── ", true, utf8 "b"⟩, ⟨[], utf8 "└── ", false, utf8 "a.txt"⟩] :=
  raw_last_entry_is_terminal [] [] [] scenarioTree (utf8 "root") [] _ (by decide) (by decide)


theorem getElem?_split {α : Type} (l : List α) (i : Nat) (x : α) (h : l[i]? = some x) :
    l = l.take i ++ x :: l.drop (i + 1) ∧ (l.take i).length = i := by
  have hi : i < l.length := by
    by_contra hc
    rw [List.getElem?_eq_none (by omega)] at h
    exact absurd h (by simp)
  have hx : l[i] = x := by
    rw [List.getElem?_eq_getElem hi] at h
    exact Option.some.inj h
  refine ⟨?_, by simp; omega⟩
  rw [← hx, ← List.drop_eq_getElem_cons hi, List.take_append_drop]

/-- C8. A kept entry at index `i` of the raw combined sorted list of length
`n` is emitted as `prefix ++ connector ++ name` when `os.Stat` reports a
directory and as `prefix ++ connector ++ "- " ++ name` otherwise, the
connector being `└── ` iff `i = n - 1` and `├── ` otherwise; the children
of a directory are rendered with `prefix ++ "    "` iff `i = n - 1` and
with `prefix ++ "│   "` otherwise.  Its line stands after the lines of the
kept earlier items.  Consequently, in `root/{a.txt, z.log}` with `.log`
ignored the last visible entry carries the branching connector. -/
theorem line_determined_by_raw_index :
    (∀ (ignoreDirs ignoreExts gitignorePatterns : List Str) (nm : Str) (d : Bool)
        (s : Option Bool) (cs : List Node) (path pfx : Str) (out : List TreeLine)
        (i : Nat) (item : Str),
      buildTree ignoreDirs ignoreExts gitignorePatterns (.mk nm d s cs) path pfx = some out →
      (allItems (listing cs))[i]? = some item →
      shouldIgnore (filepathJoin path item) ignoreDirs ignoreExts gitignorePatterns = false →
      ∃ c isD before sub after,
        findChild cs item = some c ∧ c.stat = some isD
        ∧ out = before ++
            ⟨pfx, if i = (allItems (listing cs)).length - 1 then utf8 "└── " else utf8 "├── ",
              isD, item⟩ :: (sub ++ after)
        ∧ (ownLines pfx before).map (fun l => l.name)
            = ((allItems (listing cs)).take i).filter
                (kept ignoreDirs ignoreExts gitignorePatterns path)
        ∧ (if isD = true then
            buildTree ignoreDirs ignoreExts gitignorePatterns c (filepathJoin path item)
              (if i = (allItems (listing cs)).length - 1 then pfx ++ utf8 "    "
                else pfx ++ utf8 "│   ") = some sub
          else sub = [])
        ∧ ∀ conn, TreeLine.render ⟨pfx, conn, isD, item⟩
            = if isD = true then pfx ++ conn ++ item else pfx ++ conn ++ utf8 "- " ++ item)
    ∧ (buildTree [] [utf8 ".log"] [] trailingLogTree (utf8 "root") []
          = some [⟨[], utf8 "├── ", false, utf8 "a.txt"⟩]
        ∧ TreeLine.render ⟨[], utf8 "├── ", false, utf8 "a.txt"⟩ = utf8 "├── - a.txt") := by
  refine ⟨?_, by decide, by decide⟩
  intro ds es ps nm d s cs path pfx out i item h hi hk
  rw [buildTree_eq] at h
  obtain ⟨hsplit, hlen⟩ := getElem?_split _ i item hi
  have hwalk : ∀ x ∈ (allItems (listing cs)).take i, ∀ e,
      lookupEntry (cs.map (entryOf ds es ps)) x = some e → ∀ p b sub,
      e.walk p (childIndent pfx b) = some sub → ∀ l ∈ sub, l.indent ≠ pfx := by
    intro x _ e he p b sub hw
    obtain ⟨c, -, -, -, rfl⟩ := walk_of_lookup he
    exact indent_ne_of_buildTree ds es ps c p pfx b sub hw
  generalize hn : (allItems (listing cs)).length = n at h ⊢
  rw [hsplit] at h
  obtain ⟨o1, o2, h1, h2, rfl⟩ := (rangeItems_append ..).1 h
  rw [hlen, Nat.zero_add] at h2
  rcases (rangeItems_cons ..).1 h2 with ⟨hig, -⟩ | ⟨-, e, isD, sub, rest, hl, hs, hw, -, rfl⟩
  · rw [hk] at hig
    exact absurd hig (by decide)
  · obtain ⟨c, hc, -, -, rfl⟩ := walk_of_lookup hl
    refine ⟨c, isD, o1, sub, rest, hc, hs, ?_, ownLines_rangeItems _ _ _ _ _ _ _ _ hwalk 0 o1 h1,
      ?_, ?_⟩
    · simp [connectorOf]
    · cases isD with
      | true =>
        simp only [if_true, entryOf, childIndent, beq_iff_eq] at hw ⊢
        exact hw
      | false =>
        simp only [Bool.false_eq_true, if_false] at hw ⊢
        exact hw
    · intro conn
      cases isD <;> simp [TreeLine.render]

/-- Witness of C8: the entry `b`, at raw index 0 of 3 in the scenario tree. -/
theorem line_determined_by_raw_index_witness :
    ∃ c isD before sub after,
      findChild scenarioTree.children (utf8 "b") = some c ∧ c.stat = some isD
      ∧ [(⟨[], utf8 "├── ", true, utf8 "b"⟩ : TreeLine), ⟨[], utf8 "└── ", false, utf8 "a.txt"⟩]
          = before ++
            ⟨[], if 0 = (allItems (listing scenarioTree.children)).length - 1 then utf8 "└── "
              else utf8 "├── ", isD, utf8 "b"⟩ :: (sub ++ after)
      ∧ (ownLines [] before).map (fun l => l.name)
          = ((allItems (listing scenarioTree.children)).take 0).filter
              (kept [] [] [] (utf8 "root"))
      ∧ (if isD = true then
          buildTree [] [] [] c (filepathJoin (utf8 "root") (utf8 "b"))
            (if 0 = (allItems (listing scenarioTree.children)).length - 1 then [] ++ utf8 "    "
              else [] ++ utf8 "│   ") = some sub
        else sub = [])
      ∧ ∀ conn, TreeLine.render ⟨[], conn, isD, utf8 "b"⟩
          = if isD = true then [] ++ conn ++ utf8 "b" else [] ++ conn ++ utf8 "- " ++ utf8 "b" :=
  line_determined_by_raw_index.1 [] [] [] (utf8 "root") true (some true) scenarioTree.children
    (utf8 "root") [] _ 0 (utf8 "b") (by decide) (by decide) (by decide)


/-- Counterexample to C9: in `root/{a/{x}, b}` the line of the grandchild
`x` stands before the line of the immediate child `b`. -/
theorem grandchild_listed_before_child :
    ∃ out, buildTree [] [] [] nestedTree (utf8 "root") [] = some out
      ∧ out = [⟨[], utf8 "├── ", true, utf8 "a"⟩, ⟨utf8 "│   ", utf8 "└── ", false, utf8 "x"⟩,
          ⟨[], utf8 "└── ", false, utf8 "b"⟩]
      ∧ ¬ ChildrenBeforeGrandchildren [] out := by
  refine ⟨_, by decide, rfl, fun h => h ?_⟩
  exact ⟨[⟨[], utf8 "├── ", true, utf8 "a"⟩], ⟨utf8 "│   ", utf8 "└── ", false, utf8 "x"⟩, [],
    ⟨[], utf8 "└── ", false, utf8 "b"⟩, [], rfl, Or.inr rfl, rfl⟩

/-- The loop emits one block per kept item: its line, directly followed by
the lines of the recursive call on it. -/
theorem rangeItems_blocks (ds es ps : List Str) (cs : List Node) (path pfx : Str) (n : Nat)
    (names : List Str) (i : Nat) (out : List TreeLine)
    (h : rangeItems ds es ps path pfx (cs.map (entryOf ds es ps)) n i names = some out) :
    ∃ blocks : List (TreeLine × List TreeLine),
      out = (blocks.map (fun b => b.1 :: b.2)).flatten
      ∧ blocks.map (fun b => b.1.name) = names.filter (kept ds es ps path)
      ∧ ∀ b ∈ blocks, b.1.indent = pfx ∧ (∀ l ∈ b.2, l.indent ≠ pfx)
          ∧ (if b.1.isDir = true then
              ∃ c q, findChild cs b.1.name = some c
                ∧ buildTree ds es ps c (filepathJoin path b.1.name) q = some b.2
            else b.2 = []) := by
  induction names generalizing i out with
  | nil =>
    simp [rangeItems] at h
    subst h
    exact ⟨[], by simp⟩
  | cons x xs ih =>
    rcases (rangeItems_cons ..).1 h with ⟨hig, h⟩ | ⟨hig, e, d, sub, rest, hl, hs, hw, hr, rfl⟩
    · obtain ⟨blocks, h1, h2, h3⟩ := ih _ _ h
      exact ⟨blocks, h1, by simp [h2, kept, hig], h3⟩
    · obtain ⟨blocks, h1, h2, h3⟩ := ih _ _ hr
      obtain ⟨c, hc, -, -, rfl⟩ := walk_of_lookup hl
      refine ⟨(⟨pfx, connectorOf (i == n - 1), d, x⟩, sub) :: blocks, by simp [h1],
        by simp [h2, kept, hig], ?_⟩
      intro b hb
      rcases List.mem_cons.1 hb with rfl | hb
      · cases d with
        | true =>
          simp only [if_true, entryOf] at hw
          exact ⟨rfl, indent_ne_of_buildTree ds es ps c _ pfx _ sub hw, by
            simp only [if_true]; exact ⟨c, _, hc, hw⟩⟩
        | false =>
          simp only [Bool.false_eq_true, if_false] at hw
          subst hw
          exact ⟨rfl, by simp, by simp⟩
      · exact h3 b hb

/-- C9, amended. The walk is depth-first and pre-order: the output of a
directory is a sequence of blocks, one per kept entry in the order of the
raw list; a block is the entry's line directly followed by all lines of
the entry's own subtree (none unless `os.Stat` reports a directory), so an
entry is listed before the walk descends into it, and its descendants are
listed before its next sibling. -/
theorem child_line_followed_by_own_subtree (ignoreDirs ignoreExts gitignorePatterns : List Str)
    (t : Node) (path pfx : Str) (out : List TreeLine)
    (h : buildTree ignoreDirs ignoreExts gitignorePatterns t path pfx = some out) :
    ∃ blocks : List (TreeLine × List TreeLine),
      out = (blocks.map (fun b => b.1 :: b.2)).flatten
      ∧ blocks.map (fun b => b.1.name)
          = (allItems (listing t.children)).filter
              (kept ignoreDirs ignoreExts gitignorePatterns path)
      ∧ ∀ b ∈ blocks, b.1.indent = pfx ∧ (∀ l ∈ b.2, l.indent ≠ pfx)
          ∧ (if b.1.isDir = true then
              ∃ c q, findChild t.children b.1.name = some c
                ∧ buildTree ignoreDirs ignoreExts gitignorePatterns c
                    (filepathJoin path b.1.name) q = some b.2
            else b.2 = []) := by
  obtain ⟨nm, d, s, cs⟩ := t
  rw [buildTree_eq] at h
  exact rangeItems_blocks _ _ _ cs path pfx _ _ 0 out h

/-- Witness of amended C9 on `root/{a/{x}, b}`. -/
theorem child_line_followed_by_own_subtree_witness :
    ∃ blocks : List (TreeLine × List TreeLine),
      [(⟨[], utf8 "├── ", true, utf8 "a"⟩ : TreeLine),
          ⟨utf8 "│   ", utf8 "└── ", false, utf8 "x"⟩, ⟨[], utf8 "└── ", false, utf8 "b"⟩]
        = (blocks.map (fun b => b.1 :: b.2)).flatten
      ∧ blocks.map (fun b => b.1.name)
          = (allItems (listing nestedTree.children)).filter (kept [] [] [] (utf8 "root"))
      ∧ ∀ b ∈ blocks, b.1.indent = [] ∧ (∀ l ∈ b.2, l.indent ≠ [])
          ∧ (if b.1.isDir = true then
              ∃ c q, findChild nestedTree.children b.1.name = some c
                ∧ buildTree [] [] [] c (filepathJoin (utf8 "root") b.1.name) q = some b.2
            else b.2 = []) :=
  child_line_followed_by_own_subtree [] [] [] nestedTree (utf8 "root") [] _ (by decide)

/-- A kept entry on which `os.Stat` fails makes the walk panic: `info` is
nil and `info.IsDir()` dereferences it. -/
theorem buildTree_panics_of_stat_failure (ds es ps : List Str) (nm : Str) (d : Bool)
    (s : Option Bool) (cs : List Node) (c : Node) (path pfx : Str)
    (hc : findChild cs c.name = some c) (hfail : c.stat = none)
    (hk : shouldIgnore (filepathJoin path c.name) ds es ps = false) :
    buildTree ds es ps (.mk nm d s cs) path pfx = none := by
  cases hb : buildTree ds es ps (.mk nm d s cs) path pfx with
  | none => rfl
  | some out =>
    exfalso
    rw [buildTree_eq] at hb
    have hmem : c.name ∈ allItems (listing cs) :=
      (mem_allItems _ _).2 ⟨c.isDir, mem_listing.2 ⟨c, (findChild_some hc).1, rfl, rfl⟩⟩
    obtain ⟨l1, l2, hsplit⟩ := List.append_of_mem hmem
    generalize (allItems (listing cs)).length = n at hb
    rw [hsplit] at hb
    obtain ⟨o1, o2, -, h2, -⟩ := (rangeItems_append ..).1 hb
    rcases (rangeItems_cons ..).1 h2 with ⟨hig, -⟩ | ⟨-, e, isD, sub, rest, hl, hs, -⟩
    · rw [hk] at hig
      exact absurd hig (by decide)
    · rw [lookupEntry_map, hc] at hl
      simp only [Option.map_some', Option.some.injEq] at hl
      subst hl
      simp [entryOf, hfail] at hs

/-- C10, the code at the failing input.  In `root/{broken, main.go}`, where
`broken` is a dangling symbolic link, `os.Stat` fails on the kept entry
`broken`; the walk panics instead of rendering `broken` as a file line and
going on, and nothing is written. -/
theorem stat_failure_crashes_walk :
    lookupEntry (statEntries [] [] [] danglingTree.children) (utf8 "broken")
        = some (entryOf [] [] [] (danglingLink (utf8 "broken")))
    ∧ (danglingLink (utf8 "broken")).stat = none
    ∧ shouldIgnore (filepathJoin (utf8 "root") (utf8 "broken")) [] [] [] = false
    ∧ buildTree [] [] [] danglingTree (utf8 "root") [] = none
    ∧ generateDirectoryStructure danglingWorld (utf8 "root") (utf8 "out.md") [] [] = none := by
  refine ⟨?_, rfl, by decide, by decide, by decide⟩
  rw [statEntries_eq]
  rfl


/-- One line of the scanner: the bytes up to the next line feed form a
token unless they number `maxScanTokenSize` or more, in which case the
scanner stops. -/
theorem scanLinesAux_line (cur l rest : Str) (h : 10 ∉ l) :
    scanLinesAux cur (l ++ 10 :: rest) =
      if maxScanTokenSize ≤ (l.reverse ++ cur).length then []
      else (dropCRRev (l.reverse ++ cur)).reverse :: scanLinesAux [] rest := by
  induction l generalizing cur with
  | nil => simp [scanLinesAux]
  | cons c cs ih =>
    have hc : c ≠ 10 := fun e => h (by simp [e])
    have hcs : 10 ∉ cs := fun e => h (by simp [e])
    rw [List.cons_append, scanLinesAux, if_neg hc, ih _ hcs]
    simp

theorem collectPatterns_eq (tokens : List Str) :
    collectPatterns tokens = (tokens.map trimSpace).filter
      (fun line => decide (line ≠ [] ∧ ¬ hasPrefix line (utf8 "#"))) := by
  induction tokens with
  | nil => simp [collectPatterns]
  | cons t ts ih =>
    simp only [collectPatterns, List.map_cons, List.filter_cons, ih, decide_eq_true_eq]

/-- C6, the code at the failing input.  For an ignore file whose first line
has 70000 bytes, followed by the line `build`, the scanner stops at the
over-long line (`bufio.ErrTooLong`, never looked at), so `parseGitignore`
returns no pattern at all, although the trimmed, non-empty, non-comment
lines of the file include `build`. -/
theorem long_line_truncates_patterns :
    parseGitignore (some longLineFile) = []
    ∧ utf8 "build" ∈ trimmedPatternLines longLineFile
    ∧ parseGitignore (some longLineFile) ≠ trimmedPatternLines longLineFile := by
  have h1 : parseGitignore (some longLineFile) = [] := by
    have hno : 10 ∉ List.replicate 70000 97 := by
      intro h
      have := List.eq_of_mem_replicate h
      omega
    have : longLineFile = List.replicate 70000 97 ++ 10 :: utf8 "build" := by
      unfold longLineFile
      congr 1
    simp only [parseGitignore, scanLines]
    rw [this, scanLinesAux_line _ _ _ hno, if_pos, collectPatterns]
    rw [List.length_append, List.length_reverse, List.length_replicate]
    decide
  have h2 : utf8 "build" ∈ trimmedPatternLines longLineFile := by
    have hsplit : textLines longLineFile
        = splitByte 10 (List.replicate 70000 97) ++ splitByte 10 (utf8 "build") := by
      unfold textLines longLineFile
      exact splitByte_append 10 _ _
    have hb : splitByte 10 (utf8 "build") = [utf8 "build"] := by decide
    unfold trimmedPatternLines
    rw [hsplit, hb, List.mem_filter]
    refine ⟨List.mem_map.2 ⟨utf8 "build",
      List.mem_append_right _ (List.mem_singleton.2 rfl), by decide⟩, by decide⟩
  refine ⟨h1, h2, fun e => ?_⟩
  rw [h1] at e
  rw [← e] at h2
  exact absurd h2 (List.not_mem_nil _)


theorem spaceEncodings_ne_nil : ∀ e ∈ spaceEncodings, e ≠ [] := by decide

set_option maxRecDepth 100000 in
theorem spaceEncodings_prefix_free :
    ∀ e ∈ spaceEncodings, ∀ e' ∈ spaceEncodings, e.isPrefixOf e' = true → e = e' := by decide

theorem spaceEncodings_cr : ∀ e ∈ spaceEncodings, 2 ≤ e.length → e.getLast? ≠ some 13 := by
  decide

theorem stripSpace_eq_some {s t : Str} :
    stripSpace s = some t ↔ ∃ e ∈ spaceEncodings, s = e ++ t := by
  unfold stripSpace
  constructor
  · intro h
    cases hf : spaceEncodings.find? (fun e => e.isPrefixOf s) with
    | none => simp [hf] at h
    | some e =>
      simp only [hf, Option.map_some', Option.some.injEq] at h
      have hp : e <+: s := by simpa using List.find?_some hf
      obtain ⟨r, rfl⟩ := hp
      refine ⟨e, List.mem_of_find?_eq_some hf, ?_⟩
      rw [← h]
      simp
  · rintro ⟨e, he, rfl⟩
    cases hf : spaceEncodings.find? (fun e' => e'.isPrefixOf (e ++ t)) with
    | none =>
      have := List.find?_eq_none.1 hf e he
      simp at this
    | some e' =>
      have hp : e' <+: e ++ t := by simpa using List.find?_some hf
      have he' := List.mem_of_find?_eq_some hf
      have hpe : e <+: e ++ t := List.prefix_append _ _
      have : e' = e := by
        rcases Nat.le_total e'.length e.length with hl | hl
        · exact spaceEncodings_prefix_free e' he' e he
            (by simpa using List.prefix_of_prefix_length_le hp hpe hl)
        · exact (spaceEncodings_prefix_free e he e' he'
            (by simpa using List.prefix_of_prefix_length_le hpe hp hl)).symm
      subst this
      simp

theorem stripSpace_eq_none {s : Str} :
    stripSpace s = none ↔ ∀ e ∈ spaceEncodings, ¬ e <+: s := by
  unfold stripSpace
  simp [List.find?_eq_none]

theorem stripSpaceRev_eq_some {s t : Str} :
    stripSpaceRev s = some t ↔ ∃ e ∈ spaceEncodings, s = e.reverse ++ t := by
  unfold stripSpaceRev
  constructor
  · intro h
    cases hf : spaceEncodings.find? (fun e => e.reverse.isPrefixOf s) with
    | none => simp [hf] at h
    | some e =>
      simp only [hf, Option.map_some', Option.some.injEq] at h
      have hp : e.reverse <+: s := by simpa using List.find?_some hf
      obtain ⟨r, rfl⟩ := hp
      refine ⟨e, List.mem_of_find?_eq_some hf, ?_⟩
      rw [← h, ← List.length_reverse e]
      simp
  · rintro ⟨e, he, rfl⟩
    cases hf : spaceEncodings.find? (fun e' => e'.reverse.isPrefixOf (e.reverse ++ t)) with
    | none =>
      have := List.find?_eq_none.1 hf e he
      simp at this
    | some e' =>
      have hp : e'.reverse <+: e.reverse ++ t := by simpa using List.find?_some hf
      have he' := List.mem_of_find?_eq_some hf
      have hpe : e.reverse <+: e.reverse ++ t := List.prefix_append _ _
      have hrev : ∀ a ∈ spaceEncodings, ∀ b ∈ spaceEncodings,
          a.reverse.isPrefixOf b.reverse = true → a = b := by
        set_option maxRecDepth 100000 in decide
      have : e' = e := by
        rcases Nat.le_total e'.length e.length with hl | hl
        · exact hrev e' he' e he
            (by simpa using List.prefix_of_prefix_length_le hp hpe (by simpa using hl))
        · exact (hrev e he e' he'
            (by simpa using List.prefix_of_prefix_length_le hpe hp (by simpa using hl))).symm
      subst this
      simp only [Option.map_some', Option.some.injEq]
      rw [← List.length_reverse e']
      simp

theorem stripSpace_length {s t : Str} (h : stripSpace s = some t) : t.length < s.length := by
  obtain ⟨e, he, rfl⟩ := stripSpace_eq_some.1 h
  have := List.length_pos.2 (spaceEncodings_ne_nil e he)
  simp
  omega

theorem stripSpaceRev_length {s t : Str} (h : stripSpaceRev s = some t) :
    t.length < s.length := by
  obtain ⟨e, he, rfl⟩ := stripSpaceRev_eq_some.1 h
  have := List.length_pos.2 (spaceEncodings_ne_nil e he)
  simp
  omega

/-- With enough fuel the left trim stops at a string without leading white
space. -/
theorem stripSpace_trimLeftFuel (n : Nat) (s : Str) (h : s.length ≤ n) :
    stripSpace (trimLeftFuel n s) = none := by
  induction n generalizing s with
  | zero =>
    have : s = [] := List.length_eq_zero.1 (by omega)
    subst this
    decide
  | succ n ih =>
    rw [trimLeftFuel]
    cases hs : stripSpace s with
    | none => simpa using hs
    | some t =>
      have := stripSpace_length hs
      exact ih t (by omega)

theorem stripSpaceRev_trimRevFuel (n : Nat) (s : Str) (h : s.length ≤ n) :
    stripSpaceRev (trimRevFuel n s) = none := by
  induction n generalizing s with
  | zero =>
    have : s = [] := List.length_eq_zero.1 (by omega)
    subst this
    decide
  | succ n ih =>
    rw [trimRevFuel]
    cases hs : stripSpaceRev s with
    | none => simpa using hs
    | some t =>
      have := stripSpaceRev_length hs
      exact ih t (by omega)

theorem trimLeftFuel_fuel (n m : Nat) (s : Str) (hn : s.length ≤ n) (hm : s.length ≤ m) :
    trimLeftFuel n s = trimLeftFuel m s := by
  induction n generalizing m s with
  | zero =>
    have : s = [] := List.length_eq_zero.1 (by omega)
    subst this
    cases m <;> rfl
  | succ n ih =>
    cases hs : stripSpace s with
    | none => cases m <;> simp [trimLeftFuel, hs]
    | some t =>
      have hl := stripSpace_length hs
      cases m with
      | zero => omega
      | succ m =>
        simp only [trimLeftFuel, hs]
        exact ih m t (by omega) (by omega)

theorem trimRevFuel_suffix (n : Nat) (s : Str) : trimRevFuel n s <:+ s := by
  induction n generalizing s with
  | zero => exact List.suffix_refl _
  | succ n ih =>
    rw [trimRevFuel]
    cases hs : stripSpaceRev s with
    | none => exact List.suffix_refl _
    | some t =>
      obtain ⟨e, -, rfl⟩ := stripSpaceRev_eq_some.1 hs
      exact (ih t).trans (List.suffix_append _ _)

/-- The result of `strings.TrimSpace` has neither leading nor trailing
white space. -/
theorem trimSpace_trimmed (s : Str) :
    stripSpace (trimSpace s) = none ∧ stripSpaceRev (trimSpace s).reverse = none := by
  unfold trimSpace
  simp only [List.reverse_reverse]
  constructor
  · have hl := stripSpace_trimLeftFuel s.length s (Nat.le_refl _)
    rw [stripSpace_eq_none] at hl ⊢
    intro e he hp
    have hsuf := trimRevFuel_suffix (trimLeftFuel s.length s).length
      (trimLeftFuel s.length s).reverse
    have hpre : (trimRevFuel (trimLeftFuel s.length s).length
        (trimLeftFuel s.length s).reverse).reverse <+: trimLeftFuel s.length s := by
      have := List.reverse_prefix.2 hsuf
      simpa using this
    exact hl e he (hp.trans hpre)
  · exact stripSpaceRev_trimRevFuel _ _ (by simp)


theorem stripSpace_append {x t : Str} (q : Str) (h : stripSpace x = some t) :
    stripSpace (x ++ q) = some (t ++ q) := by
  obtain ⟨e, he, rfl⟩ := stripSpace_eq_some.1 h
  exact stripSpace_eq_some.2 ⟨e, he, by simp⟩

theorem stripSpace_concat_cr {x : Str} (h : stripSpace x = none) (hx : x ≠ []) :
    stripSpace (x ++ [13]) = none := by
  rw [stripSpace_eq_none] at h ⊢
  intro e he hp
  rcases List.prefix_concat_iff.1 hp with rfl | hp
  · refine spaceEncodings_cr _ he ?_ (by simp)
    have := List.length_pos.2 hx
    simp
    omega
  · exact h e he hp

theorem trimLeftFuel_nil (n : Nat) : trimLeftFuel n [] = [] := by
  cases n <;> rfl

theorem trimLeftFuel_of_none {s : Str} (n : Nat) (h : stripSpace s = none) :
    trimLeftFuel n s = s := by
  cases n with
  | zero => rfl
  | succ n => simp [trimLeftFuel, h]

theorem trimLeftFuel_concat_cr (n : Nat) (x : Str) (h : x.length + 1 ≤ n) :
    trimLeftFuel n (x ++ [13]) =
      if trimLeftFuel x.length x = [] then [] else trimLeftFuel x.length x ++ [13] := by
  induction n generalizing x with
  | zero => omega
  | succ n ih =>
    by_cases hx : x = []
    · subst hx
      have h13 : stripSpace [13] = some [] := by decide
      simp [trimLeftFuel, h13, trimLeftFuel_nil]
    · cases hs : stripSpace x with
      | none =>
        rw [trimLeftFuel_of_none _ hs, trimLeftFuel_of_none _ (stripSpace_concat_cr hs hx),
          if_neg hx]
      | some t =>
        have hl := stripSpace_length hs
        rw [trimLeftFuel, stripSpace_append [13] hs]
        simp only
        rw [ih t (by omega)]
        have hfuel : trimLeftFuel x.length x = trimLeftFuel t.length t := by
          obtain ⟨k, hk⟩ : ∃ k, x.length = k + 1 := ⟨x.length - 1, by omega⟩
          rw [hk, trimLeftFuel, hs]
          exact trimLeftFuel_fuel k t.length t (by omega) (Nat.le_refl _)
        rw [hfuel]

/-- Go `strings.TrimSpace` removes a trailing carriage return, so `dropCR`
makes no difference to the trimmed line. -/
theorem trimSpace_concat_cr (x : Str) : trimSpace (x ++ [13]) = trimSpace x := by
  unfold trimSpace
  simp only
  have h1 : trimLeftFuel (x ++ [13]).length (x ++ [13])
      = if trimLeftFuel x.length x = [] then [] else trimLeftFuel x.length x ++ [13] :=
    trimLeftFuel_concat_cr _ x (by simp)
  rw [h1]
  by_cases hl : trimLeftFuel x.length x = []
  · simp [hl, trimRevFuel]
  · rw [if_neg hl]
    have h13 : stripSpaceRev (13 :: (trimLeftFuel x.length x).reverse)
        = some (trimLeftFuel x.length x).reverse :=
      stripSpaceRev_eq_some.2 ⟨[13], by decide, rfl⟩
    rw [List.length_append, List.reverse_append]
    simp only [List.length_singleton, List.reverse_singleton, List.singleton_append]
    rw [trimRevFuel, h13]

theorem trimSpace_dropCRRev (cur : Str) :
    trimSpace (dropCRRev cur).reverse = trimSpace cur.reverse := by
  unfold dropCRRev
  split
  · rw [List.reverse_cons, trimSpace_concat_cr]
  · rfl

theorem collectPatterns_cons_congr (a b : Str) (r r' : List Str) (h : trimSpace a = trimSpace b)
    (hr : collectPatterns r = collectPatterns r') :
    collectPatterns (a :: r) = collectPatterns (b :: r') := by
  simp only [collectPatterns, h, hr]

/-- For a file whose lines are all shorter than the scanner's buffer, the
patterns collected from the scanner's tokens are those collected from the
lines of the file. -/
theorem collectPatterns_scanLinesAux (data cur : Str) (hcur : 10 ∉ cur)
    (hshort : ∀ l ∈ splitByte 10 (cur.reverse ++ data), l.length < maxScanTokenSize) :
    collectPatterns (scanLinesAux cur data)
      = collectPatterns (splitByte 10 (cur.reverse ++ data)) := by
  have hrev : 10 ∉ cur.reverse := by simpa using hcur
  induction data generalizing cur with
  | nil =>
    rw [List.append_nil, splitByte_of_not_mem 10 _ hrev] at hshort ⊢
    have hlen : ¬ maxScanTokenSize ≤ cur.length := by
      have := hshort cur.reverse (by simp)
      simp at this
      omega
    rw [scanLinesAux]
    by_cases hc : cur = []
    · subst hc
      decide
    · rw [if_neg hc, if_neg hlen]
      exact collectPatterns_cons_congr _ _ _ _ (trimSpace_dropCRRev cur) rfl
  | cons c cs ih =>
    rw [scanLinesAux]
    by_cases hc : c = 10
    · subst hc
      rw [splitByte_append, splitByte_of_not_mem 10 _ hrev] at hshort ⊢
      have hlen : ¬ maxScanTokenSize ≤ cur.length := by
        have := hshort cur.reverse (by simp)
        simp at this
        omega
      rw [if_pos rfl, if_neg hlen]
      refine collectPatterns_cons_congr _ _ _ _ (trimSpace_dropCRRev cur) ?_
      exact ih [] (by simp) (fun l hl => hshort l (List.mem_append_right _ (by simpa using hl)))
        (by simp)
    · rw [if_neg hc]
      have heq : (c :: cur).reverse ++ cs = cur.reverse ++ c :: cs := by simp
      have := ih (c :: cur) (by simp [hcur]; exact fun e => hc e.symm) (by rw [heq]; exact hshort)
        (by simp [hcur]; exact fun e => hc e.symm)
      rw [this, heq]

/-- For every readable ignore file whose lines are all shorter than
`bufio.MaxScanTokenSize`, `parseGitignore` returns the trimmed lines that
are not empty and do not start with `#`, in file order. -/
theorem parseGitignore_of_short_lines (data : Str)
    (hshort : ∀ l ∈ textLines data, l.length < maxScanTokenSize) :
    parseGitignore (some data) = trimmedPatternLines data := by
  unfold parseGitignore scanLines trimmedPatternLines
  rw [← collectPatterns_eq]
  exact collectPatterns_scanLinesAux data [] (by simp) hshort

/-- Every pattern `parseGitignore` returns is non-empty, has neither
leading nor trailing white space, and does not start with `#`. -/
theorem parseGitignore_patterns_clean (file : Option Str) :
    ∀ p ∈ parseGitignore file,
      p ≠ [] ∧ stripSpace p = none ∧ stripSpaceRev p.reverse = none ∧ ¬ utf8 "#" <+: p := by
  intro p hp
  cases file with
  | none => simp [parseGitignore] at hp
  | some data =>
    simp only [parseGitignore, collectPatterns_eq, List.mem_filter, List.mem_map,
      decide_eq_true_eq, hasPrefix_iff] at hp
    obtain ⟨⟨t, -, rfl⟩, h1, h2⟩ := hp
    exact ⟨h1, (trimSpace_trimmed t).1, (trimSpace_trimmed t).2, h2⟩


/-- An ignore file with a comment, padded patterns, a blank line and an
indented comment yields the two patterns, trimmed and in file order. -/
theorem parseGitignore_sample :
    parseGitignore (some (utf8 "# logs\n  *.log \r\n\n   # note\nbuild\nbuild"))
      = [utf8 "*.log", utf8 "build", utf8 "build"] := by
  decide


/-- Whenever `filepath.Match` reports an error it reports no match. -/
theorem matchLoop_bad (fuel : Nat) (p n : Str) :
    (matchLoop fuel p n).2 = true → (matchLoop fuel p n).1 = false := by
  induction fuel generalizing p n with
  | zero => simp [matchLoop]
  | succ k ih =>
    rw [matchLoop]
    dsimp only
    repeat' split
    all_goals first
      | exact ih _ _
      | simp

theorem stripSpaceRev_eq_none {s : Str} :
    stripSpaceRev s = none ↔ ∀ e ∈ spaceEncodings, ¬ e.reverse <+: s := by
  unfold stripSpaceRev
  simp [List.find?_eq_none]

theorem trimRevFuel_of_none {s : Str} (n : Nat) (h : stripSpaceRev s = none) :
    trimRevFuel n s = s := by
  cases n with
  | zero => rfl
  | succ n => simp [trimRevFuel, h]

/-- A string without leading and trailing white space is left as it is. -/
theorem trimSpace_of_trimmed (s : Str) (h1 : stripSpace s = none)
    (h2 : stripSpaceRev s.reverse = none) : trimSpace s = s := by
  unfold trimSpace
  simp only
  rw [trimLeftFuel_of_none _ h1, trimRevFuel_of_none _ h2, List.reverse_reverse]

theorem spaceEncodings_head : ∀ e ∈ spaceEncodings, e.head? ≠ some dot := by decide

theorem stripSpace_dot_cons (t : Str) : stripSpace (dot :: t) = none := by
  rw [stripSpace_eq_none]
  intro e he hp
  cases e with
  | nil => exact spaceEncodings_ne_nil _ he rfl
  | cons a e' =>
    have := spaceEncodings_head _ he
    obtain ⟨r, hr⟩ := hp
    simp only [List.cons_append, List.cons.injEq] at hr
    simp [hr.1] at this

theorem stripSpaceRev_dot_cons (t : Str) (h : stripSpaceRev t.reverse = none) :
    stripSpaceRev (dot :: t).reverse = none := by
  rw [stripSpaceRev_eq_none] at h ⊢
  intro e he hp
  rw [List.reverse_cons] at hp
  rcases List.prefix_concat_iff.1 hp with heq | hp
  · have h2 : e = dot :: t := by
      have := congrArg List.reverse heq
      simpa using this
    have := spaceEncodings_head _ he
    simp [h2] at this
  · exact h e he hp

/-- Normalizing an extension twice is normalizing it once. -/
theorem normalizeExtension_idem (e : Str) :
    normalizeExtension (normalizeExtension e) = normalizeExtension e := by
  have hdot : utf8 "." = [dot] := by decide
  have key : ∀ y, stripSpace y = none → stripSpaceRev y.reverse = none →
      hasPrefix y (utf8 ".") = true → normalizeExtension y = y := by
    intro y h1 h2 h3
    unfold normalizeExtension
    simp only [trimSpace_of_trimmed y h1 h2, h3, not_true_eq_false, if_false]
  obtain ⟨h1, h2⟩ := trimSpace_trimmed e
  by_cases hp : hasPrefix (trimSpace e) (utf8 ".") = true
  · have : normalizeExtension e = trimSpace e := by
      unfold normalizeExtension
      simp only [hp, not_true_eq_false, if_false]
    rw [this]
    exact key _ h1 h2 hp
  · have : normalizeExtension e = dot :: trimSpace e := by
      unfold normalizeExtension
      rw [hdot] at hp ⊢
      simp only [hp, not_false_eq_true, if_true]
      rfl
    rw [this]
    refine key _ (stripSpace_dot_cons _) (stripSpaceRev_dot_cons _ h2) ?_
    rw [hasPrefix_iff, hdot]
    exact ⟨trimSpace e, rfl⟩

theorem normalizeExtension_dot (e : Str) : utf8 "." <+: normalizeExtension e := by
  unfold normalizeExtension
  by_cases hp : hasPrefix (trimSpace e) (utf8 ".") = true
  · simp only [hp, not_true_eq_false, if_false]
    exact (hasPrefix_iff _ _).1 hp
  · simp only [hp, not_false_eq_true, if_true]
    exact List.prefix_append _ _

/-- C13. For every non-empty value of the flag `-ie`, the extension list
is the list of its comma-separated entries, each trimmed and then kept
unchanged if it starts with `.` and prefixed with `.` otherwise; so every
element starts with `.`, `txt` and `.txt` both become `.txt`, and the
normalization is idempotent. -/
theorem extensions_get_leading_dot :
    (∀ flag, flag ≠ [] →
      parseIgnoreExts flag
          = (splitComma flag).map (fun entry =>
              if utf8 "." <+: trimSpace entry then trimSpace entry
              else utf8 "." ++ trimSpace entry)
        ∧ ∀ ext ∈ parseIgnoreExts flag, utf8 "." <+: ext)
    ∧ parseIgnoreExts (utf8 "txt") = [utf8 ".txt"]
    ∧ parseIgnoreExts (utf8 ".txt") = [utf8 ".txt"]
    ∧ parseIgnoreExts (utf8 " log, .md ,txt") = [utf8 ".log", utf8 ".md", utf8 ".txt"]
    ∧ ∀ e, normalizeExtension (normalizeExtension e) = normalizeExtension e := by
  refine ⟨?_, by decide, by decide, by decide, normalizeExtension_idem⟩
  intro flag hf
  constructor
  · unfold parseIgnoreExts
    rw [if_pos hf]
    apply List.map_congr_left
    intro entry _
    unfold normalizeExtension
    simp only [hasPrefix_iff]
    by_cases hp : utf8 "." <+: trimSpace entry <;> simp [hp]
  · intro ext he
    unfold parseIgnoreExts at he
    rw [if_pos hf, List.mem_map] at he
    obtain ⟨entry, -, rfl⟩ := he
    exact normalizeExtension_dot entry

/-- Witness of C13 on the flag value `txt, .log`. -/
theorem extensions_get_leading_dot_witness :
    parseIgnoreExts (utf8 "txt, .log")
        = (splitComma (utf8 "txt, .log")).map (fun entry =>
            if utf8 "." <+: trimSpace entry then trimSpace entry
            else utf8 "." ++ trimSpace entry)
      ∧ ∀ ext ∈ parseIgnoreExts (utf8 "txt, .log"), utf8 "." <+: ext :=
  extensions_get_leading_dot.1 (utf8 "txt, .log") (by decide)

/-- C14. When the ignore file cannot be opened, `parseGitignore` returns
the empty pattern sequence (its result type has no error), and the run is
the one with an empty pattern list: the walk uses no patterns, and the
whole run equals the run with an empty ignore file. -/
theorem unopenable_ignore_file_gives_no_patterns :
    parseGitignore none = []
    ∧ (∀ (w : World) sourcePath ignoreDirs ignoreExts name, w.gitignore = none →
        treeStructure w sourcePath ignoreDirs ignoreExts name
          = (buildTree ignoreDirs ignoreExts [] w.root sourcePath []).map
              (fun lines => name :: lines.map TreeLine.render))
    ∧ (∀ (w : World) sourcePath outputPath ignoreDirs ignoreExts, w.gitignore = none →
        generateDirectoryStructure w sourcePath outputPath ignoreDirs ignoreExts
          = generateDirectoryStructure { w with gitignore := some [] } sourcePath outputPath
              ignoreDirs ignoreExts) := by
  refine ⟨rfl, ?_, ?_⟩
  · intro w sourcePath ignoreDirs ignoreExts name h
    unfold treeStructure
    rw [h]
    rfl
  · intro w sourcePath outputPath ignoreDirs ignoreExts h
    obtain ⟨sm, gi, cwd, root, ce⟩ := w
    simp only at h
    subst h
    rfl

/-- Witness of C14 on the scenario run, which has no ignore file. -/
theorem unopenable_ignore_file_gives_no_patterns_witness :
    scenarioWorld.gitignore = none
    ∧ generateDirectoryStructure scenarioWorld (utf8 "root") (utf8 "out.md") [] []
        = generateDirectoryStructure { scenarioWorld with gitignore := some [] } (utf8 "root")
            (utf8 "out.md") [] [] :=
  ⟨rfl, unopenable_ignore_file_gives_no_patterns.2.2 scenarioWorld (utf8 "root") (utf8 "out.md")
    [] [] rfl⟩

/-- C15. If the source path does not exist, `generateDirectoryStructure`
prints the error message and does nothing else: no output file is created
or truncated and, whatever the tree, no walk takes place. -/
theorem missing_source_only_prints_error (w : World) (sourcePath outputPath : Str)
    (ignoreDirs ignoreExts : List Str) (h : w.sourceMissing = true) :
    generateDirectoryStructure w sourcePath outputPath ignoreDirs ignoreExts
      = some ⟨utf8 "Error: Source path " ++ sourcePath ++ utf8 " does not exist.\n", none⟩ := by
  unfold generateDirectoryStructure
  rw [if_pos h]

/-- Witness of C15: the source is missing and the tree is one on which a
walk would panic; the run only prints the message. -/
theorem missing_source_only_prints_error_witness :
    buildTree [] [] [] missingSourceWorld.root (utf8 "gone") [] = none
    ∧ generateDirectoryStructure missingSourceWorld (utf8 "gone") (utf8 "out.md") [] []
      = some ⟨utf8 "Error: Source path " ++ utf8 "gone" ++ utf8 " does not exist.\n", none⟩ :=
  ⟨by decide, missing_source_only_prints_error missingSourceWorld (utf8 "gone") (utf8 "out.md")
    [] [] rfl⟩


/-- Go `filepath.Base` of a path that ends with a separator-free element
standing alone or after a separator is that element. -/
theorem filepathBase_of_last (pre item : Str) (hne : item ≠ []) (hsep : sep ∉ item)
    (hpre : pre = [] ∨ ∃ q, pre = q ++ [sep]) : filepathBase (pre ++ item) = item := by
  have hne2 : pre ++ item ≠ [] := by simp [hne]
  have hall : ∀ b ∈ item.reverse, (b != sep) = true := by
    intro b hb
    have : b ∈ item := by simpa using hb
    simp only [bne_iff_ne, ne_eq]
    intro e
    exact hsep (e ▸ this)
  have hdrop : (item.reverse ++ pre.reverse).dropWhile (fun b => b == sep)
      = item.reverse ++ pre.reverse := by
    cases hr : item.reverse with
    | nil => simp at hr; exact absurd hr hne
    | cons a t =>
      have := hall a (by simp [hr])
      simp only [bne_iff_ne, ne_eq] at this
      have hb : (a == sep) = false := by simpa using this
      simp [List.dropWhile, hb]
  have htake : (item.reverse ++ pre.reverse).takeWhile (fun b => b != sep) = item.reverse := by
    rw [List.takeWhile_append_of_pos hall]
    rcases hpre with rfl | ⟨q, rfl⟩
    · simp
    · simp [List.takeWhile]
  simp only [filepathBase, hne2, if_false, List.reverse_append, hdrop, htake, List.reverse_reverse,
    hne]

/-- The elements `filepath.Clean` keeps are not empty, not `.`, and free
of the separator. -/
theorem cleanStep_foldl_good (r : Bool) (xs : List Str) (init : List Str)
    (hxs : ∀ x ∈ xs, sep ∉ x)
    (hinit : ∀ x ∈ init, x ≠ [] ∧ x ≠ [dot] ∧ sep ∉ x) :
    ∀ x ∈ xs.foldl (cleanStep r) init, x ≠ [] ∧ x ≠ [dot] ∧ sep ∉ x := by
  induction xs generalizing init with
  | nil => simpa using hinit
  | cons e es ih =>
    rw [List.foldl_cons]
    refine ih _ (fun x hx => hxs x (List.mem_cons_of_mem _ hx)) ?_
    intro x hx
    unfold cleanStep at hx
    split at hx
    · exact hinit x hx
    · split at hx
      · cases init with
        | nil =>
          simp only at hx
          split at hx
          · exact absurd hx (List.not_mem_nil _)
          · simp only [List.mem_singleton] at hx
            subst hx
            decide
        | cons top rest =>
          simp only at hx
          split at hx
          · rcases List.mem_cons.1 hx with rfl | hx
            · decide
            · exact hinit x hx
          · exact hinit x (List.mem_cons_of_mem _ hx)
      · rename_i h1 h2
        rcases List.mem_cons.1 hx with rfl | hx
        · simp only [not_or] at h1
          exact ⟨h1.1, h1.2, hxs x (List.mem_cons_self _ _)⟩
        · exact hinit x hx

/-- The elements `filepath.Clean` keeps of `path`. -/
theorem cleanOut_good (r : Bool) (path : Str) :
    ∀ x ∈ (splitSep path).foldl (cleanStep r) [], x ≠ [] ∧ x ≠ [dot] ∧ sep ∉ x :=
  cleanStep_foldl_good r _ [] (fun x hx => not_mem_of_mem_splitByte sep path x hx)
    (fun _ hx => absurd hx (List.not_mem_nil _))

theorem joinSep_reverse_cons (e : Str) (rest : List Str) :
    ∃ pre, joinSep (e :: rest).reverse = pre ++ e ∧ (pre = [] ∨ ∃ q, pre = q ++ [sep]) := by
  rw [List.reverse_cons]
  by_cases hr : rest = []
  · subst hr
    exact ⟨[], by simp [joinSep, joinByte], Or.inl rfl⟩
  · refine ⟨joinSep rest.reverse ++ [sep], ?_, Or.inr ⟨_, rfl⟩⟩
    unfold joinSep
    rw [joinByte_append_singleton sep _ _ (by simpa using hr)]
    simp

/-- The base name of a cleaned rooted path is never `.`. -/
theorem filepathBase_clean_rooted (p : Str) (hp : p.head? = some sep) :
    filepathBase (filepathClean p) ≠ [dot] := by
  have hne : p ≠ [] := by
    intro e
    rw [e] at hp
    exact absurd hp (by simp)
  unfold filepathClean
  simp only [hne, if_false, hp, if_true, decide_True]
  have hgood := cleanOut_good true p
  generalize (splitSep p).foldl (cleanStep true) [] = out at hgood ⊢
  cases out with
  | nil => decide
  | cons e rest =>
    obtain ⟨h1, h2, h3⟩ := hgood e (List.mem_cons_self _ _)
    obtain ⟨pre, hj, hpre⟩ := joinSep_reverse_cons e rest
    have hshape : ∃ q, sep :: pre = q ++ [sep] := by
      rcases hpre with rfl | ⟨q, rfl⟩
      · exact ⟨[], rfl⟩
      · exact ⟨sep :: q, rfl⟩
    rw [hj, ← List.cons_append, filepathBase_of_last _ e h1 h3 (Or.inr hshape)]
    exact h2


theorem joinSep_ne_nil (xs : List Str) (hne : xs ≠ []) (hx : ∀ x ∈ xs, x ≠ []) :
    joinSep xs ≠ [] := by
  cases xs with
  | nil => exact absurd rfl hne
  | cons a t =>
    cases t with
    | nil => simpa [joinSep, joinByte] using hx a (by simp)
    | cons b t => simp [joinSep, joinByte, hx a (by simp)]

/-- Joining an entry name to a path: the result is the cleaned path, a
separator and the name, except that the root `/` takes no further
separator and the path `.` disappears. -/
theorem filepathJoin_cases (src item : Str) (h : ValidName item) :
    (filepathClean src = [sep] ∧ filepathJoin src item = sep :: item)
    ∨ (filepathClean src = [dot] ∧ filepathJoin src item = item)
    ∨ filepathJoin src item = filepathClean src ++ sep :: item := by
  obtain ⟨hne, hsep, hdot, hdd⟩ := h
  have hsplit : splitSep item = [item] := splitByte_of_not_mem sep item hsep
  have hstep : ∀ r out, cleanStep r out item = item :: out := by
    intro r out
    simp [cleanStep, hne, hdot, hdd]
  by_cases hp : src = []
  · subst hp
    refine Or.inr (Or.inl ⟨by decide, ?_⟩)
    have hroot : ¬ item.head? = some sep := by
      cases item with
      | nil => simp
      | cons a t => intro e; simp at e; exact hsep (by simp [e])
    simp [filepathJoin, hne, filepathClean, hsplit, hstep, joinSep, joinByte, hroot]
  · have hsp : splitSep (src ++ sep :: item) = splitSep src ++ [item] := by
      unfold splitSep
      rw [splitByte_append, splitByte_of_not_mem sep item hsep]
    have hfold : ∀ r, (splitSep (src ++ sep :: item)).foldl (cleanStep r) []
        = item :: (splitSep src).foldl (cleanStep r) [] := by
      intro r
      rw [hsp, List.foldl_append]
      simp [hstep]
    have hne2 : src ++ sep :: item ≠ [] := by simp
    have hhead : (src ++ sep :: item).head? = src.head? := by
      cases src with
      | nil => exact absurd rfl hp
      | cons a t => rfl
    have hclean : ∀ r : Bool, r = decide (src.head? = some sep) →
        filepathClean src = (if r = true then sep :: joinSep ((splitSep src).foldl (cleanStep r) []).reverse
          else if joinSep ((splitSep src).foldl (cleanStep r) []).reverse = [] then [dot]
          else joinSep ((splitSep src).foldl (cleanStep r) []).reverse)
        ∧ filepathJoin src item = (if r = true then
            sep :: joinSep (((splitSep src).foldl (cleanStep r) []).reverse ++ [item])
          else if joinSep (((splitSep src).foldl (cleanStep r) []).reverse ++ [item]) = [] then [dot]
          else joinSep (((splitSep src).foldl (cleanStep r) []).reverse ++ [item])) := by
      intro r hr
      subst hr
      constructor
      · simp only [filepathClean, hp, if_false, decide_eq_true_eq]
      · simp only [filepathJoin, hp, ne_eq, not_false_eq_true, if_true, filepathClean, hne2,
          if_false, hfold, List.reverse_cons, hhead, decide_eq_true_eq]
    obtain ⟨hc, hj⟩ := hclean _ rfl
    rw [hc, hj]
    have hg := cleanOut_good (decide (src.head? = some sep)) src
    generalize decide (src.head? = some sep) = r at hg ⊢
    generalize (splitSep src).foldl (cleanStep r) [] = out at hg ⊢
    by_cases ho : out = []
    · subst ho
      have hj1 : joinSep ([].reverse ++ [item]) = item := by simp [joinSep, joinByte]
      have hj0 : joinSep ([] : List Str).reverse = [] := by simp [joinSep, joinByte]
      rw [hj1, hj0]
      cases r with
      | true => exact Or.inl ⟨by simp, by simp⟩
      | false => exact Or.inr (Or.inl ⟨by simp, by simp [hne]⟩)
    · have hj1 : joinSep (out.reverse ++ [item]) = joinSep out.reverse ++ sep :: item := by
        unfold joinSep
        exact joinByte_append_singleton sep _ _ (by simpa using ho)
      have hjne : joinSep out.reverse ≠ [] :=
        joinSep_ne_nil _ (by simpa using ho) (fun x hx => (hg x (by simpa using hx)).1)
      rw [hj1]
      refine Or.inr (Or.inr ?_)
      cases r with
      | true => simp
      | false => simp [hjne]

/-- A component of the cleaned source path, unless that path is `.`, is a
component of the full path of every entry. -/
theorem mem_splitSep_join_of_clean (src item d : Str) (h : ValidName item)
    (hdot : filepathClean src ≠ utf8 ".") (hd : d ∈ splitSep (filepathClean src)) :
    d ∈ splitSep (filepathJoin src item) := by
  rcases filepathJoin_cases src item h with ⟨hc, hj⟩ | ⟨hc, -⟩ | hj
  · rw [hc] at hd
    have hd2 : d = [] := by
      have : splitSep [sep] = [[], []] := by decide
      rw [this] at hd
      simpa using hd
    rw [hj, hd2]
    simp [splitSep, splitByte]
  · exact absurd hc hdot
  · rw [hj]
    unfold splitSep at hd ⊢
    rw [splitByte_append]
    exact List.mem_append_left _ hd

/-- When every item is excluded the loop adds no line (and never calls
`os.Stat`). -/
theorem rangeItems_all_ignored (ds es ps : List Str) (path pfx : Str) (entries : List Entry)
    (n : Nat) (names : List Str)
    (h : ∀ item ∈ names, shouldIgnore (filepathJoin path item) ds es ps = true) (i : Nat) :
    rangeItems ds es ps path pfx entries n i names = some [] := by
  induction names generalizing i with
  | nil => rfl
  | cons x xs ih =>
    rw [rangeItems, if_pos (h x (List.mem_cons_self _ _))]
    exact ih (fun item hi => h item (List.mem_cons_of_mem _ hi)) _

theorem empty_mem_splitSep_join_rooted (src item : Str) (hs : utf8 "/" <+: src) :
    [] ∈ splitSep (filepathJoin src item) := by
  obtain ⟨t, rfl⟩ := hs
  have h1 : utf8 "/" ++ t = sep :: t := rfl
  have hne : sep :: t ≠ [] := by simp
  rw [h1]
  simp only [filepathJoin, hne, ne_eq, not_false_eq_true, if_true, filepathClean,
    List.cons_append, List.head?_cons, decide_True, if_false]
  simp [splitSep, splitByte]


theorem filepathAbs_rooted (cwd : Except Str Str) (src abs : Str)
    (hcwd : ∀ wd, cwd = .ok wd → utf8 "/" <+: wd) (h : filepathAbs cwd src = .ok abs) :
    ∃ p, p.head? = some sep ∧ abs = filepathClean p := by
  unfold filepathAbs at h
  by_cases hs : hasPrefix src [sep] = true
  · rw [if_pos hs] at h
    obtain ⟨t, rfl⟩ := (hasPrefix_iff _ _).1 hs
    exact ⟨[sep] ++ t, rfl, (Except.ok.inj h).symm⟩
  · rw [if_neg hs] at h
    cases cwd with
    | error e => simp at h
    | ok wd =>
      obtain ⟨t, rfl⟩ := hcwd wd rfl
      have hne : utf8 "/" ++ t ≠ [] := by
        intro e
        have := congrArg List.length e
        simp [show (utf8 "/").length = 1 from rfl] at this
      simp only [filepathJoin, hne, ne_eq, not_false_eq_true, if_true] at h
      exact ⟨utf8 "/" ++ t ++ sep :: src, rfl, (Except.ok.inj h).symm⟩

/-- C20. The fall-back to the working directory for the root line is
unreachable: whenever `filepath.Abs` succeeds (the working directory
`os.Getwd` returns being a rooted path), the base name of the absolute
source path is not `.`, so the root line is that base name; for the
default source `/` it is `/`. -/
theorem cwd_fallback_unreachable :
    (∀ (w : World) (sourcePath absPath : Str),
      (∀ wd, w.cwd = .ok wd → utf8 "/" <+: wd) →
      filepathAbs w.cwd sourcePath = .ok absPath →
      filepathBase absPath ≠ utf8 "." ∧ rootName w sourcePath = .ok (filepathBase absPath))
    ∧ (∀ w : World, rootName w (utf8 "/") = .ok (utf8 "/")) := by
  constructor
  · intro w sourcePath absPath hcwd h
    obtain ⟨p, hp, rfl⟩ := filepathAbs_rooted _ _ _ hcwd h
    have hb : filepathBase (filepathClean p) ≠ utf8 "." := filepathBase_clean_rooted p hp
    refine ⟨hb, ?_⟩
    unfold rootName
    rw [h]
    simp only [hb, if_false]
  · intro w
    have h : filepathAbs w.cwd (utf8 "/") = .ok (utf8 "/") := by
      unfold filepathAbs
      rw [if_pos (by decide)]
      exact congrArg Except.ok (by decide)
    unfold rootName
    rw [h]
    have hb : filepathBase (utf8 "/") = utf8 "/" := by decide
    have hne : ¬ utf8 "/" = utf8 "." := by decide
    simp only [hb, hne, if_false]

/-- Witness of C20: the relative source path `.` in the working directory
`/home/user` has the root line `user`. -/
theorem cwd_fallback_unreachable_witness :
    filepathBase (utf8 "/home/user") ≠ utf8 "."
    ∧ rootName { scenarioWorld with cwd := .ok (utf8 "/home/user") } (utf8 ".")
        = .ok (filepathBase (utf8 "/home/user")) :=
  cwd_fallback_unreachable.1 { scenarioWorld with cwd := .ok (utf8 "/home/user") } (utf8 ".")
    (utf8 "/home/user")
    (fun wd h => by
      have : wd = utf8 "/home/user" := (Except.ok.inj h).symm
      rw [this]
      exact ⟨utf8 "home/user", by decide⟩)
    rfl

/-- Counterexample to C17: with the source path `.` and the ignored
directory name `.`, the only component of the cleaned source path is an
ignored name, yet the entries of the scenario tree are listed. -/
theorem ignored_dot_component_excludes_nothing :
    utf8 "." ∈ [utf8 "."]
    ∧ utf8 "." ∈ splitSep (filepathClean (utf8 "."))
    ∧ buildTree [utf8 "."] [] [] scenarioTree (utf8 ".") []
        = some [⟨[], utf8 "├── ", true, utf8 "b"⟩, ⟨[], utf8 "└── ", false, utf8 "a.txt"⟩]
    ∧ treeStructure scenarioWorld (utf8 ".") [utf8 "."] [] (utf8 "home")
        ≠ some [utf8 "home"] := by
  refine ⟨by decide, by decide, by decide, by decide⟩

/-- C17, amended. The ignored-directory rule is applied to the full joined
path, the components of the source path included: if the cleaned source
path is not `.` and one of its separator-delimited components equals an
ignored directory name, every entry is excluded and the output is the
root line alone.  In particular the flag value `a,,b` yields the ignored
names `a`, the empty string and `b`, and with an absolute source path the
empty name excludes every entry. -/
theorem source_path_component_ignored_excludes_all :
    (∀ (w : World) (sourcePath : Str) (ignoreDirs ignoreExts : List Str) (name d : Str),
      wellNamed w.root = true → filepathClean sourcePath ≠ utf8 "." →
      d ∈ ignoreDirs → d ∈ splitSep (filepathClean sourcePath) →
      buildTree ignoreDirs ignoreExts (parseGitignore w.gitignore) w.root sourcePath [] = some []
      ∧ treeStructure w sourcePath ignoreDirs ignoreExts name = some [name])
    ∧ parseIgnoreDirs (utf8 "a,,b") = [utf8 "a", [], utf8 "b"]
    ∧ (∀ (w : World) (sourcePath : Str) (ignoreExts : List Str) (name : Str),
      utf8 "/" <+: sourcePath →
      treeStructure w sourcePath (parseIgnoreDirs (utf8 "a,,b")) ignoreExts name = some [name]) := by
  refine ⟨?_, by decide, ?_⟩
  · intro w sourcePath ds es name d hw hdot hd hmem
    have hb : buildTree ds es (parseGitignore w.gitignore) w.root sourcePath [] = some [] := by
      revert hw
      generalize w.root = t
      intro hw
      obtain ⟨nm, dd, s, cs⟩ := t
      have hwl : wellNamedList cs = true := by simpa [wellNamed] using hw
      rw [buildTree_eq]
      apply rangeItems_all_ignored
      intro item hi
      have hv := validName_of_mem_allItems hwl hi
      exact (shouldIgnore_true_iff _ _ _ _).2 (Or.inr (Or.inl
        ⟨d, hd, d, mem_splitSep_join_of_clean sourcePath item d hv hdot hmem, rfl⟩))
    refine ⟨hb, ?_⟩
    unfold treeStructure
    rw [hb]
    rfl
  · intro w sourcePath es name hs
    have hb : buildTree (parseIgnoreDirs (utf8 "a,,b")) es (parseGitignore w.gitignore) w.root
        sourcePath [] = some [] := by
      generalize w.root = t
      obtain ⟨nm, dd, s, cs⟩ := t
      rw [buildTree_eq]
      apply rangeItems_all_ignored
      intro item _
      exact (shouldIgnore_true_iff _ _ _ _).2 (Or.inr (Or.inl
        ⟨[], by decide, [], empty_mem_splitSep_join_rooted sourcePath item hs, rfl⟩))
    unfold treeStructure
    rw [hb]
    rfl

/-- Witness of amended C17: the scenario tree at the source path
`proj/build` with `build` ignored. -/
theorem source_path_component_ignored_excludes_all_witness :
    buildTree [utf8 "build"] [] (parseGitignore scenarioWorld.gitignore) scenarioWorld.root
        (utf8 "proj/build") [] = some []
    ∧ treeStructure scenarioWorld (utf8 "proj/build") [utf8 "build"] [] (utf8 "build")
        = some [utf8 "build"] :=
  source_path_component_ignored_excludes_all.1 scenarioWorld (utf8 "proj/build") [utf8 "build"] []
    (utf8 "build") (utf8 "build") (by decide) (by decide) (by decide) (by decide)


theorem scanSplit_append (b : Bool) (p : Str) : (scanSplit b p).1 ++ (scanSplit b p).2 = p := by
  induction b, p using scanSplit.induct with
  | case1 b => simp [scanSplit]
  | case2 b => simp [scanSplit]
  | case3 b d ds ih =>
    rw [scanSplit.eq_def]
    simp [ih]
  | case4 b cs h1 ih =>
    rw [scanSplit.eq_def]
    simp [ih]
  | case5 b cs h1 h2 ih =>
    rw [scanSplit.eq_def]
    simp [ih]
  | case6 b c cs h1 h2 h3 h4 =>
    obtain ⟨rfl, rfl⟩ := h4
    rw [scanSplit.eq_def]
    simp
  | case7 b c cs h1 h2 h3 h4 ih =>
    rw [scanSplit.eq_def]
    simp only [h1, h2, h3, if_false]
    rw [if_neg (by simpa using h4)]
    simp [ih]

/-- The chunk and the rest that `scanChunk` returns are made of bytes of
the pattern. -/
theorem scanChunk_subset (p : Str) :
    (∀ b ∈ (scanChunk p).2.1, b ∈ p) ∧ (∀ b ∈ (scanChunk p).2.2, b ∈ p) := by
  have h := scanSplit_append false (p.dropWhile (fun b => b == 42))
  have hsub : ∀ b ∈ p.dropWhile (fun b => b == 42), b ∈ p :=
    fun b hb => (List.dropWhile_sublist _).subset hb
  unfold scanChunk
  constructor
  · intro b hb
    exact hsub b (by rw [← h]; exact List.mem_append_left _ hb)
  · intro b hb
    exact hsub b (by rw [← h]; exact List.mem_append_right _ hb)

theorem mem_tail_of_ne {a : Nat} {t : Str} (h : sep ∈ a :: t) (ha : a ≠ sep) : sep ∈ t := by
  rcases List.mem_cons.1 h with e | e
  · exact absurd e.symm ha
  · exact e

/-- The bytes of the first rune of a string that does not start with a
separator hold no separator. -/
theorem mem_drop_decodeRune (s : Str) (h : sep ∈ s) (hh : s.head? ≠ some sep) :
    sep ∈ s.drop (decodeRune s).2 := by
  cases s with
  | nil => simp at h
  | cons s0 t =>
    have h0 : s0 ≠ sep := by simpa using hh
    have ht : sep ∈ t := mem_tail_of_ne h h0
    have hlo : 0x80 ≤ (if s0 = 0xE0 then 0xA0 else if s0 = 0xF0 then 0x90 else 0x80) := by
      split_ifs <;> decide
    rw [decodeRune]
    dsimp only
    generalize (if s0 = 0xE0 then 0xA0 else if s0 = 0xF0 then 0x90 else 0x80) = lo at hlo ⊢
    generalize (if s0 = 0xED then 0x9F else if s0 = 0xF4 then 0x8F else 0xBF) = hi
    by_cases c1 : s0 < 0x80
    · rw [if_pos c1]; exact ht
    rw [if_neg c1]
    by_cases c2 : s0 < 0xC2 ∨ 0xF4 < s0
    · rw [if_pos c2]; exact ht
    rw [if_neg c2]
    cases t with
    | nil => simp at ht
    | cons s1 t1 =>
      dsimp only
      by_cases c3 : s1 < lo ∨ hi < s1
      · rw [if_pos c3]; exact ht
      rw [if_neg c3]
      have h1 : s1 ≠ sep := by
        intro e
        apply c3
        left
        rw [e]
        show 47 < lo
        omega
      have ht1 : sep ∈ t1 := mem_tail_of_ne ht h1
      by_cases c4 : s0 < 0xE0
      · rw [if_pos c4]; exact ht1
      rw [if_neg c4]
      cases t1 with
      | nil => simp at ht1
      | cons s2 t2 =>
        dsimp only
        by_cases c5 : s2 < 0x80 ∨ 0xBF < s2
        · rw [if_pos c5]; exact ht
        rw [if_neg c5]
        have h2 : s2 ≠ sep := by
          intro e
          apply c5
          left
          rw [e]
          decide
        have ht2 : sep ∈ t2 := mem_tail_of_ne ht1 h2
        by_cases c6 : s0 < 0xF0
        · rw [if_pos c6]; exact ht2
        rw [if_neg c6]
        cases t2 with
        | nil => simp at ht2
        | cons s3 t3 =>
          dsimp only
          by_cases c7 : s3 < 0x80 ∨ 0xBF < s3
          · rw [if_pos c7]; exact ht
          rw [if_neg c7]
          have h3 : s3 ≠ sep := by
            intro e
            apply c7
            left
            rw [e]
            decide
          exact mem_tail_of_ne ht2 h3

/-- A chunk without separator, bracket and backslash matches no separator:
if it matches the beginning of `s`, a separator of `s` is still in the
remainder. -/
theorem matchChunkLoop_keeps_sep (fuel : Nat) (failed : Bool) (chunk s t : Str)
    (hplain : ∀ b ∈ chunk, b ≠ sep ∧ b ≠ 91 ∧ b ≠ 92)
    (h : matchChunkLoop fuel failed chunk s = .rest t) :
    failed = false ∧ (sep ∈ s → sep ∈ t) := by
  induction fuel generalizing failed chunk s with
  | zero => simp [matchChunkLoop] at h
  | succ k ih =>
    rw [matchChunkLoop.eq_def] at h
    dsimp only at h
    cases chunk with
    | nil =>
      cases failed with
      | true => simp at h
      | false =>
        simp only [Bool.false_eq_true, if_false, ChunkResult.rest.injEq] at h
        subst h
        exact ⟨rfl, id⟩
    | cons c chunk1 =>
      obtain ⟨hc1, hc2, hc3⟩ := hplain c (List.mem_cons_self _ _)
      have hrest : ∀ b ∈ chunk1, b ≠ sep ∧ b ≠ 91 ∧ b ≠ 92 :=
        fun b hb => hplain b (List.mem_cons_of_mem _ hb)
      simp only [hc2, hc3, if_false] at h
      by_cases hq : c = 63
      · simp only [hq, if_true] at h
        obtain ⟨hf, hmem⟩ := ih _ _ _ hrest h
        simp only [Bool.or_eq_false_iff, beq_eq_false_iff_ne, ne_eq] at hf
        obtain ⟨⟨hf1, hf2⟩, hf3⟩ := hf
        refine ⟨hf1, fun hs => hmem ?_⟩
        simp only [hf1, hf2, Bool.or_self, Bool.false_eq_true, if_false]
        exact mem_drop_decodeRune s hs hf3
      · simp only [hq, if_false] at h
        obtain ⟨hf, hmem⟩ := ih _ _ _ hrest h
        simp only [Bool.or_eq_false_iff, bne_eq_false_iff_eq] at hf
        obtain ⟨⟨hf1, hf2⟩, hf3⟩ := hf
        refine ⟨hf1, fun hs => hmem ?_⟩
        simp only [hf1, hf2, Bool.or_self, Bool.false_eq_true, if_false]
        cases s with
        | nil => simp at hs
        | cons a s1 =>
          simp only [List.head?_cons, Option.some.injEq] at hf3
          exact mem_tail_of_ne hs (hf3 ▸ hc1)

theorem starSkip_keeps_sep (chunk : Str) (lastChunk : Bool) (name t : Str)
    (hplain : ∀ b ∈ chunk, b ≠ sep ∧ b ≠ 91 ∧ b ≠ 92)
    (h : starSkip chunk lastChunk name = .found t) (hs : sep ∈ name) : sep ∈ t := by
  induction name with
  | nil => simp at hs
  | cons c name1 ih =>
    rw [starSkip] at h
    by_cases hc : c = sep
    · simp [hc] at h
    · simp only [hc, if_false] at h
      have hs1 : sep ∈ name1 := mem_tail_of_ne hs hc
      cases hm : matchChunk chunk name1 with
      | bad => simp [hm] at h
      | fail =>
        simp only [hm] at h
        exact ih h hs1
      | rest t1 =>
        simp only [hm] at h
        have ht1 := (matchChunkLoop_keeps_sep _ _ _ _ _ hplain hm).2 hs1
        split at h
        · exact ih h hs1
        · simp only [SkipResult.found.injEq] at h
          exact h ▸ ht1

/-- A pattern without separator, bracket and backslash matches no name
that holds a separator. -/
theorem matchLoop_plain (fuel : Nat) (pattern name : Str)
    (hplain : ∀ b ∈ pattern, b ≠ sep ∧ b ≠ 91 ∧ b ≠ 92) (hs : sep ∈ name) :
    (matchLoop fuel pattern name).1 = false := by
  induction fuel generalizing pattern name with
  | zero => rfl
  | succ k ih =>
    rw [matchLoop]
    have hne : name ≠ [] := by
      intro e
      rw [e] at hs
      exact absurd hs (List.not_mem_nil _)
    by_cases hp : pattern = []
    · simp [hp, hne]
    · simp only [hp, if_false]
      obtain ⟨hsub1, hsub2⟩ := scanChunk_subset pattern
      have hchunk : ∀ b ∈ (scanChunk pattern).2.1, b ≠ sep ∧ b ≠ 91 ∧ b ≠ 92 :=
        fun b hb => hplain b (hsub1 b hb)
      have hrest : ∀ b ∈ (scanChunk pattern).2.2, b ≠ sep ∧ b ≠ 91 ∧ b ≠ 92 :=
        fun b hb => hplain b (hsub2 b hb)
      have hskip : ∀ lc, (match starSkip (scanChunk pattern).2.1 lc name with
          | .found t1 => matchLoop k (scanChunk pattern).2.2 t1
          | .bad => (false, true)
          | .exhausted => (false, false)).1 = false := by
        intro lc
        cases hk : starSkip (scanChunk pattern).2.1 lc name with
        | found t1 => exact ih _ _ hrest (starSkip_keeps_sep _ _ _ _ hchunk hk hs)
        | bad => rfl
        | exhausted => rfl
      split
      · simp [hs]
      · cases hm : matchChunk (scanChunk pattern).2.1 name with
        | bad => rfl
        | fail =>
          dsimp only
          split
          · exact hskip _
          · rfl
        | rest t =>
          dsimp only
          have ht := (matchChunkLoop_keeps_sep _ _ _ _ _ hchunk hm).2 hs
          split
          · exact ih _ _ hrest ht
          · split
            · exact hskip _
            · rfl


/-- The full path of an entry below an absolute source path holds a
separator. -/
theorem sep_mem_join_rooted (src item : Str) (hs : utf8 "/" <+: src) :
    sep ∈ filepathJoin src item := by
  obtain ⟨t, rfl⟩ := hs
  have h1 : utf8 "/" ++ t = sep :: t := rfl
  have hne : sep :: t ≠ [] := by simp
  rw [h1]
  simp only [filepathJoin, hne, ne_eq, not_false_eq_true, if_true, filepathClean,
    List.cons_append, List.head?_cons, decide_True, if_false]
  simp

/-- C19. Patterns are matched against the full joined path, and no
wildcard crosses a separator: a pattern made only of literal
non-separator bytes, `*` and `?` (no `[`, no backslash) matches no path
that holds a separator.  So below an absolute source path such a pattern
excludes no entry: `*.log` matches `app.log` but not `/proj/app.log`. -/
theorem plain_pattern_never_matches_path_with_separator :
    (∀ pattern path : Str, (∀ b ∈ pattern, b ≠ sep ∧ b ≠ 91 ∧ b ≠ 92) → sep ∈ path →
      (filepathMatch pattern path).1 = false)
    ∧ (∀ (patterns : List Str) (sourcePath item : Str),
        (∀ pattern ∈ patterns, ∀ b ∈ pattern, b ≠ sep ∧ b ≠ 91 ∧ b ≠ 92) →
        utf8 "/" <+: sourcePath →
        shouldIgnore (filepathJoin sourcePath item) [] [] patterns
          = shouldIgnore (filepathJoin sourcePath item) [] [] [])
    ∧ filepathMatch (utf8 "*.log") (utf8 "app.log") = (true, false)
    ∧ filepathMatch (utf8 "*.log") (utf8 "/proj/app.log") = (false, false)
    ∧ filepathMatch (utf8 "a?c*") (utf8 "abc/d") = (false, false)
    ∧ shouldIgnore (utf8 "/proj/app.log") [] [] [utf8 "*.log"] = false := by
  refine ⟨fun pattern path hp hs => matchLoop_plain _ pattern path hp hs, ?_,
    by decide, by decide, by decide, by decide⟩
  intro patterns sourcePath item hp hs
  have hany : patterns.any (fun pattern => (filepathMatch pattern (filepathJoin sourcePath item)).1)
      = false := by
    rw [List.any_eq_false]
    intro pattern hmem
    have hm : (filepathMatch pattern (filepathJoin sourcePath item)).1 = false :=
      matchLoop_plain _ pattern _ (hp pattern hmem) (sep_mem_join_rooted sourcePath item hs)
    rw [hm]
    decide
  unfold shouldIgnore
  simp only [hany, List.any_nil]

/-- Witness of C19: the pattern `*.log` and the path `/proj/app.log`. -/
theorem plain_pattern_never_matches_path_with_separator_witness :
    (filepathMatch (utf8 "*.log") (utf8 "/proj/app.log")).1 = false :=
  plain_pattern_never_matches_path_with_separator.1 (utf8 "*.log") (utf8 "/proj/app.log")
    (by decide) (by decide)


/-- More filters exclude more. -/
theorem shouldIgnore_mono (path : Str) (ds1 es1 ps1 ds2 es2 ps2 : List Str)
    (hd : ds1 ⊆ ds2) (he : es1 ⊆ es2) (hp : ps1 ⊆ ps2)
    (h : shouldIgnore path ds1 es1 ps1 = true) : shouldIgnore path ds2 es2 ps2 = true := by
  rw [shouldIgnore_true_iff] at h ⊢
  rcases h with h | ⟨d, hd1, hd2⟩ | ⟨e, he1, he2⟩ | ⟨p, hp1, hp2⟩
  · exact Or.inl h
  · exact Or.inr (Or.inl ⟨d, hd hd1, hd2⟩)
  · exact Or.inr (Or.inr (Or.inl ⟨e, he he1, he2⟩))
  · exact Or.inr (Or.inr (Or.inr ⟨p, hp hp1, hp2⟩))

/-- The loop under more filters emits a sublist of the lines it emits under
fewer, provided the recursive calls do. -/
theorem rangeItems_mono (ds1 es1 ps1 ds2 es2 ps2 : List Str)
    (hd : ds1 ⊆ ds2) (he : es1 ⊆ es2) (hp : ps1 ⊆ ps2) (cs : List Node) (path pfx : Str)
    (n : Nat) (names : List Str)
    (hrec : ∀ c ∈ cs, ∀ p q out1, buildTree ds1 es1 ps1 c p q = some out1 →
      ∃ out2, buildTree ds2 es2 ps2 c p q = some out2 ∧ out2.Sublist out1)
    (i : Nat) (out1 : List TreeLine)
    (h : rangeItems ds1 es1 ps1 path pfx (cs.map (entryOf ds1 es1 ps1)) n i names = some out1) :
    ∃ out2, rangeItems ds2 es2 ps2 path pfx (cs.map (entryOf ds2 es2 ps2)) n i names = some out2
      ∧ out2.Sublist out1 := by
  induction names generalizing i out1 with
  | nil =>
    simp only [rangeItems, Option.some.injEq] at h ⊢
    subst h
    exact ⟨[], rfl, List.Sublist.refl _⟩
  | cons x xs ih =>
    rcases (rangeItems_cons ..).1 h with ⟨hig, h1⟩ | ⟨hig, e, d, sub, rest, hl, hs, hw, hr, rfl⟩
    · obtain ⟨out2, h2, hsub⟩ := ih _ _ h1
      exact ⟨out2, (rangeItems_cons ..).2
        (Or.inl ⟨shouldIgnore_mono _ _ _ _ _ _ _ hd he hp hig, h2⟩), hsub⟩
    · obtain ⟨rest2, h2, hsub⟩ := ih _ _ hr
      obtain ⟨c, hc, hmem, -, rfl⟩ := walk_of_lookup hl
      by_cases hig2 : shouldIgnore (filepathJoin path x) ds2 es2 ps2 = true
      · exact ⟨rest2, (rangeItems_cons ..).2 (Or.inl ⟨hig2, h2⟩),
          hsub.trans ((List.sublist_append_right sub rest).trans (List.sublist_cons_self _ _))⟩
      · simp only [Bool.not_eq_true] at hig2
        have hl2 : lookupEntry (cs.map (entryOf ds2 es2 ps2)) x = some (entryOf ds2 es2 ps2 c) := by
          rw [lookupEntry_map, hc]
          rfl
        cases d with
        | true =>
          simp only [if_true] at hw
          obtain ⟨sub2, hw2, hsub2⟩ := hrec c hmem _ _ _ hw
          refine ⟨⟨pfx, connectorOf (i == n - 1), true, x⟩ :: (sub2 ++ rest2),
            (rangeItems_cons ..).2 (Or.inr ⟨hig2, _, true, sub2, rest2, hl2, hs, ?_, h2, rfl⟩),
            (hsub2.append hsub).cons₂ _⟩
          simp only [if_true]
          exact hw2
        | false =>
          simp only [Bool.false_eq_true, if_false] at hw
          subst hw
          refine ⟨⟨pfx, connectorOf (i == n - 1), false, x⟩ :: ([] ++ rest2),
            (rangeItems_cons ..).2 (Or.inr ⟨hig2, _, false, [], rest2, hl2, hs, ?_, h2, rfl⟩),
            ((List.Sublist.refl []).append hsub).cons₂ _⟩
          simp

/-- C16. Adding filters only removes lines and never changes the remaining
ones: if the second configuration holds all ignored directory names,
extensions and patterns of the first, then wherever the walk under the
first yields an output the walk under the second yields one too, and its
line sequence is a subsequence of the first, each surviving line identical
(as a line and as the rendered string). -/
theorem more_filters_only_remove_lines (ds1 es1 ps1 ds2 es2 ps2 : List Str)
    (hd : ds1 ⊆ ds2) (he : es1 ⊆ es2) (hp : ps1 ⊆ ps2) (t : Node) (path pfx : Str)
    (out1 : List TreeLine) (h : buildTree ds1 es1 ps1 t path pfx = some out1) :
    ∃ out2, buildTree ds2 es2 ps2 t path pfx = some out2 ∧ out2.Sublist out1
      ∧ (out2.map TreeLine.render).Sublist (out1.map TreeLine.render) := by
  suffices hs : ∃ out2, buildTree ds2 es2 ps2 t path pfx = some out2 ∧ out2.Sublist out1 by
    obtain ⟨out2, h2, hsub⟩ := hs
    exact ⟨out2, h2, hsub, hsub.map _⟩
  revert path pfx out1
  induction t using Node.induction with
  | h nm d s cs ih =>
    intro path pfx out1 h
    rw [buildTree_eq] at h ⊢
    exact rangeItems_mono ds1 es1 ps1 ds2 es2 ps2 hd he hp cs path pfx _ _
      (fun c hc p q out1 h1 => ih c hc p q out1 h1) 0 out1 h

/-- Witness of C16: the scenario tree without filters and with the
extension `.txt` ignored. -/
theorem more_filters_only_remove_lines_witness :
    ∃ out2, buildTree [] [utf8 ".txt"] [] scenarioTree (utf8 "root") [] = some out2
      ∧ out2.Sublist
          [⟨[], utf8 "├── ", true, utf8 "b"⟩, ⟨[], utf8 "└── ", false, utf8 "a.txt"⟩]
      ∧ (out2.map TreeLine.render).Sublist
          ([(⟨[], utf8 "├── ", true, utf8 "b"⟩ : TreeLine),
            ⟨[], utf8 "└── ", false, utf8 "a.txt"⟩].map TreeLine.render) :=
  more_filters_only_remove_lines [] [] [] [] [utf8 ".txt"] [] (List.Subset.refl _)
    (List.nil_subset _) (List.Subset.refl _) scenarioTree (utf8 "root") [] _ (by decide)


theorem distinctNamesList_iff (cs : List Node) :
    distinctNamesList cs = true ↔ ∀ c ∈ cs, distinctNames c = true := by
  induction cs with
  | nil => simp [distinctNamesList]
  | cons c cs ih => simp [distinctNamesList, ih]

theorem distinctNames_mk (nm : Str) (d : Bool) (s : Option Bool) (cs : List Node) :
    distinctNames (.mk nm d s cs) = true ↔
      (∀ c ∈ cs, distinctNames c = true) ∧ (cs.map Node.name).Nodup := by
  simp [distinctNames, distinctNamesList_iff]

/-- In a directory without repeated names, looking up the name of an entry
finds that entry. -/
theorem findChild_of_nodup (cs : List Node) (hn : (cs.map Node.name).Nodup) (c : Node)
    (hc : c ∈ cs) : findChild cs c.name = some c := by
  induction cs with
  | nil => exact absurd hc (List.not_mem_nil _)
  | cons a t ih =>
    rw [List.map_cons, List.nodup_cons] at hn
    unfold findChild at ih ⊢
    rw [List.find?_cons]
    rcases List.mem_cons.1 hc with rfl | hc
    · simp
    · have hne : a.name ≠ c.name := by
        intro e
        exact hn.1 (e ▸ List.mem_map_of_mem _ hc)
      have hb : (a.name == c.name) = false := by simpa using hne
      simp only [hb]
      exact ih hn.2 hc

/-- The names the specification lists among the entries `cs`, entry by
entry. -/
theorem visibleAmong_eq (ds es ps : List Str) (cs : List Node) (path : Str) :
    visibleAmong ds es ps cs path = (cs.map (fun c =>
      if kept ds es ps path c.name then
        c.name :: (if c.stat = some true then visibleBelow ds es ps c (filepathJoin path c.name)
          else [])
      else [])).flatten := by
  induction cs with
  | nil => simp [visibleAmong]
  | cons c cs ih => simp [visibleAmong, ih]

theorem allItems_perm (items : List (Str × Bool)) :
    (allItems items).Perm (items.map (fun e => e.1)) := by
  unfold allItems
  refine ((sortStrings_perm _).append (sortStrings_perm _)).trans ?_
  rw [← List.map_append]
  exact (List.filter_append_perm _ _).map _

theorem allItems_listing_perm (cs : List Node) :
    (allItems (listing cs)).Perm (cs.map Node.name) := by
  have := allItems_perm (listing cs)
  simpa [listing, Function.comp_def] using this

/-- The names of the lines of the loop, item by item. -/
theorem rangeItems_names (ds es ps : List Str) (cs : List Node) (path pfx : Str) (n : Nat)
    (names : List Str)
    (hrec : ∀ c ∈ cs, ∀ p q out, buildTree ds es ps c p q = some out →
      (out.map (fun l => l.name)).Perm (visibleBelow ds es ps c p))
    (i : Nat) (out : List TreeLine)
    (h : rangeItems ds es ps path pfx (cs.map (entryOf ds es ps)) n i names = some out) :
    (out.map (fun l => l.name)).Perm ((names.map (fun x =>
      match findChild cs x with
      | none => []
      | some c =>
        if kept ds es ps path c.name then
          c.name :: (if c.stat = some true then
            visibleBelow ds es ps c (filepathJoin path c.name) else [])
        else [])).flatten) := by
  induction names generalizing i out with
  | nil =>
    simp only [rangeItems, Option.some.injEq] at h
    subst h
    simp
  | cons x xs ih =>
    rcases (rangeItems_cons ..).1 h with ⟨hig, h1⟩ | ⟨hig, e, d, sub, rest, hl, hs, hw, hr, rfl⟩
    · have := ih _ _ h1
      simp only [List.map_cons, List.flatten_cons]
      cases hc : findChild cs x with
      | none => simpa using this
      | some c =>
        have hname := (findChild_some hc).2
        simp only [kept, hname, hig, Bool.not_true, Bool.false_eq_true, if_false,
          List.nil_append]
        exact this
    · have hrest := ih _ _ hr
      obtain ⟨c, hc, hmem, hname, rfl⟩ := walk_of_lookup hl
      simp only [List.map_cons, List.flatten_cons, hc, kept, hname, hig, Bool.not_false, if_true,
        List.map_append, List.cons_append]
      refine List.Perm.cons _ (List.Perm.append ?_ hrest)
      have hs' : c.stat = some d := hs
      cases d with
      | true =>
        simp only [if_true, entryOf] at hw
        simp only [hs', if_true]
        exact hrec c hmem _ _ _ hw
      | false =>
        simp only [Bool.false_eq_true, if_false] at hw
        subst hw
        simp [hs']

/-- The lines of the walk are, one for one, the entries the specification
lists. -/
theorem buildTree_names_perm (ds es ps : List Str) (t : Node) (hd : distinctNames t = true) :
    ∀ path pfx out, buildTree ds es ps t path pfx = some out →
      (out.map (fun l => l.name)).Perm (visibleBelow ds es ps t path) := by
  induction t using Node.induction with
  | h nm d s cs ih =>
    intro path pfx out h
    obtain ⟨hdeep, hnodup⟩ := (distinctNames_mk nm d s cs).1 hd
    rw [buildTree_eq] at h
    have h1 := rangeItems_names ds es ps cs path pfx _ _
      (fun c hc p q out hb => ih c hc (hdeep c hc) p q out hb) 0 out h
    refine h1.trans ?_
    rw [visibleBelow, visibleAmong_eq]
    refine (((allItems_listing_perm cs).map _).flatten).trans ?_
    rw [List.map_map]
    apply List.Perm.of_eq
    congr 1
    apply List.map_congr_left
    intro c hc
    simp only [Function.comp_apply, findChild_of_nodup cs hnodup c hc]


theorem filepathBase_ne_nil (path : Str) : filepathBase path ≠ [] := by
  unfold filepathBase
  split
  · simp
  · dsimp only
    split
    · simp
    · assumption

theorem rootName_ne_nil (w : World) (src root : Str) (h : rootName w src = .ok root) :
    root ≠ [] := by
  unfold rootName at h
  split at h
  · simp at h
  · dsimp only at h
    split at h
    · split at h
      · simp at h
      · rw [← Except.ok.inj h]
        exact filepathBase_ne_nil _
    · rw [← Except.ok.inj h]
      exact filepathBase_ne_nil _

theorem joinByte_cons_ne_nil (b : Nat) (x : Str) (r : List Str) (hx : x ≠ []) :
    joinByte b (x :: r) ≠ [] := by
  cases r with
  | nil => simpa [joinByte] using hx
  | cons y r => simp [joinByte, hx]

/-- Joined text ends with its last line: no separator follows it. -/
theorem joinByte_getLast (b : Nat) (xs : List Str) (l : Str) (h : xs.getLast? = some l) :
    l <:+ joinByte b xs := by
  induction xs with
  | nil => simp at h
  | cons x r ih =>
    cases r with
    | nil =>
      simp only [List.getLast?_singleton, Option.some.injEq] at h
      subst h
      exact List.suffix_refl _
    | cons y r =>
      rw [List.getLast?_cons_cons] at h
      rw [joinByte]
      exact (ih h).trans ((List.suffix_cons _ _).trans (List.suffix_append _ _))

instance : IsAntisymm Str StrLE where
  antisymm a b := by
    rw [strLE_iff, strLE_iff]
    intro h1 h2
    rcases (List.Lex.isTrichotomous (fun x y : Nat => x < y)).trichotomous a b with h | h | h
    · exact absurd h h2
    · exact h
    · exact absurd h h1

theorem sortStrings_eq_of_perm {xs ys : List Str} (h : xs.Perm ys) :
    sortStrings xs = sortStrings ys :=
  List.eq_of_perm_of_sorted
    (((sortStrings_perm xs).trans h).trans (sortStrings_perm ys).symm)
    (sortStrings_sorted xs) (sortStrings_sorted ys)

theorem allItems_eq_of_perm {xs ys : List (Str × Bool)} (h : xs.Perm ys) :
    allItems xs = allItems ys := by
  simp only [allItems]
  rw [sortStrings_eq_of_perm ((h.filter (fun e => e.2)).map (fun e => e.1)),
    sortStrings_eq_of_perm ((h.filter (fun e => !e.2)).map (fun e => e.1))]

/-- In directories without repeated names a lookup by name does not depend
on the order of the listing. -/
theorem findChild_perm {cs mid : List Node} (h : cs.Perm mid) (hn : (cs.map Node.name).Nodup)
    (item : Str) : findChild cs item = findChild mid item := by
  have hn2 : (mid.map Node.name).Nodup := (h.map _).nodup_iff.1 hn
  cases h1 : findChild cs item with
  | some c =>
    obtain ⟨hc, rfl⟩ := findChild_some h1
    exact (findChild_of_nodup mid hn2 c (h.subset hc)).symm
  | none =>
    cases h2 : findChild mid item with
    | none => rfl
    | some c =>
      obtain ⟨hc, rfl⟩ := findChild_some h2
      rw [findChild_of_nodup cs hn c (h.symm.subset hc)] at h1
      exact absurd h1 (by simp)

mutual
theorem sameUpToOrder_entry (ds es ps : List Str) : ∀ {t t' : Node}, SameUpToOrder t t' →
    distinctNames t = true →
    distinctNames t' = true ∧ t.isDir = t'.isDir ∧ entryOf ds es ps t = entryOf ds es ps t'
  | _, _, .mk nm d s cs mid cs' hperm hsame, hd => by
    obtain ⟨hdeep, hnodup⟩ := (distinctNames_mk nm d s cs).1 hd
    have hmid : distinctNamesList mid = true :=
      (distinctNamesList_iff mid).2 (fun c hc => hdeep c (hperm.symm.subset hc))
    obtain ⟨h1, h2, h3⟩ := sameChildren_entries ds es ps hsame hmid
    have hnames : cs'.map Node.name = mid.map Node.name := by
      have := congrArg (List.map (fun e : Str × Bool => e.1)) h2
      simpa [listing, Function.comp_def] using this.symm
    have hnodup' : (cs'.map Node.name).Nodup := by
      rw [hnames]
      exact (hperm.map _).nodup_iff.1 hnodup
    refine ⟨(distinctNames_mk nm d s cs').2 ⟨(distinctNamesList_iff cs').1 h1, hnodup'⟩, rfl, ?_⟩
    have hitems : allItems (listing cs) = allItems (listing cs') := by
      rw [← h2]
      exact allItems_eq_of_perm (hperm.map _)
    unfold entryOf
    simp only [Node.name, Node.stat, Entry.mk.injEq, true_and]
    funext p q
    rw [buildTree_eq, buildTree_eq, hitems, ← h3]
    apply rangeItems_congr
    intro item _ _
    rw [lookupEntry_map, lookupEntry_map, findChild_perm hperm hnodup item]
theorem sameChildren_entries (ds es ps : List Str) : ∀ {mid cs' : List Node},
    SameChildren mid cs' → distinctNamesList mid = true →
    distinctNamesList cs' = true ∧ listing mid = listing cs'
      ∧ mid.map (entryOf ds es ps) = cs'.map (entryOf ds es ps)
  | _, _, .nil, _ => ⟨rfl, rfl, rfl⟩
  | _, _, .cons c c' cs cs' hc hcs, hd => by
    have hd' : distinctNames c = true ∧ distinctNamesList cs = true := by
      simpa [distinctNamesList] using hd
    obtain ⟨h1, h2, h3⟩ := sameUpToOrder_entry ds es ps hc hd'.1
    obtain ⟨g1, g2, g3⟩ := sameChildren_entries ds es ps hcs hd'.2
    have hname : c.name = c'.name := congrArg Entry.name h3
    refine ⟨by simp [distinctNamesList, h1, g1], ?_, ?_⟩
    · simp only [listing, List.map_cons, hname, h2] at g2 ⊢
      rw [g2]
    · simp only [List.map_cons, h3, g3]
end


theorem sameUpToOrder_leaf (nm : Str) (d : Bool) (s : Option Bool) :
    SameUpToOrder (.mk nm d s []) (.mk nm d s []) :=
  .mk nm d s [] [] [] List.Perm.nil .nil

theorem reorderedTree_same : SameUpToOrder reorderedTree orderedTree :=
  .mk (utf8 "root") true (some true) _
    [directory (utf8 "a") [regularFile (utf8 "y"), regularFile (utf8 "x")], regularFile (utf8 "b")]
    _ (List.Perm.swap _ _ [])
    (.cons _ _ _ _
      (.mk (utf8 "a") true (some true) _ [regularFile (utf8 "x"), regularFile (utf8 "y")] _
        (List.Perm.swap _ _ [])
        (.cons _ _ _ _ (sameUpToOrder_leaf _ _ _)
          (.cons _ _ _ _ (sameUpToOrder_leaf _ _ _) .nil)))
      (.cons _ _ _ _ (sameUpToOrder_leaf _ _ _) .nil))

/-- C18. The output does not depend on the order in which the directory
entries are listed: for two trees that differ only in the order of the
listing of every directory, no directory listing a name twice, `buildTree`
gives the same result. -/
theorem listing_order_does_not_matter (ignoreDirs ignoreExts gitignorePatterns : List Str)
    (t t' : Node) (hsame : SameUpToOrder t t') (hdistinct : distinctNames t = true)
    (path pfx : Str) :
    buildTree ignoreDirs ignoreExts gitignorePatterns t path pfx
      = buildTree ignoreDirs ignoreExts gitignorePatterns t' path pfx := by
  have h := (sameUpToOrder_entry ignoreDirs ignoreExts gitignorePatterns hsame hdistinct).2.2
  exact congrFun (congrFun (congrArg Entry.walk h) path) pfx

/-- Witness of C18: `root/{a/{x, y}, b}` listed in two orders. -/
theorem listing_order_does_not_matter_witness :
    buildTree [] [] [] reorderedTree (utf8 "root") []
        = buildTree [] [] [] orderedTree (utf8 "root") []
    ∧ buildTree [] [] [] orderedTree (utf8 "root") []
        = some [⟨[], utf8 "├── ", true, utf8 "a"⟩,
            ⟨utf8 "│   ", utf8 "├── ", false, utf8 "x"⟩,
            ⟨utf8 "│   ", utf8 "└── ", false, utf8 "y"⟩,
            ⟨[], utf8 "└── ", false, utf8 "b"⟩] :=
  ⟨listing_order_does_not_matter [] [] [] reorderedTree orderedTree reorderedTree_same
    (by decide) (utf8 "root") [], by decide⟩


theorem decodeRune_width_pos (s : Str) (h : s ≠ []) : 1 ≤ (decodeRune s).2 := by
  cases s with
  | nil => exact absurd rfl h
  | cons s0 t =>
    rw [decodeRune]
    dsimp only
    generalize (if s0 = 0xE0 then 0xA0 else if s0 = 0xF0 then 0x90 else 0x80) = lo
    generalize (if s0 = 0xED then 0x9F else if s0 = 0xF4 then 0x8F else 0xBF) = hi
    by_cases c1 : s0 < 0x80
    · rw [if_pos c1]
    rw [if_neg c1]
    by_cases c2 : s0 < 0xC2 ∨ 0xF4 < s0
    · rw [if_pos c2]
    rw [if_neg c2]
    cases t with
    | nil => exact Nat.le_refl 1
    | cons s1 t1 =>
      dsimp only
      by_cases c3 : s1 < lo ∨ hi < s1
      · rw [if_pos c3]
      rw [if_neg c3]
      by_cases c4 : s0 < 0xE0
      · rw [if_pos c4]; exact Nat.le_of_lt (Nat.lt_succ_self 1)
      rw [if_neg c4]
      cases t1 with
      | nil => exact Nat.le_refl 1
      | cons s2 t2 =>
        dsimp only
        by_cases c5 : s2 < 0x80 ∨ 0xBF < s2
        · rw [if_pos c5]
        rw [if_neg c5]
        by_cases c6 : s0 < 0xF0
        · rw [if_pos c6]; exact Nat.le_of_lt (by omega : 1 < 3)
        rw [if_neg c6]
        cases t2 with
        | nil => exact Nat.le_refl 1
        | cons s3 t3 =>
          dsimp only
          by_cases c7 : s3 < 0x80 ∨ 0xBF < s3
          · rw [if_pos c7]
          rw [if_neg c7]
          exact Nat.le_of_lt (by omega : 1 < 4)

theorem getEsc_length {chunk c1 : Str} {r : Nat} (h : getEsc chunk = some (r, c1)) :
    c1.length < chunk.length := by
  cases chunk with
  | nil => simp [getEsc] at h
  | cons c cs =>
    rw [getEsc] at h
    dsimp only at h
    have hlen : (if c = 92 then cs else c :: cs).length ≤ (c :: cs).length := by
      split <;> simp
    generalize (if c = 92 then cs else c :: cs) = chunk1 at h hlen
    by_cases g1 : c = 45 ∨ c = 93
    · rw [if_pos g1] at h; exact absurd h (by simp)
    rw [if_neg g1] at h
    by_cases g2 : chunk1 = []
    · rw [if_pos g2] at h; exact absurd h (by simp)
    rw [if_neg g2] at h
    by_cases g3 : (decodeRune chunk1).1 = runeError ∧ (decodeRune chunk1).2 = 1
    · rw [if_pos g3] at h; exact absurd h (by simp)
    rw [if_neg g3] at h
    by_cases g4 : chunk1.drop (decodeRune chunk1).2 = []
    · rw [if_pos g4] at h; exact absurd h (by simp)
    rw [if_neg g4] at h
    simp only [Option.some.injEq, Prod.mk.injEq] at h
    rw [← h.2, List.length_drop]
    have hw := decodeRune_width_pos _ g2
    have hpos : 0 < chunk1.length := List.length_pos.2 g2
    omega

theorem classLoop_fuel (r : Nat) (f1 f2 : Nat) (chunk : Str) (m : Bool) (k : Nat)
    (h1 : chunk.length < f1) (h2 : chunk.length < f2) :
    classLoop r f1 chunk m k = classLoop r f2 chunk m k := by
  induction f1 generalizing f2 chunk m k with
  | zero => omega
  | succ a ih =>
    cases f2 with
    | zero => omega
    | succ b =>
      rw [classLoop, classLoop]
      split
      · rfl
      · cases hg : getEsc chunk with
        | none => rfl
        | some p =>
          obtain ⟨lo, chunk1⟩ := p
          have hl1 := getEsc_length hg
          dsimp only
          split
          · cases hg2 : getEsc chunk1.tail with
            | none => rfl
            | some p2 =>
              obtain ⟨hi, chunk2⟩ := p2
              have hl2 := getEsc_length hg2
              have hl3 : chunk1.tail.length ≤ chunk1.length := by simp
              dsimp only
              exact ih _ _ _ _ (by omega) (by omega)
          · exact ih _ _ _ _ (by omega) (by omega)

theorem classLoop_length (r : Nat) (f : Nat) (chunk : Str) (m : Bool) (k : Nat) (m' : Bool)
    (c3 : Str) (h : classLoop r f chunk m k = some (m', c3)) : c3.length < chunk.length := by
  induction f generalizing chunk m k with
  | zero => simp [classLoop] at h
  | succ a ih =>
    rw [classLoop] at h
    split at h
    · rename_i hc
      simp only [Option.some.injEq, Prod.mk.injEq] at h
      rw [← h.2]
      cases chunk with
      | nil => simp at hc
      | cons x t => simp
    · cases hg : getEsc chunk with
      | none => simp [hg] at h
      | some p =>
        obtain ⟨lo, chunk1⟩ := p
        have hl1 := getEsc_length hg
        simp only [hg] at h
        split at h
        · cases hg2 : getEsc chunk1.tail with
          | none => simp [hg2] at h
          | some p2 =>
            obtain ⟨hi, chunk2⟩ := p2
            have hl2 := getEsc_length hg2
            have hl3 : chunk1.tail.length ≤ chunk1.length := by simp
            simp only [hg2] at h
            have := ih _ _ _ h
            omega
        · have := ih _ _ _ h
          omega


/-- The loop of `matchChunk` never runs out of fuel: any fuel above the
length of the chunk gives the same result. -/
theorem matchChunkLoop_fuel (f1 f2 : Nat) (failed : Bool) (chunk s : Str)
    (h1 : chunk.length < f1) (h2 : chunk.length < f2) :
    matchChunkLoop f1 failed chunk s = matchChunkLoop f2 failed chunk s := by
  induction f1 generalizing f2 failed chunk s with
  | zero => omega
  | succ a ih =>
    cases f2 with
    | zero => omega
    | succ b =>
      rw [matchChunkLoop.eq_def a.succ, matchChunkLoop.eq_def b.succ]
      dsimp only
      cases chunk with
      | nil => rfl
      | cons c chunk1 =>
        dsimp only
        simp only [List.length_cons] at h1 h2
        split
        · have hlen : (if (decide (chunk1.head? = some 94)) = true then chunk1.tail
              else chunk1).length ≤ chunk1.length := by
            split <;> simp
          rw [classLoop_fuel _ a b _ _ _ (by omega) (by omega)]
          cases hcl : classLoop (if (failed || s.isEmpty) = true then 0 else (decodeRune s).1) b
              (if (decide (chunk1.head? = some 94)) = true then chunk1.tail else chunk1)
              false 0 with
          | none => rfl
          | some p =>
            obtain ⟨m, chunk3⟩ := p
            have := classLoop_length _ _ _ _ _ _ _ hcl
            dsimp only
            exact ih _ _ _ _ (by omega) (by omega)
        · split
          · exact ih _ _ _ _ (by omega) (by omega)
          · split
            · cases chunk1 with
              | nil => rfl
              | cons c2 chunk2 =>
                dsimp only
                simp only [List.length_cons] at h1 h2
                exact ih _ _ _ _ (by omega) (by omega)
            · exact ih _ _ _ _ (by omega) (by omega)

theorem scanSplit_chunk_ne_nil (b : Bool) (c : Nat) (cs : Str) (h : ¬ (c = 42 ∧ b = false)) :
    (scanSplit b (c :: cs)).1 ≠ [] := by
  rw [scanSplit.eq_def]
  dsimp only
  split
  · cases cs <;> simp
  · split
    · simp
    · split
      · simp
      · simp

/-- The rest `scanChunk` returns is shorter than a non-empty pattern. -/
theorem scanChunk_rest_length (p : Str) (hp : p ≠ []) :
    (scanChunk p).2.2.length < p.length := by
  have happ := scanSplit_append false (p.dropWhile (fun b => b == 42))
  have hlen := congrArg List.length happ
  rw [List.length_append] at hlen
  unfold scanChunk
  dsimp only
  cases p with
  | nil => exact absurd rfl hp
  | cons c cs =>
    by_cases hc : c = 42
    · have hd : (c :: cs).dropWhile (fun b => b == 42) = cs.dropWhile (fun b => b == 42) := by
        simp [List.dropWhile, hc]
      have hle : (cs.dropWhile (fun b => b == 42)).length ≤ cs.length :=
        (List.dropWhile_sublist _).length_le
      rw [hd] at hlen ⊢
      simp only [List.length_cons]
      omega
    · have hb : (c == 42) = false := by simpa using hc
      have hd : (c :: cs).dropWhile (fun b => b == 42) = c :: cs := by
        simp [List.dropWhile, hb]
      rw [hd] at hlen ⊢
      have hne := scanSplit_chunk_ne_nil false c cs (fun h => hc h.1)
      have hpos := List.length_pos.2 hne
      omega

/-- The main loop of `filepath.Match` never runs out of fuel: any fuel
above the length of the pattern gives the same result. -/
theorem matchLoop_fuel (f1 f2 : Nat) (p n : Str) (h1 : p.length < f1) (h2 : p.length < f2) :
    matchLoop f1 p n = matchLoop f2 p n := by
  induction f1 generalizing f2 p n with
  | zero => omega
  | succ a ih =>
    cases f2 with
    | zero => omega
    | succ b =>
      rw [matchLoop, matchLoop]
      by_cases hp : p = []
      · simp [hp]
      · have hl := scanChunk_rest_length p hp
        have hrec : ∀ t, matchLoop a (scanChunk p).2.2 t = matchLoop b (scanChunk p).2.2 t :=
          fun t => ih _ _ _ (by omega) (by omega)
        simp only [hp, if_false, hrec]

/-- Fuel beyond what `filepathMatch` supplies changes nothing. -/
theorem filepathMatch_fuel (p n : Str) (k : Nat) :
    matchLoop (p.length + 1 + k) p n = filepathMatch p n :=
  matchLoop_fuel _ _ p n (by omega) (by omega)

/-- Fuel beyond what `matchChunk` supplies changes nothing. -/
theorem matchChunk_fuel (chunk s : Str) (k : Nat) :
    matchChunkLoop (chunk.length + 1 + k) false chunk s = matchChunk chunk s :=
  matchChunkLoop_fuel _ _ false chunk s (by omega) (by omega)


/-- Where the range loop of a character class ends, and whether it reports
`ErrBadPattern`, depends on the chunk only, not on the rune compared. -/
theorem classLoop_rest_indep (r r' : Nat) (f : Nat) (chunk : Str) (m m' : Bool) (k : Nat) :
    (classLoop r f chunk m k).map Prod.snd = (classLoop r' f chunk m' k).map Prod.snd := by
  induction f generalizing chunk m m' k with
  | zero => rfl
  | succ a ih =>
    rw [classLoop, classLoop]
    split
    · rfl
    · cases hg : getEsc chunk with
      | none => rfl
      | some p =>
        obtain ⟨lo, chunk1⟩ := p
        dsimp only
        split
        · cases hg2 : getEsc chunk1.tail with
          | none => rfl
          | some p2 =>
            obtain ⟨hi, chunk2⟩ := p2
            dsimp only
            exact ih _ _ _ _
        · exact ih _ _ _ _

/-- Whether `matchChunk` reports `ErrBadPattern` depends on the chunk only,
not on the name it is matched against. -/
theorem matchChunkLoop_bad_indep (f : Nat) (failed failed' : Bool) (chunk s s' : Str) :
    matchChunkLoop f failed chunk s = .bad ↔ matchChunkLoop f failed' chunk s' = .bad := by
  induction f generalizing failed failed' chunk s s' with
  | zero => simp [matchChunkLoop]
  | succ a ih =>
    rw [matchChunkLoop.eq_def a.succ, matchChunkLoop.eq_def a.succ]
    dsimp only
    cases chunk with
    | nil =>
      dsimp only
      cases failed <;> cases failed' <;> simp
    | cons c chunk1 =>
      dsimp only
      split
      · have hind := classLoop_rest_indep
          (if (failed || s.isEmpty) = true then 0 else (decodeRune s).1)
          (if (failed' || s'.isEmpty) = true then 0 else (decodeRune s').1) a
          (if (decide (chunk1.head? = some 94)) = true then chunk1.tail else chunk1)
          false false 0
        cases h1 : classLoop (if (failed || s.isEmpty) = true then 0 else (decodeRune s).1) a
            (if (decide (chunk1.head? = some 94)) = true then chunk1.tail else chunk1)
            false 0 with
        | none =>
          rw [h1] at hind
          cases h2 : classLoop (if (failed' || s'.isEmpty) = true then 0 else (decodeRune s').1) a
              (if (decide (chunk1.head? = some 94)) = true then chunk1.tail else chunk1)
              false 0 with
          | none => simp
          | some q => rw [h2] at hind; simp at hind
        | some p =>
          rw [h1] at hind
          cases h2 : classLoop (if (failed' || s'.isEmpty) = true then 0 else (decodeRune s').1) a
              (if (decide (chunk1.head? = some 94)) = true then chunk1.tail else chunk1)
              false 0 with
          | none => rw [h2] at hind; simp at hind
          | some q =>
            rw [h2] at hind
            obtain ⟨m1, c1⟩ := p
            obtain ⟨m2, c2⟩ := q
            simp only [Option.map_some', Option.some.injEq] at hind
            subst hind
            dsimp only
            exact ih _ _ _ _ _
      · split
        · exact ih _ _ _ _ _
        · split
          · cases chunk1 with
            | nil => simp
            | cons c2 chunk2 =>
              dsimp only
              exact ih _ _ _ _ _
          · exact ih _ _ _ _ _

/-- The star loop reports `ErrBadPattern` only for a malformed chunk. -/
theorem starSkip_bad (chunk : Str) (lastChunk : Bool) (name : Str)
    (h : starSkip chunk lastChunk name = .bad) : matchChunk chunk [] = .bad := by
  induction name with
  | nil => simp [starSkip] at h
  | cons c name1 ih =>
    rw [starSkip] at h
    split at h
    · simp at h
    · cases hm : matchChunk chunk name1 with
      | bad => exact (matchChunkLoop_bad_indep _ _ _ _ _ _).1 hm
      | fail =>
        simp only [hm] at h
        exact ih h
      | rest t =>
        simp only [hm] at h
        split at h
        · exact ih h
        · simp at h

/-- One round of the main loop of `filepath.Match` on a pattern that is
not yet used up and does not end in a star: it ends without a match, or
with `ErrBadPattern` for the malformed first chunk, or it goes on with the
rest of the pattern. -/
theorem matchLoop_step (k : Nat) (p n : Str) (hp : p ≠ [])
    (hs : ¬ ((scanChunk p).1 = true ∧ (scanChunk p).2.1 = [])) :
    matchLoop (k + 1) p n = (false, false)
    ∨ (matchLoop (k + 1) p n = (false, true) ∧ matchChunk (scanChunk p).2.1 [] = .bad)
    ∨ ∃ t, matchLoop (k + 1) p n = matchLoop k (scanChunk p).2.2 t := by
  rw [matchLoop]
  simp only [hp, if_false, hs]
  have hskip : ∀ lc,
      (match starSkip (scanChunk p).2.1 lc n with
        | .found t1 => matchLoop k (scanChunk p).2.2 t1
        | .bad => (false, true)
        | .exhausted => (false, false)) = (false, false)
      ∨ ((match starSkip (scanChunk p).2.1 lc n with
        | .found t1 => matchLoop k (scanChunk p).2.2 t1
        | .bad => (false, true)
        | .exhausted => (false, false)) = (false, true)
          ∧ matchChunk (scanChunk p).2.1 [] = .bad)
      ∨ ∃ t, (match starSkip (scanChunk p).2.1 lc n with
        | .found t1 => matchLoop k (scanChunk p).2.2 t1
        | .bad => (false, true)
        | .exhausted => (false, false)) = matchLoop k (scanChunk p).2.2 t := by
    intro lc
    cases hk : starSkip (scanChunk p).2.1 lc n with
    | found t1 => exact Or.inr (Or.inr ⟨t1, rfl⟩)
    | bad => exact Or.inr (Or.inl ⟨rfl, starSkip_bad _ _ _ hk⟩)
    | exhausted => exact Or.inl rfl
  cases hm : matchChunk (scanChunk p).2.1 n with
  | bad => exact Or.inr (Or.inl ⟨rfl, (matchChunkLoop_bad_indep _ _ _ _ _ _).1 hm⟩)
  | fail =>
    dsimp only
    split
    · exact hskip _
    · exact Or.inl rfl
  | rest t =>
    dsimp only
    split
    · exact Or.inr (Or.inr ⟨t, rfl⟩)
    · split
      · exact hskip _
      · exact Or.inl rfl

/-- A pattern for which `filepath.Match` reports `ErrBadPattern` on some
name matches no name at all. -/
theorem matchLoop_bad_never_matches (fuel : Nat) (p n n' : Str)
    (h : (matchLoop fuel p n).2 = true) : (matchLoop fuel p n').1 = false := by
  induction fuel generalizing p n n' with
  | zero => rfl
  | succ k ih =>
    by_cases hp : p = []
    · rw [matchLoop] at h
      simp [hp] at h
    · by_cases hs : (scanChunk p).1 = true ∧ (scanChunk p).2.1 = []
      · rw [matchLoop] at h
        simp [hp, hs] at h
      · have hbadstep : matchChunk (scanChunk p).2.1 [] = .bad →
            (matchLoop (k + 1) p n').1 = false := by
          intro hb
          have hb' : matchChunk (scanChunk p).2.1 n' = .bad :=
            (matchChunkLoop_bad_indep _ _ _ _ _ _).1 hb
          rw [matchLoop]
          simp only [hp, if_false, hs, hb']
        rcases matchLoop_step k p n hp hs with h1 | ⟨-, hb⟩ | ⟨t, h1⟩
        · rw [h1] at h
          exact absurd h (by decide)
        · exact hbadstep hb
        · rw [h1] at h
          rcases matchLoop_step k p n' hp hs with h2 | ⟨-, hb⟩ | ⟨t', h2⟩
          · rw [h2]
          · exact hbadstep hb
          · rw [h2]
            exact ih _ _ _ h

/-- Removing from the pattern list patterns that match no path leaves
`shouldIgnore` unchanged. -/
theorem shouldIgnore_filter_patterns (path : Str) (ds es ps : List Str) (bad : Str → Bool)
    (hbad : ∀ pat, bad pat = true → (filepathMatch pat path).1 = false) :
    shouldIgnore path ds es ps = shouldIgnore path ds es (ps.filter (fun pat => !bad pat)) := by
  have hany : ps.any (fun pat => (filepathMatch pat path).1)
      = (ps.filter (fun pat => !bad pat)).any (fun pat => (filepathMatch pat path).1) := by
    rw [Bool.eq_iff_iff]
    simp only [List.any_eq_true, List.mem_filter, Bool.not_eq_true']
    constructor
    · rintro ⟨pat, hm, h1⟩
      refine ⟨pat, ⟨hm, ?_⟩, h1⟩
      cases h2 : bad pat with
      | false => rfl
      | true => rw [hbad pat h2] at h1; exact absurd h1 (by decide)
    · rintro ⟨pat, ⟨hm, -⟩, h1⟩
      exact ⟨pat, hm, h1⟩
  unfold shouldIgnore
  simp only [hany]

/-- C12. A malformed glob pattern, one for which `filepath.Match` reports
`ErrBadPattern`, never causes exclusion: a pattern for which it reports the
error, on the path at hand or on any other name, matches no path, so
`shouldIgnore` gives the same boolean with the patterns that are malformed
removed from the list (and, being a boolean function, never produces an
error).  For `a[` the error is reported on the name `a`; for `a*[` it is
reported on `a` but not on `b`, where the match fails before the malformed
part is read. -/
theorem malformed_patterns_never_match (path : Str)
    (ignoreDirs ignoreExts gitignorePatterns : List Str) :
    (∀ pat, (filepathMatch pat path).2 = true → (filepathMatch pat path).1 = false)
    ∧ (∀ pat name, (filepathMatch pat name).2 = true → (filepathMatch pat path).1 = false)
    ∧ filepathMatch (utf8 "a[") (utf8 "a") = (false, true)
    ∧ filepathMatch (utf8 "a*[") (utf8 "a") = (false, true)
    ∧ filepathMatch (utf8 "a*[") (utf8 "b") = (false, false)
    ∧ filepathMatch (utf8 "*a*[") (utf8 "b") = (false, false)
    ∧ shouldIgnore path ignoreDirs ignoreExts gitignorePatterns
      = shouldIgnore path ignoreDirs ignoreExts
          (gitignorePatterns.filter (fun pat => !(filepathMatch pat path).2))
    ∧ (∀ malformed : Str → Bool,
        (∀ pat, malformed pat = true → ∃ name, (filepathMatch pat name).2 = true) →
        shouldIgnore path ignoreDirs ignoreExts gitignorePatterns
          = shouldIgnore path ignoreDirs ignoreExts
              (gitignorePatterns.filter (fun pat => !malformed pat))) := by
  have hbad : ∀ pat name, (filepathMatch pat name).2 = true → (filepathMatch pat path).1 = false :=
    fun pat name h => matchLoop_bad_never_matches _ pat name path h
  refine ⟨fun pat => hbad pat path, hbad, by decide, by decide, by decide, by decide,
    shouldIgnore_filter_patterns path _ _ _ _ (fun pat h => hbad pat path h), ?_⟩
  intro malformed hm
  refine shouldIgnore_filter_patterns path _ _ _ _ (fun pat h => ?_)
  obtain ⟨name, hn⟩ := hm pat h
  exact hbad pat name hn

/-- Witness of C12: with the patterns `a[` and `b`, of which `a[` is
malformed, the path `a` is kept, as it is with the pattern `b` alone. -/
theorem malformed_patterns_never_match_witness :
    (∀ pat, (pat == utf8 "a[") = true → ∃ name, (filepathMatch pat name).2 = true)
    ∧ shouldIgnore (utf8 "a") [] [] [utf8 "a[", utf8 "b"]
        = shouldIgnore (utf8 "a") [] []
            ([utf8 "a[", utf8 "b"].filter (fun pat => !(pat == utf8 "a[")))
    ∧ [utf8 "a[", utf8 "b"].filter (fun pat => !(pat == utf8 "a[")) = [utf8 "b"]
    ∧ shouldIgnore (utf8 "a") [] [] [utf8 "a[", utf8 "b"] = false :=
  have hm : ∀ pat, (pat == utf8 "a[") = true → ∃ name, (filepathMatch pat name).2 = true :=
    fun pat h => ⟨utf8 "a", by rw [beq_iff_eq] at h; subst h; decide⟩
  ⟨hm,
    (malformed_patterns_never_match (utf8 "a") [] [] [utf8 "a[", utf8 "b"]).2.2.2.2.2.2.2
      (fun pat => pat == utf8 "a[") hm,
    by decide, by decide⟩


/-- The format of every line the loop emits at its own level is the one
`os.Stat` gives for the entry of that name. -/
theorem ownLines_rangeItems_stat (ds es ps : List Str) (path pfx : Str) (entries : List Entry)
    (n : Nat) (names : List Str)
    (hwalk : ∀ item ∈ names, ∀ e, lookupEntry entries item = some e → ∀ p b sub,
      e.walk p (childIndent pfx b) = some sub → ∀ l ∈ sub, l.indent ≠ pfx)
    (i : Nat) (out : List TreeLine)
    (h : rangeItems ds es ps path pfx entries n i names = some out) :
    ∀ l ∈ ownLines pfx out, ∃ e, lookupEntry entries l.name = some e ∧ e.stat = some l.isDir := by
  induction names generalizing i out with
  | nil =>
    simp [rangeItems] at h
    subst h
    simp [ownLines]
  | cons x xs ih =>
    have ih' := ih (fun item hi => hwalk item (List.mem_cons_of_mem _ hi))
    rcases (rangeItems_cons ..).1 h with ⟨-, h⟩ | ⟨-, e, d, sub, rest, hl, hs, hw, hr, rfl⟩
    · exact ih' _ _ h
    · intro l hm
      simp only [ownLines, List.mem_filter, decide_eq_true_eq] at hm
      obtain ⟨hm, hind⟩ := hm
      rcases List.mem_cons.1 hm with rfl | hm1
      · exact ⟨e, hl, hs⟩
      · rcases List.mem_append.1 hm1 with hm2 | hm2
        · cases d with
          | true =>
            simp only [if_true] at hw
            exact absurd hind (hwalk x (List.mem_cons_self _ _) e hl _ _ _ hw l hm2)
          | false =>
            simp only [Bool.false_eq_true, if_false] at hw
            subst hw
            exact absurd hm2 (List.not_mem_nil l)
        · exact ih' _ _ hr l (by simp [ownLines, hm2, hind])

/-- The format of every line `buildTree` emits for an entry of the
directory itself is the one `os.Stat` gives for the entry of that name. -/
theorem ownLines_buildTree_stat (ds es ps : List Str) (nm : Str) (d : Bool) (s : Option Bool)
    (cs : List Node) (path pfx : Str) (out : List TreeLine)
    (h : buildTree ds es ps (.mk nm d s cs) path pfx = some out) :
    ∀ l ∈ ownLines pfx out, ∃ c, findChild cs l.name = some c ∧ c.stat = some l.isDir := by
  rw [buildTree_eq] at h
  intro l hl
  have hwalk : ∀ item ∈ allItems (listing cs), ∀ e,
      lookupEntry (cs.map (entryOf ds es ps)) item = some e → ∀ p b sub,
      e.walk p (childIndent pfx b) = some sub → ∀ l ∈ sub, l.indent ≠ pfx := by
    intro item _ e he p b sub hw
    obtain ⟨c, -, -, -, rfl⟩ := walk_of_lookup he
    exact indent_ne_of_buildTree ds es ps c p pfx b sub hw
  obtain ⟨e, he, hs⟩ := ownLines_rangeItems_stat ds es ps path pfx _ _ _ hwalk 0 out h l hl
  obtain ⟨c, hc, -, -, rfl⟩ := walk_of_lookup he
  exact ⟨c, hc, hs⟩

/-- The format of the line of a kept entry for which `os.Stat` agrees with
the listing, in a directory that lists no name twice. -/
theorem isDir_of_agreement (ds es ps : List Str) (cs : List Node) (path : Str)
    (hn : (cs.map Node.name).Nodup)
    (hagree : ∀ c ∈ cs, kept ds es ps path c.name = true → c.stat = some c.isDir)
    (l : TreeLine) (b : Bool)
    (hstat : ∃ c, findChild cs l.name = some c ∧ c.stat = some l.isDir)
    (hmem : l.name ∈ (((listing cs).filter (fun e => e.2 == b)).map (fun e => e.1)).filter
      (kept ds es ps path)) : l.isDir = b := by
  rw [names_filter_listing, List.mem_map] at hmem
  obtain ⟨c', hc', hname⟩ := hmem
  simp only [List.mem_filter, Bool.and_eq_true, beq_iff_eq] at hc'
  obtain ⟨hmem', hd, hk⟩ := hc'
  obtain ⟨c, hc, hs⟩ := hstat
  have hfind := findChild_of_nodup cs hn c' hmem'
  rw [hname, hc] at hfind
  have hcc : c = c' := Option.some.inj hfind
  subst hcc
  rw [hagree c hmem' hk, hd] at hs
  exact (Option.some.inj hs).symm

/-- C2, amended. Within each directory the emitted lines of its kept
entries that the directory listing reports as directories come first, in
ascending byte-wise name order, followed by the lines of its kept other
entries, in ascending byte-wise name order.  Whether a line has the
directory or the file format follows `os.Stat` on the entry, so a symbolic
link to a directory has a directory line in the second group.  When
`os.Stat` agrees with the listing on every kept entry of the directory (and
no name is listed twice), the first group are the directory lines and the
second the file lines, so every directory line stands before every file
line.  The scenario `root/{a.txt, b/, .hidden}` without filters writes
exactly `root`, `├── b`, `└── - a.txt`. -/
theorem directories_before_files_each_sorted :
    (∀ ignoreDirs ignoreExts gitignorePatterns (t : Node) path pfx out,
      buildTree ignoreDirs ignoreExts gitignorePatterns t path pfx = some out →
      ∃ dirLines fileLines,
        ownLines pfx out = dirLines ++ fileLines
        ∧ (dirLines.map (fun l => l.name)).Sorted StrLE
        ∧ (fileLines.map (fun l => l.name)).Sorted StrLE
        ∧ (dirLines.map (fun l => l.name)).Perm ((t.children.filter (fun c =>
            c.isDir && kept ignoreDirs ignoreExts gitignorePatterns path c.name)).map (fun c => c.name))
        ∧ (fileLines.map (fun l => l.name)).Perm ((t.children.filter (fun c =>
            !c.isDir && kept ignoreDirs ignoreExts gitignorePatterns path c.name)).map (fun c => c.name))
        ∧ (∀ l ∈ ownLines pfx out, ∃ c, findChild t.children l.name = some c
            ∧ c.stat = some l.isDir)
        ∧ ((t.children.map Node.name).Nodup →
            (∀ c ∈ t.children, kept ignoreDirs ignoreExts gitignorePatterns path c.name = true →
              c.stat = some c.isDir) →
            (∀ l ∈ dirLines, l.isDir = true) ∧ (∀ l ∈ fileLines, l.isDir = false)
            ∧ DirectoryLinesFirst pfx out))
    ∧ generateDirectoryStructure scenarioWorld (utf8 "root") (utf8 "out.md") [] []
        = some ⟨utf8 "Project structure written to out.md\n",
            some (utf8 "root\n├── b\n└── - a.txt")⟩ := by
  refine ⟨?_, by decide⟩
  intro ds es ps t path pfx out h
  obtain ⟨nm, d, s, cs⟩ := t
  have hown := ownLines_buildTree ds es ps nm d s cs path pfx out h
  have hstat := ownLines_buildTree_stat ds es ps nm d s cs path pfx out h
  simp only [allItems, List.filter_append] at hown
  generalize hA : (sortStrings (((listing cs).filter (fun e => e.2)).map (fun e => e.1))).filter
    (kept ds es ps path) = A at hown
  generalize hB : (sortStrings (((listing cs).filter (fun e => !e.2)).map (fun e => e.1))).filter
    (kept ds es ps path) = B at hown
  have hsplit : ownLines pfx out
      = (ownLines pfx out).take A.length ++ (ownLines pfx out).drop A.length :=
    (List.take_append_drop _ _).symm
  have hd1 : ((ownLines pfx out).take A.length).map (fun l => l.name) = A := by
    rw [List.map_take, hown, List.take_left']
    rfl
  have hd2 : ((ownLines pfx out).drop A.length).map (fun l => l.name) = B := by
    rw [List.map_drop, hown, List.drop_left']
    rfl
  have hAs : A.Sorted StrLE := hA ▸ (sortStrings_sorted _).filter _
  have hBs : B.Sorted StrLE := hB ▸ (sortStrings_sorted _).filter _
  have hAmem : ∀ x ∈ A, x ∈ (((listing cs).filter (fun e => e.2 == true)).map
      (fun e => e.1)).filter (kept ds es ps path) := by
    intro x hx
    rw [← hA] at hx
    simp only [beq_true]
    exact ((sortStrings_perm _).filter _).mem_iff.1 hx
  have hBmem : ∀ x ∈ B, x ∈ (((listing cs).filter (fun e => e.2 == false)).map
      (fun e => e.1)).filter (kept ds es ps path) := by
    intro x hx
    rw [← hB] at hx
    simp only [beq_false]
    exact ((sortStrings_perm _).filter _).mem_iff.1 hx
  refine ⟨(ownLines pfx out).take A.length, (ownLines pfx out).drop A.length, hsplit,
    by rw [hd1]; exact hAs, by rw [hd2]; exact hBs, ?_, ?_, hstat, ?_⟩
  · rw [hd1, ← hA]
    refine ((sortStrings_perm _).filter _).trans ?_
    have := names_filter_listing cs true (kept ds es ps path)
    simp only [beq_true] at this
    simp only [Node.children]
    rw [this]
  · rw [hd2, ← hB]
    refine ((sortStrings_perm _).filter _).trans ?_
    have := names_filter_listing cs false (kept ds es ps path)
    simp only [beq_false] at this
    simp only [Node.children]
    rw [this]
  · intro hn hagree
    simp only [Node.children] at hn hagree
    have hdir : ∀ l ∈ (ownLines pfx out).take A.length, l.isDir = true := by
      intro l hl
      refine isDir_of_agreement ds es ps cs path hn hagree l true
        (hstat l (List.mem_of_mem_take hl)) (hAmem _ ?_)
      rw [← hd1]
      exact List.mem_map_of_mem _ hl
    have hfile : ∀ l ∈ (ownLines pfx out).drop A.length, l.isDir = false := by
      intro l hl
      refine isDir_of_agreement ds es ps cs path hn hagree l false
        (hstat l (List.mem_of_mem_drop hl)) (hBmem _ ?_)
      rw [← hd2]
      exact List.mem_map_of_mem _ hl
    refine ⟨hdir, hfile, ?_⟩
    unfold DirectoryLinesFirst
    rw [hsplit, List.pairwise_append]
    refine ⟨?_, ?_, ?_⟩
    · have hp : ((ownLines pfx out).take A.length).Pairwise
          (fun a b => StrLE a.name b.name) := by
        have hs1 : (((ownLines pfx out).take A.length).map (fun l => l.name)).Sorted StrLE := by
          rw [hd1]; exact hAs
        exact List.pairwise_map.1 hs1
      refine hp.imp_of_mem ?_
      intro a b ha _ hab
      exact ⟨fun _ => hdir a ha, fun _ => hab⟩
    · have hp : ((ownLines pfx out).drop A.length).Pairwise
          (fun a b => StrLE a.name b.name) := by
        have hs2 : (((ownLines pfx out).drop A.length).map (fun l => l.name)).Sorted StrLE := by
          rw [hd2]; exact hBs
        exact List.pairwise_map.1 hs2
      refine hp.imp_of_mem ?_
      intro a b _ hb hab
      exact ⟨fun h1 => absurd h1 (by rw [hfile b hb]; decide), fun _ => hab⟩
    · intro a ha b hb
      rw [hdir a ha, hfile b hb]
      exact ⟨fun h1 => absurd h1 (by decide), fun h1 => absurd h1 (by decide)⟩

/-- Counterexample to C2: in `root/{zdir/{p}, b.txt, zlink}`, where `zlink`
is a symbolic link to the directory `zdir`, the directory line of `zlink`
stands after the file line of `b.txt`. -/
theorem linked_directory_listed_after_file :
    ∃ out, buildTree [] [] [] linkedTree (utf8 "root") [] = some out
      ∧ out = [⟨[], utf8 "├── ", true, utf8 "zdir"⟩, ⟨utf8 "│   ", utf8 "└── ", false, utf8 "p"⟩,
          ⟨[], utf8 "├── ", false, utf8 "b.txt"⟩, ⟨[], utf8 "└── ", true, utf8 "zlink"⟩,
          ⟨utf8 "    ", utf8 "└── ", false, utf8 "p"⟩]
      ∧ out.map TreeLine.render
          = [utf8 "├── zdir", utf8 "│   └── - p", utf8 "├── - b.txt", utf8 "└── zlink",
              utf8 "    └── - p"]
      ∧ ¬ DirectoryLinesFirst [] out :=
  ⟨_, by decide, rfl, by decide, by decide⟩

/-- Witness of C2: on the scenario tree `os.Stat` agrees with the listing,
and the directory line of `b` stands before the file line of `a.txt`; on
the tree with the link `zlink` the first group is `zdir` and the second
`b.txt`, `zlink`. -/
theorem directories_before_files_each_sorted_witness :
    (buildTree [] [] [] scenarioTree (utf8 "root") []
        = some [⟨[], utf8 "├── ", true, utf8 "b"⟩, ⟨[], utf8 "└── ", false, utf8 "a.txt"⟩]
      ∧ (scenarioTree.children.map Node.name).Nodup
      ∧ (∀ c ∈ scenarioTree.children, kept [] [] [] (utf8 "root") c.name = true →
          c.stat = some c.isDir)
      ∧ ∃ dirLines fileLines,
          ownLines [] [⟨[], utf8 "├── ", true, utf8 "b"⟩, ⟨[], utf8 "└── ", false, utf8 "a.txt"⟩]
            = dirLines ++ fileLines
          ∧ (dirLines.map (fun l => l.name)).Sorted StrLE
          ∧ (fileLines.map (fun l => l.name)).Sorted StrLE
          ∧ (dirLines.map (fun l => l.name)).Perm ((scenarioTree.children.filter (fun c =>
              c.isDir && kept [] [] [] (utf8 "root") c.name)).map (fun c => c.name))
          ∧ (fileLines.map (fun l => l.name)).Perm ((scenarioTree.children.filter (fun c =>
              !c.isDir && kept [] [] [] (utf8 "root") c.name)).map (fun c => c.name))
          ∧ (∀ l ∈ dirLines, l.isDir = true) ∧ (∀ l ∈ fileLines, l.isDir = false)
          ∧ DirectoryLinesFirst []
              [⟨[], utf8 "├── ", true, utf8 "b"⟩, ⟨[], utf8 "└── ", false, utf8 "a.txt"⟩])
    ∧ ∃ dirLines fileLines,
        ownLines [] [⟨[], utf8 "├── ", true, utf8 "zdir"⟩,
            ⟨utf8 "│   ", utf8 "└── ", false, utf8 "p"⟩,
            ⟨[], utf8 "├── ", false, utf8 "b.txt"⟩, ⟨[], utf8 "└── ", true, utf8 "zlink"⟩,
            ⟨utf8 "    ", utf8 "└── ", false, utf8 "p"⟩]
          = dirLines ++ fileLines
        ∧ (dirLines.map (fun l => l.name)).Sorted StrLE
        ∧ (fileLines.map (fun l => l.name)).Sorted StrLE
        ∧ (dirLines.map (fun l => l.name)).Perm [utf8 "zdir"]
        ∧ (fileLines.map (fun l => l.name)).Perm [utf8 "b.txt", utf8 "zlink"] := by
  refine ⟨⟨by decide, by decide, by decide, ?_⟩, ?_⟩
  · obtain ⟨dl, fl, h1, h2, h3, h4, h5, -, h7⟩ :=
      directories_before_files_each_sorted.1 [] [] [] scenarioTree (utf8 "root") [] _
        (show buildTree [] [] [] scenarioTree (utf8 "root") []
          = some [⟨[], utf8 "├── ", true, utf8 "b"⟩, ⟨[], utf8 "└── ", false, utf8 "a.txt"⟩]
          by decide)
    obtain ⟨h8, h9, h10⟩ := h7 (by decide) (by decide)
    exact ⟨dl, fl, h1, h2, h3, h4, h5, h8, h9, h10⟩
  · obtain ⟨dl, fl, h1, h2, h3, h4, h5, -, -⟩ :=
      directories_before_files_each_sorted.1 [] [] [] linkedTree (utf8 "root") [] _
        (show buildTree [] [] [] linkedTree (utf8 "root") []
          = some [⟨[], utf8 "├── ", true, utf8 "zdir"⟩,
            ⟨utf8 "│   ", utf8 "└── ", false, utf8 "p"⟩,
            ⟨[], utf8 "├── ", false, utf8 "b.txt"⟩, ⟨[], utf8 "└── ", true, utf8 "zlink"⟩,
            ⟨utf8 "    ", utf8 "└── ", false, utf8 "p"⟩] by decide)
    exact ⟨dl, fl, h1, h2, h3, h4, h5⟩

/-- The text `strings.Join` builds: the first string, then every further
string preceded by one separator byte. -/
theorem joinByte_cons_eq (b : Nat) (x : Str) (r : List Str) :
    joinByte b (x :: r) = x ++ (r.map (fun y => b :: y)).flatten := by
  induction r generalizing x with
  | nil => simp [joinByte]
  | cons y r ih => rw [joinByte, ih y]; simp

/-- The text `strings.Join` builds is the strings with the separator byte
put between them. -/
theorem joinByte_eq_intercalate (b : Nat) (xs : List Str) :
    joinByte b xs = List.intercalate [b] xs := by
  match xs with
  | [] => rfl
  | [x] => simp [joinByte, List.intercalate]
  | x :: y :: r =>
    rw [joinByte, joinByte_eq_intercalate b (y :: r)]
    simp [List.intercalate, List.intersperse]

/-- C11. Whenever a run writes its output, the text is the root line
followed, for every line of the walk in order, by one line feed and that
line: the lines joined by `\n`, with nothing after the last line, so the
text is not empty; and the lines of the walk are, one for one, the entries of
the tree that `shouldIgnore` does not exclude and all of whose ancestor
directories below the source root are not excluded either.  (No directory
lists a name twice.) -/
theorem output_is_root_line_and_visible_entries (w : World) (sourcePath outputPath : Str)
    (ignoreDirs ignoreExts : List Str) (eff : Effect) (text : Str)
    (hdistinct : distinctNames w.root = true)
    (h : generateDirectoryStructure w sourcePath outputPath ignoreDirs ignoreExts = some eff)
    (ht : eff.written = some text) :
    ∃ root lines, rootName w sourcePath = .ok root
      ∧ buildTree ignoreDirs ignoreExts (parseGitignore w.gitignore) w.root sourcePath []
          = some lines
      ∧ text = joinLines (root :: lines.map TreeLine.render)
      ∧ text = root ++ (lines.map (fun l => utf8 "\n" ++ l.render)).flatten
      ∧ text = List.intercalate (utf8 "\n") (root :: lines.map TreeLine.render)
      ∧ text.length = root.length + (lines.map (fun l => 1 + l.render.length)).sum
      ∧ (lines.map (fun l => l.name)).Perm
          (visibleBelow ignoreDirs ignoreExts (parseGitignore w.gitignore) w.root sourcePath)
      ∧ text ≠ []
      ∧ ∀ last, (root :: lines.map TreeLine.render).getLast? = some last → last <:+ text := by
  unfold generateDirectoryStructure at h
  split at h
  · rw [← Option.some.inj h] at ht
    simp at ht
  · cases hr : rootName w sourcePath with
    | error msg =>
      simp only [hr] at h
      rw [← Option.some.inj h] at ht
      simp at ht
    | ok root =>
      simp only [hr] at h
      cases hb : buildTree ignoreDirs ignoreExts (parseGitignore w.gitignore) w.root sourcePath []
        with
      | none => simp [treeStructure, hb] at h
      | some lines =>
        simp only [treeStructure, hb, Option.map_some'] at h
        cases hc : w.createError with
        | some e =>
          simp only [hc] at h
          rw [← Option.some.inj h] at ht
          simp at ht
        | none =>
          simp only [hc] at h
          rw [← Option.some.inj h] at ht
          simp only [Option.some.injEq] at ht
          subst ht
          have hflat : joinLines (root :: lines.map TreeLine.render)
              = root ++ (lines.map (fun l => utf8 "\n" ++ l.render)).flatten := by
            rw [joinLines, joinByte_cons_eq, List.map_map]
            rfl
          refine ⟨root, lines, rfl, rfl, rfl, hflat, joinByte_eq_intercalate 10 _, ?_,
            buildTree_names_perm _ _ _ w.root hdistinct _ _ _ hb,
            joinByte_cons_ne_nil 10 _ _ (rootName_ne_nil w sourcePath root hr),
            fun last hl => joinByte_getLast 10 _ last hl⟩
          rw [hflat, List.length_append, List.length_flatten, List.map_map]
          congr 3
          funext l
          show (utf8 "\n" ++ l.render).length = 1 + l.render.length
          rw [List.length_append]
          rfl

/-- Witness of C11 on the scenario run, which writes the 30 bytes
`root\n├── b\n└── - a.txt`. -/
theorem output_is_root_line_and_visible_entries_witness :
    ∃ root lines, rootName scenarioWorld (utf8 "root") = .ok root
      ∧ buildTree [] [] (parseGitignore scenarioWorld.gitignore) scenarioWorld.root (utf8 "root") []
          = some lines
      ∧ utf8 "root\n├── b\n└── - a.txt" = joinLines (root :: lines.map TreeLine.render)
      ∧ utf8 "root\n├── b\n└── - a.txt"
          = root ++ (lines.map (fun l => utf8 "\n" ++ l.render)).flatten
      ∧ utf8 "root\n├── b\n└── - a.txt"
          = List.intercalate (utf8 "\n") (root :: lines.map TreeLine.render)
      ∧ (utf8 "root\n├── b\n└── - a.txt").length
          = root.length + (lines.map (fun l => 1 + l.render.length)).sum
      ∧ (lines.map (fun l => l.name)).Perm
          (visibleBelow [] [] (parseGitignore scenarioWorld.gitignore) scenarioWorld.root
            (utf8 "root"))
      ∧ utf8 "root\n├── b\n└── - a.txt" ≠ []
      ∧ ∀ last, (root :: lines.map TreeLine.render).getLast? = some last →
          last <:+ utf8 "root\n├── b\n└── - a.txt" :=
  output_is_root_line_and_visible_entries scenarioWorld (utf8 "root") (utf8 "out.md") [] []
    ⟨utf8 "Project structure written to out.md\n", some (utf8 "root\n├── b\n└── - a.txt")⟩ _
    (by decide) (by decide) rfl

end Khonshu
